import Mathlib

/-!
# Graphs-in-GO: fixed-size directed graphs with labelled edges

A shallow embedding of package `graph` (`graph.go`, `hash.go`, `matrix.go`) and of the
component-enumeration loop of `dfs_test.go` / `main.go`.

Modelling conventions.

* Go `int` indices are `Int`; indexing a slice outside `[0, len)` is a run-time panic.
  Queries return `Option` (`none` = panic); mutators return `Result`, which carries the
  state of the receiver both on normal return and at the moment of a panic.
* `interface{}` values are `Value`. `Value.noEdge` is the value of the unexported variable
  `noEdge` of `matrix.go`: code outside the package cannot name it and no method returns it.
* A Go map is an association list `GoMap`; a nil map is `none`. The order of a `range` over a
  map is unspecified: it is an explicit parameter `ord` (any permutation of the entries).
* `DoNeighbors` returns the sequence of `(w, x)` for which `action(w, x)` is called.
* `traverse` returns the final `visited` array together with the sequence of arguments
  of `action`.
-/

namespace GoGraph

/-! ## Values, slices, maps -/

/-- Dynamic values of `interface{}` used as edge labels. -/
inductive Value where
  /-- The nil interface value. -/
  | nil
  /-- The exported `graph.NoLabel`. -/
  | NoLabel
  /-- The unexported `noEdge` of `matrix.go`. -/
  | noEdge
  /-- Any other value supplied by the caller (the tests use integers). -/
  | int (k : Int)
  deriving DecidableEq, Repr

/-- Outcome of a mutating method: normal return, or a run-time panic; `s` is the state of
the receiver at that moment. -/
inductive Result (σ : Type) where
  | ok (s : σ)
  | panic (s : σ)
  deriving DecidableEq, Repr

/-- Sequencing of two calls on the same receiver: a panic aborts the rest. -/
def Result.andThen {σ : Type} (r : Result σ) (f : σ → Result σ) : Result σ :=
  match r with
  | .ok s => f s
  | .panic s => .panic s

/-- The receiver state carried by an outcome. -/
def Result.state {σ : Type} : Result σ → σ
  | .ok s => s
  | .panic s => s

/-- Slice read `s[i]`: `none` stands for the index-out-of-range panic. -/
def index {α : Type} (s : List α) (i : Int) : Option α :=
  if 0 ≤ i then s[i.toNat]? else none

/-- Slice write `s[i] = x` (callers check the bounds first). -/
def setIndex {α : Type} (s : List α) (i : Int) (x : α) : List α :=
  s.set i.toNat x

/-- Entries of a non-nil Go map `map[int]interface{}`. -/
abbrev GoMap := List (Int × Value)

/-- Lookup in the entries of a map. -/
def lookup : GoMap → Int → Option Value
  | [], _ => none
  | (k', y) :: m, k => if k' = k then some y else lookup m k

/-- Comma-ok read `x, ok := m[k]`; reading a nil map finds nothing. -/
def mapGet (m : Option GoMap) (k : Int) : Option Value :=
  match m with
  | none => none
  | some l => lookup l k

/-- Assignment `m[k] = x` on a non-nil map. -/
def mapSet : GoMap → Int → Value → GoMap
  | [], k, x => [(k, x)]
  | (k', y) :: m, k, x => if k' = k then (k, x) :: m else (k', y) :: mapSet m k x

/-- Builtin `delete(m, k)` on a non-nil map. -/
def mapDelete (m : GoMap) (k : Int) : GoMap :=
  m.filter (fun e => decide (e.1 ≠ k))

/-- Entries of a possibly nil map. -/
def mapEntries (m : Option GoMap) : GoMap :=
  match m with
  | none => []
  | some l => l

/-- Builtin `len(m)`. -/
def mapLen (m : Option GoMap) : Int :=
  ((mapEntries m).length : Int)

/-- The order in which `range` yields the entries of the map of vertex `v`. -/
abbrev RangeOrder := Int → GoMap → GoMap

/-- The enumeration orders the Go runtime may choose: permutations of the entries. -/
def RangeOrder.Valid (ord : RangeOrder) : Prop :=
  ∀ v m, List.Perm (ord v m) m

/-- The enumeration in storage order. -/
def storageOrder : RangeOrder := fun _ m => m

/-! ## hash.go -/

/-- Embedding of `type Hash struct`. -/
structure Hash where
  edges : List (Option GoMap)
  numEdges : Int
  deriving DecidableEq, Repr

/-- `make` with a negative length panics (`none`). -/
def NewHash (n : Int) : Option Hash :=
  if 0 ≤ n then some { edges := List.replicate n.toNat none, numEdges := 0 } else none

def Hash.NumVertices (g : Hash) : Int :=
  (g.edges.length : Int)

def Hash.NumEdges (g : Hash) : Int :=
  g.numEdges

def Hash.Degree (g : Hash) (v : Int) : Option Int :=
  match index g.edges v with
  | none => none
  | some neighbours_of_v => some (mapLen neighbours_of_v)

/-- The calls `action(w, label)` made by `DoNeighbors(v, action)`, in order. -/
def Hash.DoNeighbors (ord : RangeOrder) (g : Hash) (v : Int) : Option (List (Int × Value)) :=
  match index g.edges v with
  | none => none
  | some w_plural => some (ord v (mapEntries w_plural))

/-- The loop of `HasEdge` returns true at the first key equal to `w`; the result does not
depend on the order of the map iteration. -/
def Hash.HasEdge (g : Hash) (v w : Int) : Option Bool :=
  match index g.edges v with
  | none => none
  | some neighbours_v => some ((mapEntries neighbours_v).any (fun e => decide (e.1 = w)))

def Hash.Label (g : Hash) (v w : Int) : Option Value :=
  match index g.edges v with
  | none => none
  | some neighbours_v =>
    match mapGet neighbours_v w with
    | some label => some label
    | none => some Value.nil

def Hash.Add (g : Hash) (from_ to_ : Int) : Result Hash :=
  match index g.edges from_ with
  | none => .panic g
  | some neighbours_from =>
    let numEdges := if (mapGet neighbours_from to_).isNone then g.numEdges + 1 else g.numEdges
    let neighbours_from := match neighbours_from with
      | none => ([] : GoMap)
      | some m => m
    .ok { edges := setIndex g.edges from_ (some (mapSet neighbours_from to_ Value.NoLabel)),
          numEdges := numEdges }

def Hash.AddLabel (g : Hash) (from_ to_ : Int) (x : Value) : Result Hash :=
  match index g.edges from_ with
  | none => .panic g
  | some m0 =>
    let m := match m0 with
      | none => ([] : GoMap)
      | some m => m
    let numEdges := if (lookup m to_).isNone then g.numEdges + 1 else g.numEdges
    .ok { edges := setIndex g.edges from_ (some (mapSet m to_ x)), numEdges := numEdges }

def Hash.AddBi (g : Hash) (v w : Int) : Result Hash :=
  (g.Add w v).andThen (fun g => g.Add v w)

def Hash.AddBiLabel (g : Hash) (v w : Int) (x : Value) : Result Hash :=
  (g.AddLabel w v x).andThen (fun g => g.AddLabel v w x)

def Hash.Remove (g : Hash) (from_ to_ : Int) : Result Hash :=
  match index g.edges from_ with
  | none => .panic g
  | some m0 =>
    match mapGet m0 to_ with
    | some _ =>
      .ok { edges := setIndex g.edges from_ (some (mapDelete (mapEntries m0) to_)),
            numEdges := g.numEdges - 1 }
    | none => .ok g

def Hash.RemoveBi (g : Hash) (v w : Int) : Result Hash :=
  (g.Remove w v).andThen (fun g => g.Remove v w)

/-! ## matrix.go -/

/-- Embedding of `type Matrix struct`. -/
structure Matrix where
  adj : List (List Value)
  numEdges : Int
  deriving DecidableEq, Repr

/-- `make` with a negative length panics (`none`). -/
def NewMatrix (n : Int) : Option Matrix :=
  if 0 ≤ n then
    some { adj := List.replicate n.toNat (List.replicate n.toNat Value.noEdge), numEdges := 0 }
  else none

def Matrix.NumVertices (g : Matrix) : Int :=
  (g.adj.length : Int)

def Matrix.NumEdges (g : Matrix) : Int :=
  g.numEdges

def Matrix.Degree (g : Matrix) (v : Int) : Option Int :=
  match index g.adj v with
  | none => none
  | some row => some ((row.filter (fun x => decide (x ≠ Value.noEdge))).length : Int)

/-- The loop `for w, x := range row` of `DoNeighbors`: the pairs `(w, x)` with
`x != noEdge`, by ascending `w`. -/
def rowNeighbors (row : List Value) : List (Int × Value) :=
  (row.enum.filter (fun p => decide (p.2 ≠ Value.noEdge))).map (fun p => ((p.1 : Int), p.2))

/-- The calls `action(w, x)` made by `DoNeighbors(v, action)`, in order. -/
def Matrix.DoNeighbors (g : Matrix) (v : Int) : Option (List (Int × Value)) :=
  match index g.adj v with
  | none => none
  | some row => some (rowNeighbors row)

def Matrix.HasEdge (g : Matrix) (v w : Int) : Option Bool :=
  match index g.adj v with
  | none => none
  | some row =>
    match index row w with
    | none => none
    | some x => some (decide (x ≠ Value.noEdge))

def Matrix.Label (g : Matrix) (v w : Int) : Option Value :=
  match index g.adj v with
  | none => none
  | some row =>
    match index row w with
    | none => none
    | some x => if x = Value.noEdge then some Value.nil else some x

def Matrix.AddLabel (g : Matrix) (from_ to_ : Int) (x : Value) : Result Matrix :=
  match index g.adj from_ with
  | none => .panic g
  | some row =>
    match index row to_ with
    | none => .panic g
    | some y =>
      let numEdges := if y = Value.noEdge then g.numEdges + 1 else g.numEdges
      .ok { adj := setIndex g.adj from_ (setIndex row to_ x), numEdges := numEdges }

def Matrix.Add (g : Matrix) (from_ to_ : Int) : Result Matrix :=
  g.AddLabel from_ to_ Value.NoLabel

def Matrix.AddBiLabel (g : Matrix) (v w : Int) (x : Value) : Result Matrix :=
  (g.AddLabel v w x).andThen (fun g => if v ≠ w then g.AddLabel w v x else .ok g)

def Matrix.AddBi (g : Matrix) (v w : Int) : Result Matrix :=
  g.AddBiLabel v w Value.NoLabel

def Matrix.Remove (g : Matrix) (from_ to_ : Int) : Result Matrix :=
  match index g.adj from_ with
  | none => .panic g
  | some row =>
    match index row to_ with
    | none => .panic g
    | some x =>
      if x = Value.noEdge then .ok g
      else .ok { adj := setIndex g.adj from_ (setIndex row to_ Value.noEdge),
                 numEdges := g.numEdges - 1 }

def Matrix.RemoveBi (g : Matrix) (v w : Int) : Result Matrix :=
  (g.Remove v w).andThen (fun g => if v ≠ w then g.Remove w v else .ok g)

/-! ## graph.go -/

/-- Embedding of `type Iterator interface`: the vertex count, and for each `v` the sequence
of calls `action(w, x)` made by `DoNeighbors(v, action)` (`none`: the call panics). -/
structure Iterator where
  NumVertices : Int
  DoNeighbors : Int → Option (List (Int × Value))

/-- A `*Hash` seen as an `Iterator`; `ord` is the order in which `range` yields map entries. -/
def Hash.toIterator (ord : RangeOrder) (g : Hash) : Iterator :=
  { NumVertices := g.NumVertices, DoNeighbors := g.DoNeighbors ord }

/-- A `*Matrix` seen as an `Iterator`. -/
def Matrix.toIterator (g : Matrix) : Iterator :=
  { NumVertices := g.NumVertices, DoNeighbors := g.DoNeighbors }

/-- The constants `bfs` and `dfs`, the only values `BFS` and `DFS` pass as `order`. -/
inductive Order where
  | bfs
  | dfs
  deriving DecidableEq, Repr

/-- Abnormal ends of a traversal: a run-time panic, or the step budget of `loop` used up. -/
inductive Err where
  | panic
  | outOfFuel
  deriving DecidableEq, Repr

deriving instance DecidableEq for Except

/-- The variables of `traverse`: the work queue, the caller's `visited` array, and the
arguments of the calls of `action` so far, oldest first. -/
structure State where
  queue : List Int
  visited : List Bool
  calls : List Int
  deriving DecidableEq, Repr

/-- Embedding of `func visit`. -/
def visit (v : Int) (s : State) : Except Err State :=
  match index s.visited v with
  | none => .error .panic
  | some _ =>
    .ok { queue := s.queue ++ [v], visited := setIndex s.visited v true, calls := s.calls ++ [v] }

/-- The closure passed to `DoNeighbors` by `traverse`, applied to neighbor `w`. -/
def visitIfNew (s : State) (w : Int) : Except Err State :=
  match index s.visited w with
  | none => .error .panic
  | some true => .ok s
  | some false => visit w s

/-- Runs the closure of `traverse` on the calls made by `DoNeighbors`, in order. -/
def doCalls : List (Int × Value) → State → Except Err State
  | [], s => .ok s
  | (w, _) :: ns, s =>
    match visitIfNew s w with
    | .error e => .error e
    | .ok s' => doCalls ns s'

/-- The `switch order` of `traverse`: `none` when the queue is empty. -/
def pop : Order → List Int → Option (Int × List Int)
  | .bfs, [] => none
  | .bfs, v :: queue => some (v, queue)
  | .dfs, queue =>
    match queue.getLast? with
    | none => none
    | some v => some (v, queue.dropLast)

/-- The `for len(queue) > 0` loop of `traverse`, with a budget of `fuel` iterations. -/
def loop (g : Iterator) (order : Order) : Nat → State → Except Err State
  | fuel, s =>
    match pop order s.queue with
    | none => .ok s
    | some (v, queue) =>
      match fuel with
      | 0 => .error .outOfFuel
      | fuel + 1 =>
        match g.DoNeighbors v with
        | none => .error .panic
        | some ns =>
          match doCalls ns { s with queue := queue } with
          | .error e => .error e
          | .ok s' => loop g order fuel s'

/-- Embedding of `func traverse`. Every iteration of the loop pops a vertex that was pushed
when its entry of `visited` turned from false to true, so `len(visited)` iterations are
enough: `Err.outOfFuel` is never returned (`traverse_ne_outOfFuel`). -/
def traverse (g : Iterator) (v : Int) (visited : List Bool) (order : Order) :
    Except Err State :=
  match index visited v with
  | none => .error .panic
  | some true => .ok { queue := [], visited := visited, calls := [] }
  | some false =>
    match visit v { queue := [], visited := visited, calls := [] } with
    | .error e => .error e
    | .ok s => loop g order visited.length s

def BFS (g : Iterator) (v : Int) (visited : List Bool) : Except Err State :=
  traverse g v visited Order.bfs

def DFS (g : Iterator) (v : Int) (visited : List Bool) : Except Err State :=
  traverse g v visited Order.dfs

/-! ## The component loop of dfs_test.go and main.go -/

/-- The loop `for v, visited := range state` with body `if !visited`, `DFS(g, v, state, action)`,
over the remaining indices `vs`; `groups` collects the arguments of `action`, one list per
call of `DFS`. -/
def runDFSLoop (g : Iterator) : List Nat → List Bool → List (List Int) →
    Except Err (List Bool × List (List Int))
  | [], state, groups => .ok (state, groups)
  | v :: vs, state, groups =>
    match index state (v : Int) with
    | some false =>
      match DFS g (v : Int) state with
      | .error e => .error e
      | .ok s => runDFSLoop g vs s.visited (groups ++ [s.calls])
    | _ => runDFSLoop g vs state groups

/-- Embedding of `runDFS` (main.go) and of the loop of `ExampleDFS` (dfs_test.go), with an
action that records its argument: the groups printed between braces. `make` panics on a
negative length. -/
def runDFS (g : Iterator) : Except Err (List (List Int)) :=
  if g.NumVertices < 0 then .error .panic
  else
    let state := List.replicate g.NumVertices.toNat false
    match runDFSLoop g (List.range state.length) state [] with
    | .error e => .error e
    | .ok r => .ok r.2

/-! ## Sequences of mutations -/

/-- One call of a mutating method. -/
inductive Op where
  | Add (v w : Int)
  | AddLabel (v w : Int) (x : Value)
  | AddBi (v w : Int)
  | AddBiLabel (v w : Int) (x : Value)
  | Remove (v w : Int)
  | RemoveBi (v w : Int)
  deriving DecidableEq, Repr

/-- The two vertex arguments of a call. -/
def Op.args : Op → Int × Int
  | .Add v w => (v, w)
  | .AddLabel v w _ => (v, w)
  | .AddBi v w => (v, w)
  | .AddBiLabel v w _ => (v, w)
  | .Remove v w => (v, w)
  | .RemoveBi v w => (v, w)

/-- The label argument of a call, for the methods that take one. -/
def Op.label : Op → Option Value
  | .AddLabel _ _ x => some x
  | .AddBiLabel _ _ x => some x
  | _ => none

/-- A call a client of the package can make on a graph of `n` vertices without a panic:
both indices in `[0, n)`, and a label that is not the package-private `noEdge`. -/
def Op.Valid (n : Int) (op : Op) : Prop :=
  (0 ≤ op.args.1 ∧ op.args.1 < n) ∧ (0 ≤ op.args.2 ∧ op.args.2 < n) ∧
    op.label ≠ some Value.noEdge

instance (n : Int) (op : Op) : Decidable (op.Valid n) :=
  inferInstanceAs (Decidable ((0 ≤ op.args.1 ∧ op.args.1 < n) ∧
    (0 ≤ op.args.2 ∧ op.args.2 < n) ∧ op.label ≠ some Value.noEdge))

def Hash.apply (g : Hash) : Op → Result Hash
  | .Add v w => g.Add v w
  | .AddLabel v w x => g.AddLabel v w x
  | .AddBi v w => g.AddBi v w
  | .AddBiLabel v w x => g.AddBiLabel v w x
  | .Remove v w => g.Remove v w
  | .RemoveBi v w => g.RemoveBi v w

def Matrix.apply (g : Matrix) : Op → Result Matrix
  | .Add v w => g.Add v w
  | .AddLabel v w x => g.AddLabel v w x
  | .AddBi v w => g.AddBi v w
  | .AddBiLabel v w x => g.AddBiLabel v w x
  | .Remove v w => g.Remove v w
  | .RemoveBi v w => g.RemoveBi v w

/-- The calls `ops` made one after the other on `g`. -/
def Hash.run (g : Hash) : List Op → Result Hash
  | [] => .ok g
  | op :: ops => (g.apply op).andThen (fun g' => Hash.run g' ops)

/-- The calls `ops` made one after the other on `g`. -/
def Matrix.run (g : Matrix) : List Op → Result Matrix
  | [] => .ok g
  | op :: ops => (g.apply op).andThen (fun g' => Matrix.run g' ops)

/-- The number of ordered pairs `(v, w)` of `[0, n) x [0, n)` with `HasEdge(v, w)` true. -/
def countEdges (hasEdge : Int → Int → Option Bool) (n : Nat) : Nat :=
  ((Finset.range n ×ˢ Finset.range n).filter
    (fun p => hasEdge (p.1 : Int) (p.2 : Int) = some true)).card

/-! ## Test fixtures -/

/-- The graph of `ExampleDFS`: 5 vertices, `AddBi(1, 2)`, `AddBi(2, 3)`, `AddBi(4, 4)`. -/
def exampleOps : List Op := [.AddBi 1 2, .AddBi 2 3, .AddBi 4 4]

/-- The edges of `TestDFS`, inserted with `AddBi` on 8 vertices. -/
def testDFSOps : List Op :=
  [.AddBi 0 1, .AddBi 0 3, .AddBi 1 4, .AddBi 3 4, .AddBi 5 3, .AddBi 2 2, .AddBi 6 7]

/-- The edges of `TestBFS`, inserted with `AddBi` on 10 vertices. -/
def testBFSOps : List Op :=
  [.AddBi 0 1, .AddBi 0 4, .AddBi 0 7, .AddBi 0 9, .AddBi 4 2, .AddBi 7 5, .AddBi 7 8,
   .AddBi 2 3, .AddBi 5 6, .AddBi 3 6, .AddBi 8 9, .AddBi 4 4]

/-- The calls of `setup` that build `g5` (5 vertices). -/
def setupOps : List Op := [.Add 0 1, .AddLabel 2 3 (.int 1)]

/-- The calls of `setup` and `TestNumEdges` on `g5`, up to the last `AddBi`. -/
def testNumEdgesOps : List Op :=
  [.Add 0 1, .AddLabel 2 3 (.int 1), .Remove 1 2, .Add 0 1, .Add 2 1, .Remove 0 1,
   .Remove 1 0, .RemoveBi 1 0, .RemoveBi 1 2, .AddBi 2 3]

/-- A fresh `Matrix` of `n` vertices after the calls `ops` (the state at a panic, if any). -/
def matrixOf (n : Int) (ops : List Op) : Matrix :=
  match NewMatrix n with
  | none => { adj := [], numEdges := 0 }
  | some g => (g.run ops).state

/-- A fresh `Hash` of `n` vertices after the calls `ops` (the state at a panic, if any). -/
def hashOf (n : Int) (ops : List Op) : Hash :=
  match NewHash n with
  | none => { edges := [], numEdges := 0 }
  | some g => (g.run ops).state

/-! ## Observations used by the proofs -/

/-- The state of the pair `(v, w)` in a `Hash`: `none` when reading `g.edges[v]` panics,
`some none` when the edge is absent, `some (some x)` when it is present with label `x`. -/
def Hash.cell (g : Hash) (v w : Int) : Option (Option Value) :=
  match index g.edges v with
  | none => none
  | some m => some (mapGet m w)

/-- The state of the pair `(v, w)` in a `Matrix`: `none` when reading `g.adj[v][w]` panics,
`some none` when the cell holds `noEdge`, `some (some x)` when it holds the label `x`. -/
def Matrix.cell (g : Matrix) (v w : Int) : Option (Option Value) :=
  match index g.adj v with
  | none => none
  | some row =>
    match index row w with
    | none => none
    | some x => if x = Value.noEdge then some none else some (some x)

/-- The matrix has `n` rows of `n` cells. -/
def Matrix.Square (n : Nat) (g : Matrix) : Prop :=
  g.adj.length = n ∧ ∀ row ∈ g.adj, row.length = n

/-- Every map of the graph has pairwise distinct keys, all of them in `[0, n)`. -/
def Hash.KeysOk (n : Nat) (g : Hash) : Prop :=
  g.edges.length = n ∧
    ∀ m ∈ g.edges, ((mapEntries m).map Prod.fst).Nodup ∧
      ∀ k ∈ (mapEntries m).map Prod.fst, 0 ≤ k ∧ k < (n : Int)

/-! ## The edge map of the specification -/

/-- The edge state of the specification: each ordered pair is absent (`none`) or carries a
label. -/
abbrev EdgeMap := Int → Int → Option Value

/-- The edge map with the pair `(i, j)` set to `val`. -/
def upd (c : EdgeMap) (i j : Int) (val : Option Value) : EdgeMap :=
  fun v w => if v = i ∧ w = j then val else c v w

/-- The mutators as the specification words them: a directed operation sets one pair, a
bidirectional one is the directed operation on `(v, w)` and on `(w, v)`. -/
def specApply (c : EdgeMap) : Op → EdgeMap
  | .Add v w => upd c v w (some Value.NoLabel)
  | .AddLabel v w x => upd c v w (some x)
  | .AddBi v w => upd (upd c v w (some Value.NoLabel)) w v (some Value.NoLabel)
  | .AddBiLabel v w x => upd (upd c v w (some x)) w v (some x)
  | .Remove v w => upd c v w none
  | .RemoveBi v w => upd (upd c v w none) w v none

/-- The specification's edge map after the calls `ops`. -/
def specRun (c : EdgeMap) : List Op → EdgeMap
  | [] => c
  | op :: ops => specRun (specApply c op) ops

/-- `HasEdge` of the specification. -/
def specHasEdge (c : EdgeMap) : Int → Int → Option Bool :=
  fun v w => some (c v w).isSome

/-- The `Hash` `h` of `n` vertices represents the edge map `c`. -/
structure Hash.Models (n : Nat) (h : Hash) (c : EdgeMap) : Prop where
  keys : h.KeysOk n
  cell : ∀ v w : Int, 0 ≤ v → v < (n : Int) → 0 ≤ w → w < (n : Int) →
    h.cell v w = some (c v w)
  count : h.numEdges = countEdges (specHasEdge c) n

/-- The `Matrix` `m` of `n` vertices represents the edge map `c`. -/
structure Matrix.Models (n : Nat) (m : Matrix) (c : EdgeMap) : Prop where
  square : m.Square n
  cell : ∀ v w : Int, 0 ≤ v → v < (n : Int) → 0 ≤ w → w < (n : Int) →
    m.cell v w = some (c v w)
  count : m.numEdges = countEdges (specHasEdge c) n

/-! ## Reachability -/

/-- The graph has an edge from `u` to `w`: `DoNeighbors(u, action)` calls `action` on `w`. -/
def Edge (g : Iterator) (u w : Int) : Prop :=
  ∃ ns, g.DoNeighbors u = some ns ∧ w ∈ ns.map Prod.fst

/-- The vertex `w` is reached from `u` by following edges outward (`u` reaches itself). -/
def Reachable (g : Iterator) (u w : Int) : Prop :=
  Relation.ReflTransGen (Edge g) u w

/-- All stored neighbors lie in `[0, n)`: at every vertex of `[0, n)`, `DoNeighbors` returns
normally and calls `action` only on vertices of `[0, n)`. -/
def Iterator.InRange (g : Iterator) (n : Nat) : Prop :=
  ∀ v : Int, 0 ≤ v → v < (n : Int) →
    ∃ ns, g.DoNeighbors v = some ns ∧ ∀ p ∈ ns, 0 ≤ p.1 ∧ p.1 < (n : Int)

/-- The number of entries of `visited` that are still false, plus the length of the queue:
it decreases by one at every iteration of the loop of `traverse`. -/
def State.measure (s : State) : Nat :=
  s.visited.count false + s.queue.length

/-- Invariant of `traverse` started at `start` on the array `visited0`. `pend` is the
vertex whose neighbors are being enumerated, if any, and `done` the neighbors already passed
to the closure. -/
structure TravInv (g : Iterator) (visited0 : List Bool) (start : Int) (pend : Option Int)
    (done : List Int) (s : State) : Prop where
  len : s.visited.length = visited0.length
  vis : ∀ w, index s.visited w = some true ↔ (index visited0 w = some true ∨ w ∈ s.calls)
  nodup : s.calls.Nodup
  head : s.calls.head? = some start
  queue_sub : ∀ w ∈ s.queue, w ∈ s.calls
  pend_mem : ∀ v, pend = some v → v ∈ s.calls
  reach : ∀ w ∈ s.calls, Reachable g start w
  closed : ∀ u ∈ s.calls, u ∉ s.queue → pend ≠ some u →
    ∀ w, Edge g u w → index s.visited w = some true
  done_vis : ∀ w ∈ done, index s.visited w = some true
  parent : ∀ w ∈ s.calls, w ≠ start →
    ∃ l1 l2 u, s.calls = l1 ++ w :: l2 ∧ u ∈ l1 ∧ Edge g u w

/-! ## Recursive depth-first search -/

/-- A recursive depth-first search, by its call stack: `RecDFS g stack ord fin` says that
the search whose active calls are on the vertices of `stack` (innermost first), having
first-visited the vertices `ord` in that order, can end with the first-visit order `fin`.
The call on `u` picks any neighbor `w` of `u` that is still unvisited, visits it and
searches it recursively (`descend`); it returns when no neighbor of `u` is unvisited
(`ret`). -/
inductive RecDFS (g : Iterator) : List Int → List Int → List Int → Prop where
  | done (ord : List Int) : RecDFS g [] ord ord
  | descend {u w : Int} {st ord fin : List Int} :
      Edge g u w → w ∉ ord → RecDFS g (w :: u :: st) (ord ++ [w]) fin →
      RecDFS g (u :: st) ord fin
  | ret {u : Int} {st ord fin : List Int} :
      (∀ w, Edge g u w → w ∈ ord) → RecDFS g st ord fin → RecDFS g (u :: st) ord fin

/-- The list `l` is the order in which some recursive depth-first search from `start`
first visits the vertices. -/
def IsDFSPreorder (g : Iterator) (start : Int) (l : List Int) : Prop :=
  RecDFS g [start] [start] l

/-- A directed graph on 4 vertices with the edges 0 -> 1, 0 -> 2, 1 -> 3. -/
def forkOps : List Op := [.Add 0 1, .Add 0 2, .Add 1 3]

/-! ## Components -/

/-- The groups are the connected components of the graph on `[0, n)`, in order of their
smallest vertex: every vertex of `[0, n)` occurs in the groups, exactly once overall; every
group starts with its smallest vertex `r` and holds exactly the vertices reachable from
`r`; the first vertices of the groups increase along the list. -/
def ComponentGroups (g : Iterator) (n : Nat) (groups : List (List Int)) : Prop :=
  (∀ v : Int, v ∈ groups.flatten ↔ 0 ≤ v ∧ v < (n : Int)) ∧
  groups.flatten.Nodup ∧
  (∀ grp ∈ groups, ∃ r, grp.head? = some r ∧ (∀ x ∈ grp, r ≤ x) ∧
    ∀ w, w ∈ grp ↔ Reachable g r w) ∧
  groups.Pairwise (fun A B => ∀ a b, A.head? = some a → B.head? = some b → a < b)

/-- Invariant of the component loop before index `k`. -/
structure CompInv (g : Iterator) (n k : Nat) (state : List Bool)
    (groups : List (List Int)) : Prop where
  len : state.length = n
  vis : ∀ w, index state w = some true ↔ w ∈ groups.flatten
  below : ∀ u : Int, 0 ≤ u → u < (k : Int) → index state u = some true
  closed : ∀ w x, index state w = some true → Reachable g w x → index state x = some true
  nodup : groups.flatten.Nodup
  comp : ∀ grp ∈ groups, ∃ r, grp.head? = some r ∧ r < (k : Int) ∧
    (∀ x ∈ grp, r ≤ x) ∧ ∀ w, w ∈ grp ↔ Reachable g r w
  sorted : groups.Pairwise (fun A B => ∀ a b, A.head? = some a → B.head? = some b → a < b)

/-- The call is an `AddBi`. -/
def Op.isAddBi : Op → Bool
  | .AddBi _ _ => true
  | _ => false

/-- Every call of the sequence is an `AddBi`. -/
abbrev OnlyAddBi (ops : List Op) : Prop :=
  ∀ op ∈ ops, op.isAddBi = true

/-- The edge map has an edge from `v` to `w` exactly when it has one from `w` to `v`. -/
def EdgeMap.Symm (c : EdgeMap) : Prop :=
  ∀ v w, (c v w).isSome = (c w v).isSome

/-! ## Distances -/

/-- There is a directed path of `k` edges from `u` to `w`. -/
inductive Walk (g : Iterator) (u : Int) : Nat → Int → Prop where
  | nil : Walk g u 0 u
  | snoc {k : Nat} {v w : Int} : Walk g u k v → Edge g v w → Walk g u (k + 1) w

/-- The number `d` is the distance from `u` to `w`: the length of a shortest directed path
from `u` to `w`. -/
def IsDist (g : Iterator) (u w : Int) (d : Nat) : Prop :=
  Walk g u d w ∧ ∀ k, Walk g u k w → d ≤ k

/-- Invariant of `BFS` for a distance function `d`; `front` is the vertex whose neighbors
are being enumerated, or else the head of the queue. -/
structure BFSInv (g : Iterator) (start : Int) (d : Int → Nat) (front : Option Int)
    (s : State) : Prop where
  sorted : s.calls.Pairwise (fun a b => d a ≤ d b)
  qsorted : s.queue.Pairwise (fun a b => d a ≤ d b)
  qge : ∀ f, front = some f → ∀ y ∈ s.queue, d f ≤ d y
  bound : ∀ f, front = some f → ∀ w ∈ s.calls, d w ≤ d f + 1
  complete : ∀ f, front = some f → ∀ x, Reachable g start x → d x ≤ d f → x ∈ s.calls

/-! ## Observable state -/

/-- The two `Hash` graphs answer `NumVertices`, `NumEdges`, `HasEdge`, `Label` and `Degree`
alike, at all indices. -/
def Hash.SameQueries (g g' : Hash) : Prop :=
  g.NumVertices = g'.NumVertices ∧ g.NumEdges = g'.NumEdges ∧
    ∀ v w : Int, g.HasEdge v w = g'.HasEdge v w ∧ g.Label v w = g'.Label v w ∧
      g.Degree v = g'.Degree v

/-- The two `Matrix` graphs answer `NumVertices`, `NumEdges`, `HasEdge`, `Label` and
`Degree` alike, at all indices. -/
def Matrix.SameQueries (g g' : Matrix) : Prop :=
  g.NumVertices = g'.NumVertices ∧ g.NumEdges = g'.NumEdges ∧
    ∀ v w : Int, g.HasEdge v w = g'.HasEdge v w ∧ g.Label v w = g'.Label v w ∧
      g.Degree v = g'.Degree v

/-! ## Degree and enumeration -/

/-- The number of `w` in `[0, n)` with `HasEdge(v, w)` true: the out-degree of `v`. -/
def countRow (hasEdge : Int → Int → Option Bool) (v : Int) (n : Nat) : Nat :=
  ((Finset.range n).filter (fun w : Nat => hasEdge v (w : Int) = some true)).card

/-- The keys of every map of the graph are pairwise distinct, as the keys of a Go map
are. -/
abbrev Hash.DistinctKeys (g : Hash) : Prop :=
  ∀ m ∈ g.edges, ((mapEntries m).map Prod.fst).Nodup

/-- The calls of `setup` on `g5` followed by those of `TestDoNeighbors`. -/
def testDoNeighborsOps : List Op :=
  [.Add 0 1, .AddLabel 2 3 (.int 1), .Add 0 0, .Add 0 1, .Add 2 0, .Add 0 3]

/-! ## Frame of the directed mutators -/

/-- From `g` to `g'` the number of vertices is unchanged, and `HasEdge` and `Label` are
unchanged at every ordered pair other than `(v, w)`. -/
def Hash.OnlyTouches (g g' : Hash) (v w : Int) : Prop :=
  g'.NumVertices = g.NumVertices ∧
    ∀ v' w' : Int, (v', w') ≠ (v, w) →
      g'.HasEdge v' w' = g.HasEdge v' w' ∧ g'.Label v' w' = g.Label v' w'

/-- From `g` to `g'` the number of vertices is unchanged, and `HasEdge` and `Label` are
unchanged at every ordered pair other than `(v, w)`. -/
def Matrix.OnlyTouches (g g' : Matrix) (v w : Int) : Prop :=
  g'.NumVertices = g.NumVertices ∧
    ∀ v' w' : Int, (v', w') ≠ (v, w) →
      g'.HasEdge v' w' = g.HasEdge v' w' ∧ g'.Label v' w' = g.Label v' w'

/-- The calls of `setup` on `g5` followed by the `Add(2, 1)` of `TestHasEdge`. -/
def testHasEdgeOps : List Op := [.Add 0 1, .AddLabel 2 3 (.int 1), .Add 2 1]

/-- Edges `0 -> 1`, `1 -> 2`, `0 -> 3`, `2 -> 0` on 4 vertices, with one choice of
labels. -/
def labelOpsA : List Op :=
  [.AddLabel 0 1 (.int 1), .AddLabel 1 2 (.int 2), .Add 0 3, .Add 2 0]

/-- The edges of `labelOpsA` inserted in another order and with other labels. -/
def labelOpsB : List Op :=
  [.Add 2 0, .AddLabel 0 3 .nil, .AddLabel 0 1 (.int 7), .Add 1 2]

/-- The effect of a traversal on the caller's array: `action` was called only on vertices
whose entry of `visited` was false, at most once each, and the final array `s.visited` is
`visited` with the entries of exactly these vertices set to true. -/
structure Frame (visited : List Bool) (s : State) : Prop where
  fresh : ∀ w ∈ s.calls, index visited w = some false
  nodup : s.calls.Nodup
  len : s.visited.length = visited.length
  marks : ∀ w : Int, index s.visited w = if w ∈ s.calls then some true else index visited w

/-- The sequence `calls` starts with `start`, and every later element `w` comes after
some `u` of the sequence with an edge `E u w`. -/
def ParentBefore (E : Int → Int → Prop) (start : Int) (calls : List Int) : Prop :=
  calls.head? = some start ∧
    ∀ (i : Nat) (w : Int), 0 < i → calls[i]? = some w →
      ∃ (j : Nat) (u : Int), j < i ∧ calls[j]? = some u ∧ E u w

/-! # Theorems -/

/-! ## Slices and maps -/

theorem index_eq_some_iff {α : Type} {s : List α} {i : Int} {x : α} :
    index s i = some x ↔ 0 ≤ i ∧ s[i.toNat]? = some x := by
  unfold index
  split <;> simp [*]

theorem index_natCast {α : Type} (s : List α) (k : Nat) : index s (k : Int) = s[k]? := by
  simp [index]

theorem index_isSome_of_lt {α : Type} {s : List α} {i : Int} (h0 : 0 ≤ i)
    (h1 : i < (s.length : Int)) : ∃ x, index s i = some x := by
  have hlt : i.toNat < s.length := by omega
  exact ⟨s[i.toNat], by simp [index, h0, List.getElem?_eq_getElem hlt]⟩

theorem index_lt_of_eq_some {α : Type} {s : List α} {i : Int} {x : α}
    (h : index s i = some x) : 0 ≤ i ∧ i < (s.length : Int) := by
  rw [index_eq_some_iff] at h
  obtain ⟨h0, h1⟩ := h
  obtain ⟨hlt, -⟩ := List.getElem?_eq_some.mp h1
  exact ⟨h0, by omega⟩

theorem index_eq_none_iff {α : Type} {s : List α} {i : Int} :
    index s i = none ↔ ¬ (0 ≤ i ∧ i < (s.length : Int)) := by
  constructor
  · intro h hr
    obtain ⟨x, hx⟩ := index_isSome_of_lt hr.1 hr.2
    rw [h] at hx
    cases hx
  · intro h
    cases hx : index s i with
    | none => rfl
    | some x => exact absurd (index_lt_of_eq_some hx) h

theorem mem_of_index_eq_some {α : Type} {s : List α} {i : Int} {x : α}
    (h : index s i = some x) : x ∈ s := by
  rw [index_eq_some_iff] at h
  obtain ⟨hlt, rfl⟩ := List.getElem?_eq_some.mp h.2
  exact List.getElem_mem hlt

theorem length_setIndex {α : Type} (s : List α) (i : Int) (x : α) :
    (setIndex s i x).length = s.length := by
  simp [setIndex]

theorem index_setIndex_same {α : Type} {s : List α} {i : Int} (x : α) (h0 : 0 ≤ i)
    (h1 : i < (s.length : Int)) : index (setIndex s i x) i = some x := by
  have hlt : i.toNat < s.length := by omega
  simp [index, setIndex, h0, hlt]

theorem index_setIndex_ne {α : Type} {s : List α} {i j : Int} (x : α) (h0 : 0 ≤ i)
    (hne : j ≠ i) : index (setIndex s i x) j = index s j := by
  unfold index setIndex
  split
  · rename_i hj
    have : i.toNat ≠ j.toNat := by omega
    simp [List.getElem?_set_ne this]
  · rfl

theorem index_setIndex {α : Type} {s : List α} {i j : Int} (x : α) (h0 : 0 ≤ i)
    (h1 : i < (s.length : Int)) :
    index (setIndex s i x) j = if j = i then some x else index s j := by
  by_cases h : j = i
  · subst h; simp [index_setIndex_same x h0 h1]
  · simp [h, index_setIndex_ne x h0 h]

theorem mem_setIndex {α : Type} {s : List α} {i : Int} {x y : α}
    (h : y ∈ setIndex s i x) : y = x ∨ y ∈ s := by
  unfold setIndex at h
  rcases List.mem_or_eq_of_mem_set h with h | h
  · exact Or.inr h
  · exact Or.inl h

theorem lookup_mapSet (m : GoMap) (k : Int) (x : Value) (k' : Int) :
    lookup (mapSet m k x) k' = if k' = k then some x else lookup m k' := by
  induction m with
  | nil =>
    by_cases h : k' = k
    · simp [mapSet, lookup, h]
    · have h' : ¬ k = k' := fun e => h e.symm
      simp [mapSet, lookup, h, h']
  | cons e m ih =>
    obtain ⟨k0, y⟩ := e
    by_cases h0 : k0 = k
    · subst h0
      by_cases h : k' = k0
      · simp [mapSet, lookup, h]
      · have h' : ¬ k0 = k' := fun e => h e.symm
        simp [mapSet, lookup, h, h']
    · by_cases h : k' = k
      · subst h
        simp [mapSet, lookup, h0, ih]
      · simp only [mapSet, h0, if_false, lookup, ih, h]

theorem lookup_mapDelete (m : GoMap) (k k' : Int) :
    lookup (mapDelete m k) k' = if k' = k then none else lookup m k' := by
  induction m with
  | nil => simp [mapDelete, lookup]
  | cons e m ih =>
    obtain ⟨k0, y⟩ := e
    unfold mapDelete at ih ⊢
    simp only [ne_eq, decide_not] at ih ⊢
    by_cases h0 : k0 = k
    · subst h0
      by_cases h : k' = k0
      · subst h
        simpa [lookup] using ih
      · have h' : ¬ k0 = k' := fun e => h e.symm
        simp [lookup, h, h', ih]
    · by_cases h : k' = k
      · subst h
        simp [lookup, h0, ih]
      · simp [List.filter_cons, lookup, h0, ih, h]

theorem any_key_eq_isSome (m : GoMap) (w : Int) :
    m.any (fun e => decide (e.1 = w)) = (lookup m w).isSome := by
  induction m with
  | nil => simp [lookup]
  | cons e m ih =>
    obtain ⟨k0, y⟩ := e
    by_cases h : k0 = w
    · simp [lookup, h]
    · simp [lookup, h, ih]

theorem lookup_isSome_iff_mem_keys (m : GoMap) (w : Int) :
    (lookup m w).isSome = true ↔ w ∈ m.map Prod.fst := by
  induction m with
  | nil => simp [lookup]
  | cons e m ih =>
    obtain ⟨k0, y⟩ := e
    by_cases h : k0 = w
    · simp [lookup, h]
    · have h' : ¬ w = k0 := fun e => h e.symm
      simp [lookup, h, h', ih]

/-! ## Effect of the directed mutators on single cells -/

theorem mapGet_eq_lookup (m : Option GoMap) (k : Int) :
    mapGet m k = lookup (mapEntries m) k := by
  cases m <;> rfl

theorem hash_Add_eq_AddLabel (g : Hash) (i j : Int) :
    g.Add i j = g.AddLabel i j Value.NoLabel := by
  unfold Hash.Add Hash.AddLabel
  cases index g.edges i with
  | none => rfl
  | some m0 => cases m0 <;> rfl

theorem hash_AddLabel_eq {g : Hash} {i : Int} {m0 : Option GoMap}
    (h : index g.edges i = some m0) (j : Int) (x : Value) :
    g.AddLabel i j x = .ok
      { edges := setIndex g.edges i (some (mapSet (mapEntries m0) j x)),
        numEdges := g.numEdges + (if mapGet m0 j = none then 1 else 0) } := by
  unfold Hash.AddLabel
  rw [h]
  cases m0 with
  | none => simp [mapEntries, mapGet, lookup]
  | some m =>
    cases hl : lookup m j <;> simp [mapEntries, mapGet, hl]

theorem hash_Remove_eq {g : Hash} {i : Int} {m0 : Option GoMap}
    (h : index g.edges i = some m0) (j : Int) :
    g.Remove i j = .ok
      (if mapGet m0 j = none then g
       else { edges := setIndex g.edges i (some (mapDelete (mapEntries m0) j)),
              numEdges := g.numEdges - 1 }) := by
  unfold Hash.Remove
  rw [h]
  cases hl : mapGet m0 j <;> simp [hl]

theorem hash_cell_setIndex (g : Hash) {i : Int} (m' : GoMap) (k : Int) (h0 : 0 ≤ i)
    (h1 : i < (g.edges.length : Int)) (v w : Int) :
    Hash.cell { edges := setIndex g.edges i (some m'), numEdges := k } v w =
      if v = i then some (lookup m' w) else g.cell v w := by
  unfold Hash.cell
  simp only [index_setIndex (some m') h0 h1]
  by_cases hv : v = i
  · simp [hv, mapGet]
  · simp [hv]

theorem hash_HasEdge_eq_cell (g : Hash) (v w : Int) :
    g.HasEdge v w = (g.cell v w).map Option.isSome := by
  unfold Hash.HasEdge Hash.cell
  cases index g.edges v with
  | none => rfl
  | some m => simp [any_key_eq_isSome, mapGet_eq_lookup]

theorem hash_Label_eq_cell (g : Hash) (v w : Int) :
    g.Label v w = (g.cell v w).map (fun c => c.getD Value.nil) := by
  unfold Hash.Label Hash.cell
  cases index g.edges v with
  | none => rfl
  | some m => cases hl : mapGet m w <;> simp [hl]

/-- Effect of `Hash.AddLabel` with `from` in range: it returns normally, the pair
`(i, j)` now carries `x`, every other pair is as before, and the counter goes up by one
exactly when the pair was absent. -/
theorem hash_AddLabel_spec (g : Hash) {i : Int} (j : Int) (x : Value) (h0 : 0 ≤ i)
    (h1 : i < (g.edges.length : Int)) :
    ∃ g', g.AddLabel i j x = .ok g' ∧ g'.edges.length = g.edges.length ∧
      (∀ v w, g'.cell v w = if v = i ∧ w = j then some (some x) else g.cell v w) ∧
      g'.numEdges = g.numEdges + (if g.cell i j = some none then 1 else 0) := by
  obtain ⟨m0, hm0⟩ := index_isSome_of_lt h0 h1
  refine ⟨_, hash_AddLabel_eq hm0 j x, by simp [length_setIndex], ?_, ?_⟩
  · intro v w
    rw [hash_cell_setIndex g _ _ h0 h1, lookup_mapSet]
    by_cases hv : v = i
    · subst hv
      by_cases hw : w = j
      · simp [hw]
      · simp [hw, Hash.cell, hm0, mapGet_eq_lookup]
    · simp [hv]
  · simp [Hash.cell, hm0]

/-- Effect of `Hash.Remove` with `from` in range. -/
theorem hash_Remove_spec (g : Hash) {i : Int} (j : Int) (h0 : 0 ≤ i)
    (h1 : i < (g.edges.length : Int)) :
    ∃ g', g.Remove i j = .ok g' ∧ g'.edges.length = g.edges.length ∧
      (∀ v w, g'.cell v w = if v = i ∧ w = j then some none else g.cell v w) ∧
      g'.numEdges = g.numEdges - (if g.cell i j = some none then 0 else 1) := by
  obtain ⟨m0, hm0⟩ := index_isSome_of_lt h0 h1
  refine ⟨_, hash_Remove_eq hm0 j, ?_, ?_, ?_⟩
  · split <;> simp [length_setIndex]
  · intro v w
    by_cases hg : mapGet m0 j = none
    · rw [if_pos hg]
      by_cases hvw : v = i ∧ w = j
      · obtain ⟨rfl, rfl⟩ := hvw
        simp [Hash.cell, hm0, hg]
      · simp [hvw]
    · rw [if_neg hg, hash_cell_setIndex g _ _ h0 h1, lookup_mapDelete]
      by_cases hv : v = i
      · subst hv
        by_cases hw : w = j
        · simp [hw]
        · simp [hw, Hash.cell, hm0, mapGet_eq_lookup]
      · simp [hv]
  · by_cases hg : mapGet m0 j = none
    · simp [hg, Hash.cell, hm0]
    · simp [hg, Hash.cell, hm0]

theorem matrix_AddLabel_eq {g : Matrix} {i j : Int} {row : List Value} {y : Value}
    (hr : index g.adj i = some row) (hy : index row j = some y) (x : Value) :
    g.AddLabel i j x = .ok
      { adj := setIndex g.adj i (setIndex row j x),
        numEdges := g.numEdges + (if y = Value.noEdge then 1 else 0) } := by
  unfold Matrix.AddLabel
  rw [hr]
  simp only [hy]
  by_cases h : y = Value.noEdge <;> simp [h]

theorem matrix_Remove_eq {g : Matrix} {i j : Int} {row : List Value} {y : Value}
    (hr : index g.adj i = some row) (hy : index row j = some y) :
    g.Remove i j = .ok
      (if y = Value.noEdge then g
       else { adj := setIndex g.adj i (setIndex row j Value.noEdge),
              numEdges := g.numEdges - 1 }) := by
  unfold Matrix.Remove
  rw [hr]
  simp only [hy]
  by_cases h : y = Value.noEdge <;> simp [h]

theorem matrix_cell_setIndex (g : Matrix) {i j : Int} {row : List Value} {y : Value}
    (hr : index g.adj i = some row) (hy : index row j = some y) (x : Value) (k : Int)
    (v w : Int) :
    Matrix.cell { adj := setIndex g.adj i (setIndex row j x), numEdges := k } v w =
      if v = i ∧ w = j then (if x = Value.noEdge then some none else some (some x))
      else g.cell v w := by
  obtain ⟨hi0, hi1⟩ := index_lt_of_eq_some hr
  obtain ⟨hj0, hj1⟩ := index_lt_of_eq_some hy
  unfold Matrix.cell
  simp only [index_setIndex _ hi0 hi1]
  by_cases hv : v = i
  · subst hv
    simp only [if_true, true_and, hr, index_setIndex _ hj0 hj1]
    by_cases hw : w = j
    · simp [hw]
    · simp [hw]
  · simp [hv]

theorem matrix_Square_setIndex {n : Nat} {g : Matrix} (hsq : g.Square n) {i j : Int}
    {row : List Value} (hr : index g.adj i = some row) (x : Value) (k : Int) :
    Matrix.Square n { adj := setIndex g.adj i (setIndex row j x), numEdges := k } := by
  refine ⟨by simpa [length_setIndex] using hsq.1, ?_⟩
  intro r hr'
  rcases mem_setIndex hr' with h | h
  · subst h
    rw [length_setIndex]
    exact hsq.2 _ (mem_of_index_eq_some hr)
  · exact hsq.2 _ h

theorem matrix_index_of_square {n : Nat} {g : Matrix} (hsq : g.Square n) {i j : Int}
    (hi : 0 ≤ i ∧ i < (n : Int)) (hj : 0 ≤ j ∧ j < (n : Int)) :
    ∃ row y, index g.adj i = some row ∧ index row j = some y := by
  obtain ⟨row, hrow⟩ := index_isSome_of_lt (s := g.adj) hi.1 (by rw [hsq.1]; exact hi.2)
  have hlen : row.length = n := hsq.2 _ (mem_of_index_eq_some hrow)
  obtain ⟨y, hy⟩ := index_isSome_of_lt (s := row) hj.1 (by rw [hlen]; exact hj.2)
  exact ⟨row, y, hrow, hy⟩

theorem matrix_HasEdge_eq_cell (g : Matrix) (v w : Int) :
    g.HasEdge v w = (g.cell v w).map Option.isSome := by
  unfold Matrix.HasEdge Matrix.cell
  cases index g.adj v with
  | none => rfl
  | some row =>
    cases hx : index row w with
    | none => simp [hx]
    | some x => by_cases h : x = Value.noEdge <;> simp [hx, h]

/-- `Matrix.Label` in terms of the cell. A stored `nil` label and an absent edge both read
as `nil`. -/
theorem matrix_Label_eq_cell (g : Matrix) (v w : Int) :
    g.Label v w = (g.cell v w).map (fun c => c.getD Value.nil) := by
  unfold Matrix.Label Matrix.cell
  cases index g.adj v with
  | none => rfl
  | some row =>
    cases hx : index row w with
    | none => simp [hx]
    | some x => by_cases h : x = Value.noEdge <;> simp [hx, h]

/-- Effect of `Matrix.AddLabel` with both indices in range and a label other than the
private `noEdge`. -/
theorem matrix_AddLabel_spec {n : Nat} {g : Matrix} (hsq : g.Square n) {i j : Int}
    (hi : 0 ≤ i ∧ i < (n : Int)) (hj : 0 ≤ j ∧ j < (n : Int)) {x : Value}
    (hx : x ≠ Value.noEdge) :
    ∃ g', g.AddLabel i j x = .ok g' ∧ g'.Square n ∧
      (∀ v w, g'.cell v w = if v = i ∧ w = j then some (some x) else g.cell v w) ∧
      g'.numEdges = g.numEdges + (if g.cell i j = some none then 1 else 0) := by
  obtain ⟨row, y, hr, hy⟩ := matrix_index_of_square hsq hi hj
  refine ⟨_, matrix_AddLabel_eq hr hy x, matrix_Square_setIndex hsq hr x _, ?_, ?_⟩
  · intro v w
    rw [matrix_cell_setIndex g hr hy]
    simp [hx]
  · by_cases h : y = Value.noEdge <;> simp [Matrix.cell, hr, hy, h]

/-- Effect of `Matrix.Remove` with both indices in range. -/
theorem matrix_Remove_spec {n : Nat} {g : Matrix} (hsq : g.Square n) {i j : Int}
    (hi : 0 ≤ i ∧ i < (n : Int)) (hj : 0 ≤ j ∧ j < (n : Int)) :
    ∃ g', g.Remove i j = .ok g' ∧ g'.Square n ∧
      (∀ v w, g'.cell v w = if v = i ∧ w = j then some none else g.cell v w) ∧
      g'.numEdges = g.numEdges - (if g.cell i j = some none then 0 else 1) := by
  obtain ⟨row, y, hr, hy⟩ := matrix_index_of_square hsq hi hj
  refine ⟨_, matrix_Remove_eq hr hy, ?_, ?_, ?_⟩
  · by_cases h : y = Value.noEdge
    · simpa [h] using hsq
    · simpa [h] using matrix_Square_setIndex hsq hr Value.noEdge _
  · intro v w
    by_cases h : y = Value.noEdge
    · rw [if_pos h]
      by_cases hvw : v = i ∧ w = j
      · obtain ⟨rfl, rfl⟩ := hvw
        simp [Matrix.cell, hr, hy, h]
      · simp [hvw]
    · rw [if_neg h, matrix_cell_setIndex g hr hy]
      simp
  · by_cases h : y = Value.noEdge <;> simp [Matrix.cell, hr, hy, h]

/-! ## Counting edges -/

theorem countEdges_set_true (has : Int → Int → Option Bool)
    {has' : Int → Int → Option Bool} {n : Nat} {i j : Int}
    (hi : 0 ≤ i ∧ i < (n : Int)) (hj : 0 ≤ j ∧ j < (n : Int))
    (h : ∀ v w, has' v w = if v = i ∧ w = j then some true else has v w) :
    (countEdges has' n : Int) = countEdges has n + (if has i j = some true then 0 else 1) := by
  unfold countEdges
  have hmem : (i.toNat, j.toNat) ∈ Finset.range n ×ˢ Finset.range n := by
    simp only [Finset.mem_product, Finset.mem_range]
    omega
  have hci : ((i.toNat : Nat) : Int) = i := Int.toNat_of_nonneg hi.1
  have hcj : ((j.toNat : Nat) : Int) = j := Int.toNat_of_nonneg hj.1
  have hset : (Finset.range n ×ˢ Finset.range n).filter
        (fun p => has' (p.1 : Int) (p.2 : Int) = some true) =
      insert (i.toNat, j.toNat) ((Finset.range n ×ˢ Finset.range n).filter
        (fun p => has (p.1 : Int) (p.2 : Int) = some true)) := by
    ext p
    simp only [Finset.mem_filter, Finset.mem_insert, h]
    by_cases hp : p = (i.toNat, j.toNat)
    · subst hp
      simp [hmem, hci, hcj]
    · have hne : ¬ (((p.1 : Nat) : Int) = i ∧ ((p.2 : Nat) : Int) = j) := by
        rintro ⟨h1, h2⟩
        apply hp
        ext
        · simp only; omega
        · simp only; omega
      simp [hp, hne]
  rw [hset]
  by_cases hin : has i j = some true
  · rw [Finset.insert_eq_of_mem (by simp [hmem, hci, hcj, hin])]
    simp [hin]
  · rw [Finset.card_insert_of_not_mem (by simp [hci, hcj, hin])]
    simp [hin]

theorem countEdges_set_false (has : Int → Int → Option Bool)
    {has' : Int → Int → Option Bool} {n : Nat} {i j : Int}
    (hi : 0 ≤ i ∧ i < (n : Int)) (hj : 0 ≤ j ∧ j < (n : Int))
    (h : ∀ v w, has' v w = if v = i ∧ w = j then some false else has v w) :
    (countEdges has' n : Int) = countEdges has n - (if has i j = some true then 1 else 0) := by
  unfold countEdges
  have hmem : (i.toNat, j.toNat) ∈ Finset.range n ×ˢ Finset.range n := by
    simp only [Finset.mem_product, Finset.mem_range]
    omega
  have hci : ((i.toNat : Nat) : Int) = i := Int.toNat_of_nonneg hi.1
  have hcj : ((j.toNat : Nat) : Int) = j := Int.toNat_of_nonneg hj.1
  have hset : (Finset.range n ×ˢ Finset.range n).filter
        (fun p => has' (p.1 : Int) (p.2 : Int) = some true) =
      ((Finset.range n ×ˢ Finset.range n).filter
        (fun p => has (p.1 : Int) (p.2 : Int) = some true)).erase (i.toNat, j.toNat) := by
    ext p
    simp only [Finset.mem_filter, Finset.mem_erase, h]
    by_cases hp : p = (i.toNat, j.toNat)
    · subst hp
      simp [hci, hcj]
    · have hne : ¬ (((p.1 : Nat) : Int) = i ∧ ((p.2 : Nat) : Int) = j) := by
        rintro ⟨h1, h2⟩
        apply hp
        ext
        · simp only; omega
        · simp only; omega
      simp [hp, hne]
  rw [hset]
  by_cases hin : has i j = some true
  · have hm : (i.toNat, j.toNat) ∈ (Finset.range n ×ˢ Finset.range n).filter
        (fun p => has (p.1 : Int) (p.2 : Int) = some true) := by
      simp [hmem, hci, hcj, hin]
    rw [Finset.card_erase_of_mem hm]
    have hpos := Finset.card_pos.mpr ⟨_, hm⟩
    simp only [hin, if_true]
    omega
  · rw [Finset.erase_eq_of_not_mem (by simp [hci, hcj, hin])]
    simp [hin]

theorem countEdges_congr {has has' : Int → Int → Option Bool} {n : Nat}
    (h : ∀ v w : Int, 0 ≤ v → v < (n : Int) → 0 ≤ w → w < (n : Int) →
      has v w = has' v w) :
    countEdges has n = countEdges has' n := by
  unfold countEdges
  congr 1
  apply Finset.filter_congr
  intro p hp
  simp only [Finset.mem_product, Finset.mem_range] at hp
  rw [h p.1 p.2 (by omega) (by omega) (by omega) (by omega)]

theorem countEdges_upd_some (c : EdgeMap) {n : Nat} {i j : Int}
    (hi : 0 ≤ i ∧ i < (n : Int)) (hj : 0 ≤ j ∧ j < (n : Int)) (x : Value) :
    (countEdges (specHasEdge (upd c i j (some x))) n : Int) =
      countEdges (specHasEdge c) n + (if c i j = none then 1 else 0) := by
  rw [countEdges_set_true (specHasEdge c) hi hj]
  · cases hc : c i j <;> simp [specHasEdge, hc]
  · intro v w
    by_cases hvw : v = i ∧ w = j <;> simp [specHasEdge, upd, hvw]

theorem countEdges_upd_none (c : EdgeMap) {n : Nat} {i j : Int}
    (hi : 0 ≤ i ∧ i < (n : Int)) (hj : 0 ≤ j ∧ j < (n : Int)) :
    (countEdges (specHasEdge (upd c i j none)) n : Int) =
      countEdges (specHasEdge c) n - (if c i j = none then 0 else 1) := by
  rw [countEdges_set_false (specHasEdge c) hi hj]
  · cases hc : c i j <;> simp [specHasEdge, hc]
  · intro v w
    by_cases hvw : v = i ∧ w = j <;> simp [specHasEdge, upd, hvw]

/-! ## Keys of the maps -/

theorem mem_keys_mapSet (m : GoMap) (k : Int) (x : Value) (k' : Int) :
    k' ∈ (mapSet m k x).map Prod.fst ↔ k' = k ∨ k' ∈ m.map Prod.fst := by
  rw [← lookup_isSome_iff_mem_keys, ← lookup_isSome_iff_mem_keys, lookup_mapSet]
  by_cases h : k' = k <;> simp [h]

theorem nodup_keys_mapSet {m : GoMap} (k : Int) (x : Value)
    (h : (m.map Prod.fst).Nodup) : ((mapSet m k x).map Prod.fst).Nodup := by
  induction m with
  | nil => simp [mapSet]
  | cons e m ih =>
    obtain ⟨k0, y⟩ := e
    simp only [List.map_cons, List.nodup_cons] at h
    by_cases h0 : k0 = k
    · subst h0
      simpa [mapSet] using h
    · simp only [mapSet, h0, if_false, List.map_cons, List.nodup_cons]
      refine ⟨?_, ih h.2⟩
      rw [mem_keys_mapSet]
      rintro (h1 | h1)
      · exact h0 h1
      · exact h.1 h1

theorem keys_mapDelete_sublist (m : GoMap) (k : Int) :
    List.Sublist ((mapDelete m k).map Prod.fst) (m.map Prod.fst) :=
  List.Sublist.map _ (List.filter_sublist _)

theorem hash_KeysOk_setIndex {n : Nat} {g : Hash} (hk : g.KeysOk n) (i : Int) (m' : GoMap)
    (k : Int) (hnd : (m'.map Prod.fst).Nodup)
    (hr : ∀ k' ∈ m'.map Prod.fst, 0 ≤ k' ∧ k' < (n : Int)) :
    Hash.KeysOk n { edges := setIndex g.edges i (some m'), numEdges := k } := by
  refine ⟨by simpa [length_setIndex] using hk.1, ?_⟩
  intro m hm
  rcases mem_setIndex hm with h | h
  · subst h
    exact ⟨hnd, hr⟩
  · exact hk.2 m h

/-! ## Both backends implement the edge map of the specification -/

theorem hash_Models_AddLabel {n : Nat} {h : Hash} {c : EdgeMap} (hm : h.Models n c)
    {i j : Int} (hi : 0 ≤ i ∧ i < (n : Int)) (hj : 0 ≤ j ∧ j < (n : Int)) (x : Value) :
    ∃ h', h.AddLabel i j x = .ok h' ∧ h'.Models n (upd c i j (some x)) := by
  have hlen : (h.edges.length : Int) = n := by rw [hm.keys.1]
  obtain ⟨m0, hm0⟩ := index_isSome_of_lt (s := h.edges) hi.1 (by rw [hlen]; exact hi.2)
  obtain ⟨h', he, -, hcell, hnum⟩ := hash_AddLabel_spec h j x hi.1 (by rw [hlen]; exact hi.2)
  refine ⟨h', he, ?_, ?_, ?_⟩
  · have he' := hash_AddLabel_eq hm0 j x
    rw [he] at he'
    injection he' with he'
    rw [he']
    have hk := hm.keys.2 m0 (mem_of_index_eq_some hm0)
    apply hash_KeysOk_setIndex hm.keys
    · exact nodup_keys_mapSet j x hk.1
    · intro k' hk'
      rw [mem_keys_mapSet] at hk'
      rcases hk' with rfl | hk'
      · exact hj
      · exact hk.2 k' hk'
  · intro v w hv0 hv1 hw0 hw1
    rw [hcell]
    by_cases hvw : v = i ∧ w = j
    · simp [upd, hvw]
    · simp [upd, hvw, hm.cell v w hv0 hv1 hw0 hw1]
  · rw [hnum, hm.count, countEdges_upd_some c hi hj, hm.cell i j hi.1 hi.2 hj.1 hj.2]
    simp

theorem hash_Models_Remove {n : Nat} {h : Hash} {c : EdgeMap} (hm : h.Models n c)
    {i j : Int} (hi : 0 ≤ i ∧ i < (n : Int)) (hj : 0 ≤ j ∧ j < (n : Int)) :
    ∃ h', h.Remove i j = .ok h' ∧ h'.Models n (upd c i j none) := by
  have hlen : (h.edges.length : Int) = n := by rw [hm.keys.1]
  obtain ⟨m0, hm0⟩ := index_isSome_of_lt (s := h.edges) hi.1 (by rw [hlen]; exact hi.2)
  obtain ⟨h', he, -, hcell, hnum⟩ := hash_Remove_spec h j hi.1 (by rw [hlen]; exact hi.2)
  refine ⟨h', he, ?_, ?_, ?_⟩
  · have he' := hash_Remove_eq hm0 j
    rw [he] at he'
    injection he' with he'
    rw [he']
    split
    · exact hm.keys
    · have hk := hm.keys.2 m0 (mem_of_index_eq_some hm0)
      apply hash_KeysOk_setIndex hm.keys
      · exact List.Nodup.sublist (keys_mapDelete_sublist _ j) hk.1
      · intro k' hk'
        exact hk.2 k' ((keys_mapDelete_sublist _ j).subset hk')
  · intro v w hv0 hv1 hw0 hw1
    rw [hcell]
    by_cases hvw : v = i ∧ w = j
    · simp [upd, hvw]
    · simp [upd, hvw, hm.cell v w hv0 hv1 hw0 hw1]
  · rw [hnum, hm.count, countEdges_upd_none c hi hj, hm.cell i j hi.1 hi.2 hj.1 hj.2]
    simp

theorem matrix_Models_AddLabel {n : Nat} {m : Matrix} {c : EdgeMap} (hm : m.Models n c)
    {i j : Int} (hi : 0 ≤ i ∧ i < (n : Int)) (hj : 0 ≤ j ∧ j < (n : Int)) {x : Value}
    (hx : x ≠ Value.noEdge) :
    ∃ m', m.AddLabel i j x = .ok m' ∧ m'.Models n (upd c i j (some x)) := by
  obtain ⟨m', he, hsq, hcell, hnum⟩ := matrix_AddLabel_spec hm.square hi hj hx
  refine ⟨m', he, hsq, ?_, ?_⟩
  · intro v w hv0 hv1 hw0 hw1
    rw [hcell]
    by_cases hvw : v = i ∧ w = j
    · simp [upd, hvw]
    · simp [upd, hvw, hm.cell v w hv0 hv1 hw0 hw1]
  · rw [hnum, hm.count, countEdges_upd_some c hi hj, hm.cell i j hi.1 hi.2 hj.1 hj.2]
    simp

theorem matrix_Models_Remove {n : Nat} {m : Matrix} {c : EdgeMap} (hm : m.Models n c)
    {i j : Int} (hi : 0 ≤ i ∧ i < (n : Int)) (hj : 0 ≤ j ∧ j < (n : Int)) :
    ∃ m', m.Remove i j = .ok m' ∧ m'.Models n (upd c i j none) := by
  obtain ⟨m', he, hsq, hcell, hnum⟩ := matrix_Remove_spec hm.square hi hj
  refine ⟨m', he, hsq, ?_, ?_⟩
  · intro v w hv0 hv1 hw0 hw1
    rw [hcell]
    by_cases hvw : v = i ∧ w = j
    · simp [upd, hvw]
    · simp [upd, hvw, hm.cell v w hv0 hv1 hw0 hw1]
  · rw [hnum, hm.count, countEdges_upd_none c hi hj, hm.cell i j hi.1 hi.2 hj.1 hj.2]
    simp

theorem upd_comm (c : EdgeMap) (v w : Int) (a : Option Value) :
    upd (upd c w v a) v w a = upd (upd c v w a) w v a := by
  funext p q
  unfold upd
  by_cases h1 : p = v ∧ q = w <;> by_cases h2 : p = w ∧ q = v <;> simp [h1, h2]

theorem upd_idem (c : EdgeMap) (v w : Int) (a : Option Value) :
    upd (upd c v w a) v w a = upd c v w a := by
  funext p q
  unfold upd
  by_cases h1 : p = v ∧ q = w <;> simp [h1]

theorem hash_Models_apply {n : Nat} {h : Hash} {c : EdgeMap} (hm : h.Models n c)
    {op : Op} (hop : op.Valid n) :
    ∃ h', h.apply op = .ok h' ∧ h'.Models n (specApply c op) := by
  obtain ⟨hv, hw, -⟩ := hop
  cases op with
  | Add v w =>
    simp only [Hash.apply, hash_Add_eq_AddLabel, specApply]
    exact hash_Models_AddLabel hm hv hw _
  | AddLabel v w x => exact hash_Models_AddLabel hm hv hw x
  | AddBi v w =>
    replace hv : 0 ≤ v ∧ v < (n : Int) := hv
    replace hw : 0 ≤ w ∧ w < (n : Int) := hw
    simp only [Hash.apply, Hash.AddBi, hash_Add_eq_AddLabel, specApply]
    obtain ⟨h1, e1, m1⟩ := hash_Models_AddLabel hm hw hv Value.NoLabel
    obtain ⟨h2, e2, m2⟩ := hash_Models_AddLabel m1 hv hw Value.NoLabel
    rw [upd_comm] at m2
    exact ⟨h2, by simp only [e1, Result.andThen, e2], m2⟩
  | AddBiLabel v w x =>
    replace hv : 0 ≤ v ∧ v < (n : Int) := hv
    replace hw : 0 ≤ w ∧ w < (n : Int) := hw
    simp only [Hash.apply, Hash.AddBiLabel, specApply]
    obtain ⟨h1, e1, m1⟩ := hash_Models_AddLabel hm hw hv x
    obtain ⟨h2, e2, m2⟩ := hash_Models_AddLabel m1 hv hw x
    rw [upd_comm] at m2
    exact ⟨h2, by simp only [e1, Result.andThen, e2], m2⟩
  | Remove v w => exact hash_Models_Remove hm hv hw
  | RemoveBi v w =>
    replace hv : 0 ≤ v ∧ v < (n : Int) := hv
    replace hw : 0 ≤ w ∧ w < (n : Int) := hw
    simp only [Hash.apply, Hash.RemoveBi, specApply]
    obtain ⟨h1, e1, m1⟩ := hash_Models_Remove hm hw hv
    obtain ⟨h2, e2, m2⟩ := hash_Models_Remove m1 hv hw
    rw [upd_comm] at m2
    exact ⟨h2, by simp only [e1, Result.andThen, e2], m2⟩

theorem matrix_Models_apply {n : Nat} {m : Matrix} {c : EdgeMap} (hm : m.Models n c)
    {op : Op} (hop : op.Valid n) :
    ∃ m', m.apply op = .ok m' ∧ m'.Models n (specApply c op) := by
  obtain ⟨hv, hw, hx⟩ := hop
  have hNL : Value.NoLabel ≠ Value.noEdge := by decide
  cases op with
  | Add v w => exact matrix_Models_AddLabel hm hv hw hNL
  | AddLabel v w x =>
    exact matrix_Models_AddLabel hm hv hw (fun e => hx (by rw [e]; rfl))
  | AddBi v w =>
    replace hv : 0 ≤ v ∧ v < (n : Int) := hv
    replace hw : 0 ≤ w ∧ w < (n : Int) := hw
    simp only [Matrix.apply, Matrix.AddBi, Matrix.AddBiLabel, specApply]
    obtain ⟨m1, e1, r1⟩ := matrix_Models_AddLabel hm hv hw hNL
    by_cases hvw : v = w
    · subst hvw
      refine ⟨m1, by simp [e1, Result.andThen], ?_⟩
      rw [upd_idem]
      exact r1
    · obtain ⟨m2, e2, r2⟩ := matrix_Models_AddLabel r1 hw hv hNL
      exact ⟨m2, by simp [e1, Result.andThen, hvw, e2], r2⟩
  | AddBiLabel v w x =>
    replace hv : 0 ≤ v ∧ v < (n : Int) := hv
    replace hw : 0 ≤ w ∧ w < (n : Int) := hw
    have hx' : x ≠ Value.noEdge := fun e => hx (by rw [e]; rfl)
    simp only [Matrix.apply, Matrix.AddBiLabel, specApply]
    obtain ⟨m1, e1, r1⟩ := matrix_Models_AddLabel hm hv hw hx'
    by_cases hvw : v = w
    · subst hvw
      refine ⟨m1, by simp [e1, Result.andThen], ?_⟩
      rw [upd_idem]
      exact r1
    · obtain ⟨m2, e2, r2⟩ := matrix_Models_AddLabel r1 hw hv hx'
      exact ⟨m2, by simp [e1, Result.andThen, hvw, e2], r2⟩
  | Remove v w => exact matrix_Models_Remove hm hv hw
  | RemoveBi v w =>
    replace hv : 0 ≤ v ∧ v < (n : Int) := hv
    replace hw : 0 ≤ w ∧ w < (n : Int) := hw
    simp only [Matrix.apply, Matrix.RemoveBi, specApply]
    obtain ⟨m1, e1, r1⟩ := matrix_Models_Remove hm hv hw
    by_cases hvw : v = w
    · subst hvw
      refine ⟨m1, by simp [e1, Result.andThen], ?_⟩
      rw [upd_idem]
      exact r1
    · obtain ⟨m2, e2, r2⟩ := matrix_Models_Remove r1 hw hv
      exact ⟨m2, by simp [e1, Result.andThen, hvw, e2], r2⟩

theorem hash_Models_run {n : Nat} (ops : List Op) (hops : ∀ op ∈ ops, op.Valid n) :
    ∀ {h : Hash} {c : EdgeMap}, h.Models n c →
      ∃ h', h.run ops = .ok h' ∧ h'.Models n (specRun c ops) := by
  induction ops with
  | nil => intro h c hm; exact ⟨h, rfl, hm⟩
  | cons op ops ih =>
    intro h c hm
    obtain ⟨h1, e1, m1⟩ := hash_Models_apply hm (hops op (List.mem_cons_self _ _))
    obtain ⟨h2, e2, m2⟩ := ih (fun o ho => hops o (List.mem_cons_of_mem _ ho)) m1
    exact ⟨h2, by simp only [Hash.run, e1, Result.andThen, e2], m2⟩

theorem matrix_Models_run {n : Nat} (ops : List Op) (hops : ∀ op ∈ ops, op.Valid n) :
    ∀ {m : Matrix} {c : EdgeMap}, m.Models n c →
      ∃ m', m.run ops = .ok m' ∧ m'.Models n (specRun c ops) := by
  induction ops with
  | nil => intro m c hm; exact ⟨m, rfl, hm⟩
  | cons op ops ih =>
    intro m c hm
    obtain ⟨m1, e1, r1⟩ := matrix_Models_apply hm (hops op (List.mem_cons_self _ _))
    obtain ⟨m2, e2, r2⟩ := ih (fun o ho => hops o (List.mem_cons_of_mem _ ho)) r1
    exact ⟨m2, by simp only [Matrix.run, e1, Result.andThen, e2], r2⟩

theorem countEdges_empty (n : Nat) : countEdges (specHasEdge (fun _ _ => none)) n = 0 := by
  simp [countEdges, specHasEdge]

theorem hash_Models_new (n : Nat) :
    ∃ h, NewHash n = some h ∧ h.Models n (fun _ _ => none) := by
  refine ⟨{ edges := List.replicate n none, numEdges := 0 }, by simp [NewHash],
    ⟨by simp, ?_⟩, ?_, ?_⟩
  · intro m hm
    rw [List.eq_of_mem_replicate hm]
    simp [mapEntries]
  · intro v w hv0 hv1 hw0 hw1
    have hlt : v.toNat < n := by omega
    simp [Hash.cell, index, hv0, List.getElem?_replicate, hlt, mapGet]
  · simp [countEdges_empty]

theorem matrix_Models_new (n : Nat) :
    ∃ m, NewMatrix n = some m ∧ m.Models n (fun _ _ => none) := by
  refine ⟨{ adj := List.replicate n (List.replicate n Value.noEdge), numEdges := 0 },
    by simp [NewMatrix], ⟨by simp, ?_⟩, ?_, ?_⟩
  · intro row hrow
    rw [List.eq_of_mem_replicate hrow]
    simp
  · intro v w hv0 hv1 hw0 hw1
    have hlt : v.toNat < n := by omega
    have hlt' : w.toNat < n := by omega
    simp [Matrix.cell, index, hv0, hw0, List.getElem?_replicate, hlt, hlt']
  · simp [countEdges_empty]

theorem Hash.Models.hash_hasEdge {n : Nat} {h : Hash} {c : EdgeMap} (hm : h.Models n c)
    {v w : Int} (hv : 0 ≤ v ∧ v < (n : Int)) (hw : 0 ≤ w ∧ w < (n : Int)) :
    h.HasEdge v w = some (c v w).isSome := by
  rw [hash_HasEdge_eq_cell, hm.cell v w hv.1 hv.2 hw.1 hw.2]
  rfl

theorem Matrix.Models.matrix_hasEdge {n : Nat} {m : Matrix} {c : EdgeMap} (hm : m.Models n c)
    {v w : Int} (hv : 0 ≤ v ∧ v < (n : Int)) (hw : 0 ≤ w ∧ w < (n : Int)) :
    m.HasEdge v w = some (c v w).isSome := by
  rw [matrix_HasEdge_eq_cell, hm.cell v w hv.1 hv.2 hw.1 hw.2]
  rfl

theorem Hash.Models.hash_label {n : Nat} {h : Hash} {c : EdgeMap} (hm : h.Models n c)
    {v w : Int} (hv : 0 ≤ v ∧ v < (n : Int)) (hw : 0 ≤ w ∧ w < (n : Int)) :
    h.Label v w = some ((c v w).getD Value.nil) := by
  rw [hash_Label_eq_cell, hm.cell v w hv.1 hv.2 hw.1 hw.2]
  rfl

theorem Matrix.Models.matrix_label {n : Nat} {m : Matrix} {c : EdgeMap} (hm : m.Models n c)
    {v w : Int} (hv : 0 ≤ v ∧ v < (n : Int)) (hw : 0 ≤ w ∧ w < (n : Int)) :
    m.Label v w = some ((c v w).getD Value.nil) := by
  rw [matrix_Label_eq_cell, hm.cell v w hv.1 hv.2 hw.1 hw.2]
  rfl

theorem Hash.Models.hash_numEdges_eq {n : Nat} {h : Hash} {c : EdgeMap} (hm : h.Models n c) :
    h.NumEdges = countEdges h.HasEdge n := by
  unfold Hash.NumEdges
  rw [hm.count]
  congr 1
  apply countEdges_congr
  intro v w hv0 hv1 hw0 hw1
  rw [hm.hash_hasEdge ⟨hv0, hv1⟩ ⟨hw0, hw1⟩]
  rfl

theorem Matrix.Models.matrix_numEdges_eq {n : Nat} {m : Matrix} {c : EdgeMap}
    (hm : m.Models n c) : m.NumEdges = countEdges m.HasEdge n := by
  unfold Matrix.NumEdges
  rw [hm.count]
  congr 1
  apply countEdges_congr
  intro v w hv0 hv1 hw0 hw1
  rw [hm.matrix_hasEdge ⟨hv0, hv1⟩ ⟨hw0, hw1⟩]
  rfl

/-! ## Claims on the two backends -/

/-- C1: for each backend and every `n`, after any finite sequence of `Add`, `AddLabel`,
`AddBi`, `AddBiLabel`, `Remove` and `RemoveBi` calls with indices in `[0, n)` on a freshly
constructed graph of `n` vertices, every call returns normally and `NumEdges()` equals the
number of ordered pairs `(v, w)` of `[0, n) x [0, n)` with `HasEdge(v, w)` true. -/
theorem numEdges_eq_countEdges (n : Nat) (ops : List Op) (hops : ∀ op ∈ ops, op.Valid n) :
    (∃ h0 h, NewHash n = some h0 ∧ h0.run ops = .ok h ∧
      h.NumEdges = countEdges h.HasEdge n) ∧
    (∃ m0 m, NewMatrix n = some m0 ∧ m0.run ops = .ok m ∧
      m.NumEdges = countEdges m.HasEdge n) := by
  constructor
  · obtain ⟨h0, e0, r0⟩ := hash_Models_new n
    obtain ⟨h, e, r⟩ := hash_Models_run ops hops r0
    exact ⟨h0, h, e0, e, r.hash_numEdges_eq⟩
  · obtain ⟨m0, e0, r0⟩ := matrix_Models_new n
    obtain ⟨m, e, r⟩ := matrix_Models_run ops hops r0
    exact ⟨m0, m, e0, e, r.matrix_numEdges_eq⟩

/-- Witness for C1: the calls of `TestNumEdges` on `g5`. -/
theorem numEdges_eq_countEdges_witness :
    (∀ op ∈ testNumEdgesOps, op.Valid (5 : Nat)) ∧
    ((∃ h0 h, NewHash (5 : Nat) = some h0 ∧ h0.run testNumEdgesOps = .ok h ∧
      h.NumEdges = countEdges h.HasEdge 5) ∧
    (∃ m0 m, NewMatrix (5 : Nat) = some m0 ∧ m0.run testNumEdgesOps = .ok m ∧
      m.NumEdges = countEdges m.HasEdge 5)) :=
  ⟨by decide, numEdges_eq_countEdges 5 testNumEdgesOps (by decide)⟩

/-! ## Neighbor enumeration and degree -/

theorem mem_entries_iff_lookup {m : GoMap} (hnd : (m.map Prod.fst).Nodup) (w : Int)
    (x : Value) : (w, x) ∈ m ↔ lookup m w = some x := by
  induction m with
  | nil => simp [lookup]
  | cons e m ih =>
    obtain ⟨k0, y⟩ := e
    simp only [List.map_cons, List.nodup_cons] at hnd
    by_cases h : k0 = w
    · subst h
      simp only [lookup, if_true, List.mem_cons, Prod.mk.injEq, true_and, Option.some.injEq]
      constructor
      · rintro (h | h)
        · exact h.symm
        · exact absurd (List.mem_map_of_mem Prod.fst h) hnd.1
      · intro h
        exact Or.inl h.symm
    · have h' : ¬ w = k0 := fun e => h e.symm
      simp [lookup, h, h', ih hnd.2]

theorem mem_rowNeighbors (row : List Value) (w : Int) (x : Value) :
    (w, x) ∈ rowNeighbors row ↔ index row w = some x ∧ x ≠ Value.noEdge := by
  unfold rowNeighbors
  simp only [List.mem_map, List.mem_filter, decide_eq_true_eq, Prod.mk.injEq, Prod.exists]
  constructor
  · rintro ⟨k, y, ⟨hmem, hy⟩, rfl, rfl⟩
    rw [List.mk_mem_enum_iff_getElem?] at hmem
    exact ⟨by simp [index, hmem], hy⟩
  · rintro ⟨hidx, hx⟩
    rw [index_eq_some_iff] at hidx
    refine ⟨w.toNat, x, ⟨?_, hx⟩, Int.toNat_of_nonneg hidx.1, rfl⟩
    rw [List.mk_mem_enum_iff_getElem?]
    exact hidx.2

theorem nodup_rowNeighbors (row : List Value) : (rowNeighbors row).Nodup := by
  unfold rowNeighbors
  apply List.Nodup.map
  · intro p q hpq
    simp only [Prod.mk.injEq, Nat.cast_inj] at hpq
    exact Prod.ext hpq.1 hpq.2
  · apply List.Nodup.filter
    exact List.Nodup.of_map Prod.fst (List.nodup_enum_map_fst row)

theorem length_rowNeighbors (row : List Value) :
    (rowNeighbors row).length = (row.filter (fun x => decide (x ≠ Value.noEdge))).length := by
  unfold rowNeighbors
  rw [List.length_map]
  conv_rhs => rw [← List.enum_map_snd row, List.filter_map, List.length_map]
  rfl

/-- When a map and a matrix row hold the same edges, the map's entries are a permutation
of the calls made on the row. -/
theorem entries_perm_rowNeighbors {n : Nat} {mp : Option GoMap} {row : List Value}
    (hlen : row.length = n) (hnd : ((mapEntries mp).map Prod.fst).Nodup)
    (hr : ∀ k ∈ (mapEntries mp).map Prod.fst, 0 ≤ k ∧ k < (n : Int))
    (hc : ∀ w : Int, 0 ≤ w → w < (n : Int) → ∀ y, index row w = some y →
      lookup (mapEntries mp) w = if y = Value.noEdge then none else some y) :
    List.Perm (mapEntries mp) (rowNeighbors row) := by
  rw [List.perm_ext_iff_of_nodup (List.Nodup.of_map Prod.fst hnd) (nodup_rowNeighbors row)]
  rintro ⟨w, x⟩
  rw [mem_entries_iff_lookup hnd, mem_rowNeighbors]
  constructor
  · intro hl
    have hw : w ∈ (mapEntries mp).map Prod.fst := by
      rw [← lookup_isSome_iff_mem_keys, hl]; rfl
    obtain ⟨hw0, hw1⟩ := hr w hw
    obtain ⟨y, hy⟩ := index_isSome_of_lt (s := row) hw0 (by rw [hlen]; exact hw1)
    have := hc w hw0 hw1 y hy
    rw [hl] at this
    by_cases hne : y = Value.noEdge
    · simp [hne] at this
    · simp only [hne, if_false, Option.some.injEq] at this
      subst this
      exact ⟨hy, hne⟩
  · rintro ⟨hy, hne⟩
    obtain ⟨hw0, hw1⟩ := index_lt_of_eq_some hy
    rw [hlen] at hw1
    rw [hc w hw0 hw1 x hy]
    simp [hne]

/-- A `Hash` and a `Matrix` that represent the same edge map enumerate, at every vertex,
the same calls up to order. -/
theorem Models.doNeighbors_perm {n : Nat} {h : Hash} {m : Matrix} {c : EdgeMap}
    (hh : h.Models n c) (hm : m.Models n c) {ord : RangeOrder} (hord : ord.Valid)
    {v : Int} (hv : 0 ≤ v ∧ v < (n : Int)) :
    ∃ lh lm, h.DoNeighbors ord v = some lh ∧ m.DoNeighbors v = some lm ∧
      List.Perm lh lm ∧ h.Degree v = some (lm.length : Int) ∧
      m.Degree v = some (lm.length : Int) := by
  obtain ⟨mp, hmp⟩ := index_isSome_of_lt (s := h.edges) hv.1 (by rw [hh.keys.1]; exact hv.2)
  obtain ⟨row, hrow⟩ := index_isSome_of_lt (s := m.adj) hv.1 (by rw [hm.square.1]; exact hv.2)
  have hlen : row.length = n := hm.square.2 _ (mem_of_index_eq_some hrow)
  have hk := hh.keys.2 mp (mem_of_index_eq_some hmp)
  have hperm : List.Perm (mapEntries mp) (rowNeighbors row) := by
    apply entries_perm_rowNeighbors hlen hk.1 hk.2
    intro w hw0 hw1 y hy
    have h1 := hh.cell v w hv.1 hv.2 hw0 hw1
    have h2 := hm.cell v w hv.1 hv.2 hw0 hw1
    simp only [Hash.cell, hmp, Option.some.injEq] at h1
    simp only [Matrix.cell, hrow, hy] at h2
    rw [← mapGet_eq_lookup, h1]
    by_cases hne : y = Value.noEdge
    · simpa [hne] using h2.symm
    · simpa [hne] using h2.symm
  refine ⟨ord v (mapEntries mp), rowNeighbors row, by simp [Hash.DoNeighbors, hmp],
    by simp [Matrix.DoNeighbors, hrow], (hord v _).trans hperm, ?_, ?_⟩
  · simp [Hash.Degree, hmp, mapLen, hperm.length_eq]
  · simp [Matrix.Degree, hrow, length_rowNeighbors]

/-- C2: for every `n` and every finite sequence of in-range mutations, the same sequence
applied to `NewHash(n)` and to `NewMatrix(n)` returns normally on both and gives graphs that
agree on `NumVertices`, `NumEdges`, and for all in-range `v`, `w` on `HasEdge(v, w)`,
`Label(v, w)` and `Degree(v)`; the calls made by `DoNeighbors(v)` are the same up to their
order, for every order the map iteration of `Hash` may take. -/
theorem backends_agree (n : Nat) (ops : List Op) (hops : ∀ op ∈ ops, op.Valid n)
    (ord : RangeOrder) (hord : ord.Valid) :
    ∃ h0 h m0 m, NewHash n = some h0 ∧ h0.run ops = .ok h ∧
      NewMatrix n = some m0 ∧ m0.run ops = .ok m ∧
      h.NumVertices = n ∧ m.NumVertices = n ∧ h.NumEdges = m.NumEdges ∧
      ∀ v : Int, 0 ≤ v → v < (n : Int) →
        (∃ d, h.Degree v = some d ∧ m.Degree v = some d) ∧
        (∃ lh lm, h.DoNeighbors ord v = some lh ∧ m.DoNeighbors v = some lm ∧
          List.Perm lh lm) ∧
        ∀ w : Int, 0 ≤ w → w < (n : Int) →
          (∃ b, h.HasEdge v w = some b ∧ m.HasEdge v w = some b) ∧
          (∃ x, h.Label v w = some x ∧ m.Label v w = some x) := by
  obtain ⟨h0, eh0, rh0⟩ := hash_Models_new n
  obtain ⟨h, eh, rh⟩ := hash_Models_run ops hops rh0
  obtain ⟨m0, em0, rm0⟩ := matrix_Models_new n
  obtain ⟨m, em, rm⟩ := matrix_Models_run ops hops rm0
  refine ⟨h0, h, m0, m, eh0, eh, em0, em, ?_, ?_, ?_, ?_⟩
  · simp [Hash.NumVertices, rh.keys.1]
  · simp [Matrix.NumVertices, rm.square.1]
  · simp [Hash.NumEdges, Matrix.NumEdges, rh.count, rm.count]
  · intro v hv0 hv1
    obtain ⟨lh, lm, e1, e2, hp, d1, d2⟩ := Models.doNeighbors_perm rh rm hord ⟨hv0, hv1⟩
    refine ⟨⟨_, d1, d2⟩, ⟨lh, lm, e1, e2, hp⟩, ?_⟩
    intro w hw0 hw1
    have hv : 0 ≤ v ∧ v < (n : Int) := ⟨hv0, hv1⟩
    have hw : 0 ≤ w ∧ w < (n : Int) := ⟨hw0, hw1⟩
    exact ⟨⟨_, rh.hash_hasEdge hv hw, rm.matrix_hasEdge hv hw⟩,
      ⟨_, rh.hash_label hv hw, rm.matrix_label hv hw⟩⟩

theorem storageOrder_valid : storageOrder.Valid := fun _ _ => List.Perm.refl _

/-- Witness for C2: the calls of `TestNumEdges` on 5 vertices, in storage order. -/
theorem backends_agree_witness :
    (∀ op ∈ testNumEdgesOps, op.Valid (5 : Nat)) ∧ storageOrder.Valid ∧
    ∃ h0 h m0 m, NewHash (5 : Nat) = some h0 ∧ h0.run testNumEdgesOps = .ok h ∧
      NewMatrix (5 : Nat) = some m0 ∧ m0.run testNumEdgesOps = .ok m ∧
      h.NumVertices = (5 : Nat) ∧ m.NumVertices = (5 : Nat) ∧ h.NumEdges = m.NumEdges ∧
      ∀ v : Int, 0 ≤ v → v < ((5 : Nat) : Int) →
        (∃ d, h.Degree v = some d ∧ m.Degree v = some d) ∧
        (∃ lh lm, h.DoNeighbors storageOrder v = some lh ∧ m.DoNeighbors v = some lm ∧
          List.Perm lh lm) ∧
        ∀ w : Int, 0 ≤ w → w < ((5 : Nat) : Int) →
          (∃ b, h.HasEdge v w = some b ∧ m.HasEdge v w = some b) ∧
          (∃ x, h.Label v w = some x ∧ m.Label v w = some x) :=
  ⟨by decide, storageOrder_valid,
    backends_agree 5 testNumEdgesOps (by decide) storageOrder storageOrder_valid⟩

/-- C8: for each backend, every graph state and every in-range `(v, w)`: `Add(v, w)` returns
normally and afterwards `HasEdge(v, w)` is true and `Label(v, w)` is `NoLabel`, whatever the
pair held before (absent, unlabeled or any label). -/
theorem add_then_hasEdge_label (n : Nat) (v w : Int) (hv : 0 ≤ v ∧ v < (n : Int))
    (hw : 0 ≤ w ∧ w < (n : Int)) :
    (∀ g : Hash, g.NumVertices = n → ∃ g', g.Add v w = .ok g' ∧
      g'.HasEdge v w = some true ∧ g'.Label v w = some Value.NoLabel) ∧
    (∀ g : Matrix, g.Square n → ∃ g', g.Add v w = .ok g' ∧
      g'.HasEdge v w = some true ∧ g'.Label v w = some Value.NoLabel) := by
  constructor
  · intro g hg
    rw [hash_Add_eq_AddLabel]
    obtain ⟨g', he, -, hcell, -⟩ := hash_AddLabel_spec g w Value.NoLabel hv.1
      (by unfold Hash.NumVertices at hg; rw [hg]; exact hv.2)
    exact ⟨g', he, by simp [hash_HasEdge_eq_cell, hcell], by simp [hash_Label_eq_cell, hcell]⟩
  · intro g hg
    obtain ⟨g', he, -, hcell, -⟩ :=
      matrix_AddLabel_spec hg hv hw (x := Value.NoLabel) (by decide)
    exact ⟨g', he, by simp [matrix_HasEdge_eq_cell, hcell],
      by simp [matrix_Label_eq_cell, hcell]⟩

/-- Witness for C8 (`TestAddNewLabel`): `Add(2, 3)` on `g5`, where `(2, 3)` carries 1. -/
theorem add_then_hasEdge_label_witness :
    ((hashOf 5 setupOps).Label 2 3 = some (Value.int 1) ∧
      ∃ g', (hashOf 5 setupOps).Add 2 3 = .ok g' ∧
        g'.HasEdge 2 3 = some true ∧ g'.Label 2 3 = some Value.NoLabel) ∧
    ((matrixOf 5 setupOps).Label 2 3 = some (Value.int 1) ∧
      ∃ g', (matrixOf 5 setupOps).Add 2 3 = .ok g' ∧
        g'.HasEdge 2 3 = some true ∧ g'.Label 2 3 = some Value.NoLabel) :=
  ⟨⟨by decide, (add_then_hasEdge_label 5 2 3 (by decide) (by decide)).1 _ (by decide)⟩,
   ⟨by decide,
    (add_then_hasEdge_label 5 2 3 (by decide) (by decide)).2 _ ⟨by decide, by decide⟩⟩⟩

/-- C9: for each backend, every graph state, every in-range `(v, w)` and every label `x` a
caller can pass, the nil value included: `AddLabel(v, w, x)` returns normally and afterwards
`Label(v, w)` returns `x` and `HasEdge(v, w)` is true. -/
theorem addLabel_then_label (n : Nat) (v w : Int) (x : Value) (hv : 0 ≤ v ∧ v < (n : Int))
    (hw : 0 ≤ w ∧ w < (n : Int)) :
    (∀ g : Hash, g.NumVertices = n → ∃ g', g.AddLabel v w x = .ok g' ∧
      g'.Label v w = some x ∧ g'.HasEdge v w = some true) ∧
    (∀ g : Matrix, g.Square n → x ≠ Value.noEdge → ∃ g', g.AddLabel v w x = .ok g' ∧
      g'.Label v w = some x ∧ g'.HasEdge v w = some true) := by
  constructor
  · intro g hg
    obtain ⟨g', he, -, hcell, -⟩ := hash_AddLabel_spec g w x hv.1
      (by unfold Hash.NumVertices at hg; rw [hg]; exact hv.2)
    exact ⟨g', he, by simp [hash_Label_eq_cell, hcell], by simp [hash_HasEdge_eq_cell, hcell]⟩
  · intro g hg hx
    obtain ⟨g', he, -, hcell, -⟩ := matrix_AddLabel_spec hg hv hw hx
    exact ⟨g', he, by simp [matrix_Label_eq_cell, hcell],
      by simp [matrix_HasEdge_eq_cell, hcell]⟩

/-- Witness for C9 (`TestNilLabel`): `AddLabel(0, 1, nil)` on `g5`. -/
theorem addLabel_then_label_witness :
    (∃ g', (hashOf 5 setupOps).AddLabel 0 1 Value.nil = .ok g' ∧
      g'.Label 0 1 = some Value.nil ∧ g'.HasEdge 0 1 = some true) ∧
    (∃ g', (matrixOf 5 setupOps).AddLabel 0 1 Value.nil = .ok g' ∧
      g'.Label 0 1 = some Value.nil ∧ g'.HasEdge 0 1 = some true) :=
  ⟨(addLabel_then_label 5 0 1 Value.nil (by decide) (by decide)).1 _ (by decide),
   (addLabel_then_label 5 0 1 Value.nil (by decide) (by decide)).2 _
     ⟨by decide, by decide⟩ (by decide)⟩

/-- C10, counterexample: on one vertex, `Label(0, 0)` returns the same value, nil, on the
empty graph and after `AddLabel(0, 0, nil)`, in both backends, although `HasEdge(0, 0)`
is false in the first graph and true in the second. -/
theorem label_nil_same_as_absent :
    ((hashOf 1 []).HasEdge 0 0 = some false ∧
      (hashOf 1 [.AddLabel 0 0 Value.nil]).HasEdge 0 0 = some true ∧
      (hashOf 1 [.AddLabel 0 0 Value.nil]).Label 0 0 = (hashOf 1 []).Label 0 0) ∧
    ((matrixOf 1 []).HasEdge 0 0 = some false ∧
      (matrixOf 1 [.AddLabel 0 0 Value.nil]).HasEdge 0 0 = some true ∧
      (matrixOf 1 [.AddLabel 0 0 Value.nil]).Label 0 0 = (matrixOf 1 []).Label 0 0) := by
  decide

/-- C10 as amended: for each backend, every graph state and every in-range `(v, w)`,
`Label(v, w)` returns nil when no edge from `v` to `w` exists, and also after
`AddLabel(v, w, nil)`; the two states are told apart by `HasEdge(v, w)`, which is true after
`AddLabel(v, w, nil)`. After `AddLabel(v, w, x)` with `x` other than nil, `Label(v, w)`
differs from nil. -/
theorem label_absent_vs_labeled (n : Nat) (v w : Int) (hv : 0 ≤ v ∧ v < (n : Int))
    (hw : 0 ≤ w ∧ w < (n : Int)) :
    (∀ g : Hash, g.NumVertices = n →
      (g.HasEdge v w = some false → g.Label v w = some Value.nil) ∧
      (∃ g', g.AddLabel v w Value.nil = .ok g' ∧ g'.Label v w = some Value.nil ∧
        g'.HasEdge v w = some true) ∧
      (∀ x, x ≠ Value.nil → ∃ g', g.AddLabel v w x = .ok g' ∧
        g'.Label v w ≠ some Value.nil)) ∧
    (∀ g : Matrix, g.Square n →
      (g.HasEdge v w = some false → g.Label v w = some Value.nil) ∧
      (∃ g', g.AddLabel v w Value.nil = .ok g' ∧ g'.Label v w = some Value.nil ∧
        g'.HasEdge v w = some true) ∧
      (∀ x, x ≠ Value.nil → x ≠ Value.noEdge → ∃ g', g.AddLabel v w x = .ok g' ∧
        g'.Label v w ≠ some Value.nil)) := by
  constructor
  · intro g hg
    have hlt : v < (g.edges.length : Int) := by
      unfold Hash.NumVertices at hg; rw [hg]; exact hv.2
    refine ⟨?_, ?_, ?_⟩
    · rw [hash_HasEdge_eq_cell, hash_Label_eq_cell]
      cases hc : g.cell v w with
      | none => simp
      | some c => cases c <;> simp
    · obtain ⟨g', he, -, hcell, -⟩ := hash_AddLabel_spec g w Value.nil hv.1 hlt
      exact ⟨g', he, by simp [hash_Label_eq_cell, hcell],
        by simp [hash_HasEdge_eq_cell, hcell]⟩
    · intro x hx
      obtain ⟨g', he, -, hcell, -⟩ := hash_AddLabel_spec g w x hv.1 hlt
      exact ⟨g', he, by simp [hash_Label_eq_cell, hcell, hx]⟩
  · intro g hg
    refine ⟨?_, ?_, ?_⟩
    · rw [matrix_HasEdge_eq_cell, matrix_Label_eq_cell]
      cases hc : g.cell v w with
      | none => simp
      | some c => cases c <;> simp
    · obtain ⟨g', he, -, hcell, -⟩ :=
        matrix_AddLabel_spec hg hv hw (x := Value.nil) (by decide)
      exact ⟨g', he, by simp [matrix_Label_eq_cell, hcell],
        by simp [matrix_HasEdge_eq_cell, hcell]⟩
    · intro x hx hx'
      obtain ⟨g', he, -, hcell, -⟩ := matrix_AddLabel_spec hg hv hw hx'
      exact ⟨g', he, by simp [matrix_Label_eq_cell, hcell, hx]⟩

/-- Witness for C10 as amended: the pair `(1, 2)` of `g5`, absent after `setup`. -/
theorem label_absent_vs_labeled_witness :
    ((hashOf 5 setupOps).Label 1 2 = some Value.nil ∧
      ∃ g', (hashOf 5 setupOps).AddLabel 1 2 Value.nil = .ok g' ∧
        g'.Label 1 2 = some Value.nil ∧ g'.HasEdge 1 2 = some true) ∧
    ((matrixOf 5 setupOps).Label 1 2 = some Value.nil ∧
      ∃ g', (matrixOf 5 setupOps).AddLabel 1 2 Value.nil = .ok g' ∧
        g'.Label 1 2 = some Value.nil ∧ g'.HasEdge 1 2 = some true) :=
  ⟨⟨((label_absent_vs_labeled 5 1 2 (by decide) (by decide)).1 _ (by decide)).1 (by decide),
    ((label_absent_vs_labeled 5 1 2 (by decide) (by decide)).1 _ (by decide)).2.1⟩,
   ⟨((label_absent_vs_labeled 5 1 2 (by decide) (by decide)).2 _
      ⟨by decide, by decide⟩).1 (by decide),
    ((label_absent_vs_labeled 5 1 2 (by decide) (by decide)).2 _
      ⟨by decide, by decide⟩).2.1⟩⟩

/-! ## Traversal -/

theorem pop_eq_none {order : Order} {q : List Int} : pop order q = none ↔ q = [] := by
  cases order with
  | bfs => cases q <;> simp [pop]
  | dfs =>
    unfold pop
    cases hq : q.getLast? with
    | none =>
      simp only [hq, true_iff]
      exact List.getLast?_eq_none_iff.mp hq
    | some v =>
      simp only [hq, reduceCtorEq, false_iff]
      rintro rfl
      simp at hq

theorem pop_bfs {q q' : List Int} {v : Int} (h : pop Order.bfs q = some (v, q')) :
    q = v :: q' := by
  cases q with
  | nil => simp [pop] at h
  | cons a q =>
    simp only [pop, Option.some.injEq, Prod.mk.injEq] at h
    rw [h.1, h.2]

theorem pop_dfs {q q' : List Int} {v : Int} (h : pop Order.dfs q = some (v, q')) :
    q = q' ++ [v] := by
  unfold pop at h
  cases hq : q.getLast? with
  | none => simp [hq] at h
  | some a =>
    simp only [hq, Option.some.injEq, Prod.mk.injEq] at h
    rw [← h.1, ← h.2]
    exact (List.dropLast_append_getLast? a hq).symm

theorem pop_mem {order : Order} {q q' : List Int} {v : Int}
    (h : pop order q = some (v, q')) :
    (∀ u, u ∈ q ↔ u = v ∨ u ∈ q') ∧ q.length = q'.length + 1 := by
  cases order with
  | bfs =>
    rw [pop_bfs h]
    exact ⟨fun u => by simp, by simp⟩
  | dfs =>
    rw [pop_dfs h]
    exact ⟨fun u => by simp [or_comm], by simp⟩

theorem visitIfNew_ok {s s' : State} {w : Int} (h : visitIfNew s w = .ok s') :
    (index s.visited w = some true ∧ s' = s) ∨
    (index s.visited w = some false ∧
      s' = { queue := s.queue ++ [w], visited := setIndex s.visited w true,
             calls := s.calls ++ [w] }) := by
  unfold visitIfNew at h
  cases hv : index s.visited w with
  | none => simp [hv] at h
  | some b =>
    cases b with
    | true =>
      simp only [hv, Except.ok.injEq] at h
      exact Or.inl ⟨rfl, h.symm⟩
    | false =>
      simp only [hv, visit, Except.ok.injEq] at h
      exact Or.inr ⟨rfl, h.symm⟩

theorem visitIfNew_error {s : State} {w : Int} {e : Err} (h : visitIfNew s w = .error e) :
    e = Err.panic := by
  unfold visitIfNew at h
  cases hv : index s.visited w with
  | none => simp only [hv, Except.error.injEq] at h; exact h.symm
  | some b =>
    cases b with
    | true => simp [hv] at h
    | false => simp [hv, visit] at h

theorem visitIfNew_inRange {s : State} {w : Int} (h0 : 0 ≤ w)
    (h1 : w < (s.visited.length : Int)) : ∃ s', visitIfNew s w = .ok s' := by
  obtain ⟨b, hb⟩ := index_isSome_of_lt h0 h1
  unfold visitIfNew
  cases b with
  | true => exact ⟨s, by simp [hb]⟩
  | false =>
    exact ⟨{ queue := s.queue ++ [w], visited := setIndex s.visited w true,
             calls := s.calls ++ [w] }, by simp only [hb, visit]⟩

/-- Invariant rule for the calls of the closure of `traverse` made by one `DoNeighbors`. -/
theorem doCalls_rule {g : Iterator} {v : Int} (Q : List Int → State → Prop)
    (hstep : ∀ done s w s', Q done s → Edge g v w → visitIfNew s w = .ok s' →
      Q (done ++ [w]) s') :
    ∀ (rest : List (Int × Value)) (done : List Int) (s s' : State),
      (∀ p ∈ rest, Edge g v p.1) → Q done s → doCalls rest s = .ok s' →
      Q (done ++ rest.map Prod.fst) s' := by
  intro rest
  induction rest with
  | nil =>
    intro done s s' _ hQ h
    simp only [doCalls, Except.ok.injEq] at h
    subst h
    simpa using hQ
  | cons p rest ih =>
    intro done s s' hE hQ h
    obtain ⟨w, x⟩ := p
    simp only [doCalls] at h
    cases hv : visitIfNew s w with
    | error e => simp [hv] at h
    | ok s1 =>
      simp only [hv] at h
      have := ih (done ++ [w]) s1 s' (fun p hp => hE p (List.mem_cons_of_mem _ hp))
        (hstep done s w s1 hQ (hE (w, x) (List.mem_cons_self _ _)) hv) h
      simpa using this

/-- Invariant rule for the loop of `traverse`: `P` holds between iterations, `Q v done`
while the neighbors of the popped vertex `v` are enumerated, `done` being those already
passed to the closure. -/
theorem loop_rule {g : Iterator} {order : Order} (P : State → Prop)
    (Q : Int → List Int → State → Prop)
    (hpop : ∀ s v q, P s → pop order s.queue = some (v, q) → Q v [] { s with queue := q })
    (hstep : ∀ v done s w s', Q v done s → Edge g v w → visitIfNew s w = .ok s' →
      Q v (done ++ [w]) s')
    (hexit : ∀ v ns s, g.DoNeighbors v = some ns → Q v (ns.map Prod.fst) s → P s) :
    ∀ (fuel : Nat) (s s' : State), P s → loop g order fuel s = .ok s' →
      P s' ∧ s'.queue = [] := by
  intro fuel
  induction fuel with
  | zero =>
    intro s s' hP h
    unfold loop at h
    cases hp : pop order s.queue with
    | none =>
      simp only [hp, Except.ok.injEq] at h
      subst h
      exact ⟨hP, pop_eq_none.mp hp⟩
    | some vq => simp [hp] at h
  | succ fuel ih =>
    intro s s' hP h
    unfold loop at h
    cases hp : pop order s.queue with
    | none =>
      simp only [hp, Except.ok.injEq] at h
      subst h
      exact ⟨hP, pop_eq_none.mp hp⟩
    | some vq =>
      obtain ⟨v, q⟩ := vq
      simp only [hp] at h
      cases hn : g.DoNeighbors v with
      | none => simp [hn] at h
      | some ns =>
        simp only [hn] at h
        cases hd : doCalls ns { s with queue := q } with
        | error e => simp [hd] at h
        | ok s1 =>
          simp only [hd] at h
          have hQ := doCalls_rule (Q v) (hstep v) ns [] _ s1
            (fun p hp => ⟨ns, hn, List.mem_map_of_mem _ hp⟩) (hpop s v q hP hp) hd
          exact ih s1 s' (hexit v ns s1 hn (by simpa using hQ)) h

theorem traverse_unvisited (g : Iterator) {v : Int} {visited : List Bool} (order : Order)
    (h : index visited v = some false) :
    traverse g v visited order = loop g order visited.length
      { queue := [v], visited := setIndex visited v true, calls := [v] } := by
  simp [traverse, h, visit]


/-! ### Termination -/

theorem count_false_setIndex {vis : List Bool} {w : Int} (h : index vis w = some false) :
    (setIndex vis w true).count false + 1 = vis.count false := by
  have hmem : false ∈ vis := mem_of_index_eq_some h
  rw [index_eq_some_iff] at h
  obtain ⟨hlt, hget⟩ := List.getElem?_eq_some.mp h.2
  have hpos : 0 < vis.count false := List.count_pos_iff.mpr hmem
  rw [setIndex, List.count_set _ _ _ _ hlt]
  simp only [hget, beq_self_eq_true, if_true]
  simp
  omega

theorem visitIfNew_measure {s s' : State} {w : Int} (h : visitIfNew s w = .ok s') :
    s'.measure = s.measure ∧ s'.visited.length = s.visited.length ∧
      ∀ u ∈ s'.queue, u ∈ s.queue ∨ u = w := by
  rcases visitIfNew_ok h with ⟨-, rfl⟩ | ⟨hv, rfl⟩
  · exact ⟨rfl, rfl, fun u hu => Or.inl hu⟩
  · refine ⟨?_, by simp [length_setIndex], fun u hu => by simpa using hu⟩
    have := count_false_setIndex hv
    simp only [State.measure, List.length_append, List.length_singleton]
    omega

theorem doCalls_measure : ∀ (ns : List (Int × Value)) (s s' : State),
    doCalls ns s = .ok s' →
    s'.measure = s.measure ∧ s'.visited.length = s.visited.length ∧
      ∀ u ∈ s'.queue, u ∈ s.queue ∨ u ∈ ns.map Prod.fst := by
  intro ns
  induction ns with
  | nil =>
    intro s s' h
    simp only [doCalls, Except.ok.injEq] at h
    subst h
    exact ⟨rfl, rfl, fun u hu => Or.inl hu⟩
  | cons p ns ih =>
    intro s s' h
    obtain ⟨w, x⟩ := p
    simp only [doCalls] at h
    cases hv : visitIfNew s w with
    | error e => simp [hv] at h
    | ok s1 =>
      simp only [hv] at h
      obtain ⟨m1, l1, q1⟩ := visitIfNew_measure hv
      obtain ⟨m2, l2, q2⟩ := ih s1 s' h
      refine ⟨m2.trans m1, l2.trans l1, ?_⟩
      intro u hu
      rcases q2 u hu with h1 | h1
      · rcases q1 u h1 with h2 | h2
        · exact Or.inl h2
        · exact Or.inr (by simp [h2])
      · exact Or.inr (by simp [h1])

theorem doCalls_error : ∀ (ns : List (Int × Value)) (s : State) (e : Err),
    doCalls ns s = .error e → e = Err.panic := by
  intro ns
  induction ns with
  | nil => intro s e h; simp [doCalls] at h
  | cons p ns ih =>
    intro s e h
    obtain ⟨w, x⟩ := p
    simp only [doCalls] at h
    cases hv : visitIfNew s w with
    | error e' =>
      simp only [hv, Except.error.injEq] at h
      rw [← h]
      exact visitIfNew_error hv
    | ok s1 =>
      simp only [hv] at h
      exact ih s1 e h

theorem doCalls_inRange {n : Nat} : ∀ (ns : List (Int × Value)) (s : State),
    s.visited.length = n → (∀ p ∈ ns, 0 ≤ p.1 ∧ p.1 < (n : Int)) →
    ∃ s', doCalls ns s = .ok s' := by
  intro ns
  induction ns with
  | nil => intro s _ _; exact ⟨s, rfl⟩
  | cons p ns ih =>
    intro s hlen hr
    obtain ⟨w, x⟩ := p
    have hw := hr (w, x) (List.mem_cons_self _ _)
    obtain ⟨s1, h1⟩ := visitIfNew_inRange (s := s) hw.1 (by rw [hlen]; exact hw.2)
    obtain ⟨s2, h2⟩ := ih s1 ((visitIfNew_measure h1).2.1.trans hlen)
      (fun p hp => hr p (List.mem_cons_of_mem _ hp))
    exact ⟨s2, by simp only [doCalls, h1, h2]⟩

/-- The loop of `traverse` never uses up a budget of `measure` iterations. -/
theorem loop_ne_outOfFuel (g : Iterator) (order : Order) :
    ∀ (fuel : Nat) (s : State), s.measure ≤ fuel →
      loop g order fuel s ≠ .error Err.outOfFuel := by
  intro fuel
  induction fuel with
  | zero =>
    intro s hm
    unfold loop
    cases hp : pop order s.queue with
    | none => simp
    | some vq =>
      obtain ⟨v, q⟩ := vq
      have := (pop_mem hp).2
      simp only [State.measure] at hm
      omega
  | succ fuel ih =>
    intro s hm
    unfold loop
    cases hp : pop order s.queue with
    | none => simp
    | some vq =>
      obtain ⟨v, q⟩ := vq
      simp only
      cases hn : g.DoNeighbors v with
      | none => simp
      | some ns =>
        simp only
        cases hd : doCalls ns { s with queue := q } with
        | error e =>
          simp only [ne_eq, Except.error.injEq]
          rw [doCalls_error _ _ _ hd]
          decide
        | ok s1 =>
          simp only
          apply ih
          have h1 := (doCalls_measure _ _ _ hd).1
          have h2 := (pop_mem hp).2
          simp only [State.measure] at hm h1 ⊢
          omega

/-- On a graph whose neighbors are in range the loop of `traverse` does not panic. -/
theorem loop_ne_panic {g : Iterator} {n : Nat} (hg : g.InRange n) (order : Order) :
    ∀ (fuel : Nat) (s : State), s.visited.length = n →
      (∀ u ∈ s.queue, 0 ≤ u ∧ u < (n : Int)) →
      loop g order fuel s ≠ .error Err.panic := by
  intro fuel
  induction fuel with
  | zero =>
    intro s _ _
    unfold loop
    cases hp : pop order s.queue with
    | none => simp
    | some vq => simp
  | succ fuel ih =>
    intro s hlen hq
    unfold loop
    cases hp : pop order s.queue with
    | none => simp
    | some vq =>
      obtain ⟨v, q⟩ := vq
      simp only
      have hpm := (pop_mem hp).1
      have hv := hq v ((hpm v).mpr (Or.inl rfl))
      obtain ⟨ns, hn, hns⟩ := hg v hv.1 hv.2
      simp only [hn]
      obtain ⟨s1, hd⟩ := doCalls_inRange (n := n) ns { s with queue := q } hlen hns
      simp only [hd]
      obtain ⟨-, hl1, hq1⟩ := doCalls_measure _ _ _ hd
      apply ih s1 (hl1.trans hlen)
      intro u hu
      rcases hq1 u hu with h1 | h1
      · exact hq u ((hpm u).mpr (Or.inr h1))
      · obtain ⟨p, hp', rfl⟩ := List.mem_map.mp h1
        exact hns p hp'

/-- `traverse` never runs out of its budget: the `Err.outOfFuel` outcome does not occur. -/
theorem traverse_ne_outOfFuel (g : Iterator) (v : Int) (visited : List Bool)
    (order : Order) : traverse g v visited order ≠ .error Err.outOfFuel := by
  cases hv : index visited v with
  | none => simp [traverse, hv]
  | some b =>
    cases b with
    | true => simp [traverse, hv]
    | false =>
      rw [traverse_unvisited g order hv]
      apply loop_ne_outOfFuel
      have h1 := count_false_setIndex hv
      have h2 : visited.count false ≤ visited.length := List.count_le_length _ _
      simp only [State.measure, List.length_singleton]
      omega

/-- On a graph whose neighbors are in range, with `visited` of length `n` and `start` in
range, `traverse` returns normally. -/
theorem traverse_ok {g : Iterator} {n : Nat} (hg : g.InRange n) {start : Int}
    (hs : 0 ≤ start ∧ start < (n : Int)) {visited : List Bool} (hlen : visited.length = n)
    (order : Order) : ∃ s, traverse g start visited order = .ok s := by
  cases h : traverse g start visited order with
  | ok s => exact ⟨s, rfl⟩
  | error e =>
    exfalso
    cases e with
    | outOfFuel => exact traverse_ne_outOfFuel g start visited order h
    | panic =>
      obtain ⟨b, hb⟩ := index_isSome_of_lt (s := visited) hs.1 (by rw [hlen]; exact hs.2)
      cases b with
      | true => simp [traverse, hb] at h
      | false =>
        rw [traverse_unvisited g order hb] at h
        refine loop_ne_panic hg order _ _ ?_ ?_ h
        · simp [length_setIndex, hlen]
        · intro u hu
          simp only [List.mem_singleton] at hu
          rw [hu]
          exact hs

/-! ### The traversal invariant -/

theorem travInv_init (g : Iterator) {visited0 : List Bool} {start : Int}
    (h : index visited0 start = some false) :
    TravInv g visited0 start none []
      { queue := [start], visited := setIndex visited0 start true, calls := [start] } := by
  obtain ⟨h0, h1⟩ := index_lt_of_eq_some h
  refine ⟨by simp [length_setIndex], ?_, by simp, rfl, by simp, by simp, ?_, ?_, by simp, ?_⟩
  · intro w
    simp only [index_setIndex true h0 h1, List.mem_singleton]
    by_cases hw : w = start
    · simp [hw]
    · simp [hw]
  · intro w hw
    simp only [List.mem_singleton] at hw
    rw [hw]
    exact Relation.ReflTransGen.refl
  · intro u hu hnq
    exact absurd hu hnq
  · intro w hw hne
    simp only [List.mem_singleton] at hw
    exact absurd hw hne

theorem travInv_pop {g : Iterator} {visited0 : List Bool} {start : Int} {order : Order}
    {s : State} {v : Int} {q : List Int} (hP : TravInv g visited0 start none [] s)
    (hp : pop order s.queue = some (v, q)) :
    TravInv g visited0 start (some v) [] { s with queue := q } := by
  have hpm := (pop_mem hp).1
  refine ⟨hP.len, hP.vis, hP.nodup, hP.head, ?_, ?_, hP.reach, ?_, by simp, hP.parent⟩
  · intro w hw
    exact hP.queue_sub w ((hpm w).mpr (Or.inr hw))
  · intro v' hv'
    simp only [Option.some.injEq] at hv'
    rw [← hv']
    exact hP.queue_sub v ((hpm v).mpr (Or.inl rfl))
  · intro u hu hnq hne w hE
    apply hP.closed u hu _ (by simp) w hE
    intro hq
    rcases (hpm u).mp hq with h1 | h1
    · exact hne (by rw [h1])
    · exact hnq h1

theorem travInv_step {g : Iterator} {visited0 : List Bool} {start : Int} {v : Int}
    {done : List Int} {s s' : State} {w : Int}
    (hQ : TravInv g visited0 start (some v) done s) (hE : Edge g v w)
    (hv : visitIfNew s w = .ok s') :
    TravInv g visited0 start (some v) (done ++ [w]) s' := by
  rcases visitIfNew_ok hv with ⟨hw, rfl⟩ | ⟨hw, rfl⟩
  · refine ⟨hQ.len, hQ.vis, hQ.nodup, hQ.head, hQ.queue_sub, hQ.pend_mem, hQ.reach,
      hQ.closed, ?_, hQ.parent⟩
    intro u hu
    rcases List.mem_append.mp hu with h1 | h1
    · exact hQ.done_vis u h1
    · simp only [List.mem_singleton] at h1
      rw [h1]
      exact hw
  · obtain ⟨h0, h1⟩ := index_lt_of_eq_some hw
    have hmono : ∀ u, index s.visited u = some true →
        index (setIndex s.visited w true) u = some true := by
      intro u hu
      rw [index_setIndex true h0 h1]
      by_cases huw : u = w
      · simp [huw]
      · simp [huw, hu]
    have hwn : w ∉ s.calls := by
      intro hin
      have := (hQ.vis w).mpr (Or.inr hin)
      rw [hw] at this
      cases this
    have hvc : v ∈ s.calls := hQ.pend_mem v rfl
    refine ⟨by simp [length_setIndex, hQ.len], ?_, ?_, ?_, ?_, ?_, ?_, ?_, ?_, ?_⟩
    · intro u
      simp only [index_setIndex true h0 h1, List.mem_append, List.mem_singleton]
      by_cases huw : u = w
      · simp [huw]
      · simp only [huw, if_false, or_false]
        exact hQ.vis u
    · rw [List.nodup_append]
      refine ⟨hQ.nodup, by simp, ?_⟩
      intro a ha hb
      simp only [List.mem_singleton] at hb
      exact hwn (hb ▸ ha)
    · have hne : s.calls ≠ [] := List.ne_nil_of_mem hvc
      simp only
      rw [List.head?_append_of_ne_nil _ hne]
      exact hQ.head
    · intro u hu
      simp only [List.mem_append, List.mem_singleton] at hu ⊢
      rcases hu with h2 | h2
      · exact Or.inl (hQ.queue_sub u h2)
      · exact Or.inr h2
    · intro v' hv'
      exact List.mem_append_left _ (hQ.pend_mem v' hv')
    · intro u hu
      simp only [List.mem_append, List.mem_singleton] at hu
      rcases hu with h2 | h2
      · exact hQ.reach u h2
      · rw [h2]
        exact Relation.ReflTransGen.tail (hQ.reach v hvc) hE
    · intro u hu hnq hne x hx
      simp only [List.mem_append, List.mem_singleton, not_or] at hu hnq
      rcases hu with h2 | h2
      · exact hmono x (hQ.closed u h2 hnq.1 hne x hx)
      · exact absurd h2 hnq.2
    · intro u hu
      rcases List.mem_append.mp hu with h2 | h2
      · exact hmono u (hQ.done_vis u h2)
      · simp only [List.mem_singleton] at h2
        rw [h2]
        exact index_setIndex_same true h0 h1
    · intro u hu hne
      simp only [List.mem_append, List.mem_singleton] at hu
      rcases hu with h2 | h2
      · obtain ⟨l1, l2, p, hc, hp, hpe⟩ := hQ.parent u h2 hne
        exact ⟨l1, l2 ++ [w], p, by simp [hc], hp, hpe⟩
      · rw [h2]
        exact ⟨s.calls, [], v, rfl, hvc, hE⟩

theorem travInv_exit {g : Iterator} {visited0 : List Bool} {start : Int} {v : Int}
    {ns : List (Int × Value)} {s : State} (hn : g.DoNeighbors v = some ns)
    (hQ : TravInv g visited0 start (some v) (ns.map Prod.fst) s) :
    TravInv g visited0 start none [] s := by
  refine ⟨hQ.len, hQ.vis, hQ.nodup, hQ.head, hQ.queue_sub, by simp, hQ.reach, ?_, by simp,
    hQ.parent⟩
  intro u hu hnq _ w hE
  by_cases huv : u = v
  · obtain ⟨ns', hn', hw⟩ := hE
    rw [huv, hn] at hn'
    injection hn' with hn'
    rw [← hn'] at hw
    exact hQ.done_vis w hw
  · exact hQ.closed u hu hnq (by simpa using fun e => huv e.symm) w hE

/-- What `traverse` does from an unvisited `start`, on a graph whose neighbors are in
range: it returns normally with an empty queue and the invariant. -/
theorem traverse_spec {g : Iterator} {n : Nat} (hg : g.InRange n) {start : Int}
    {visited0 : List Bool} (hlen : visited0.length = n)
    (hs : index visited0 start = some false) (order : Order) :
    ∃ s, traverse g start visited0 order = .ok s ∧ s.queue = [] ∧
      TravInv g visited0 start none [] s := by
  have hr := index_lt_of_eq_some hs
  rw [hlen] at hr
  obtain ⟨s, he⟩ := traverse_ok hg hr hlen order
  refine ⟨s, he, ?_⟩
  rw [traverse_unvisited g order hs] at he
  have := @loop_rule g order (TravInv g visited0 start none [])
    (fun v done s => TravInv g visited0 start (some v) done s)
    (fun s v q hP hp => travInv_pop hP hp)
    (fun v done s w s' hQ hE hv => travInv_step hQ hE hv)
    (fun v ns s hn hQ => travInv_exit hn hQ)
    visited0.length _ s (travInv_init g hs) he
  exact ⟨this.2, this.1⟩

/-- From an unvisited `start` none of whose reachable vertices is marked in `visited0`,
`traverse` calls `action` exactly on the vertices reachable from `start`, once each, `start`
first, and marks exactly these. -/
theorem traverse_calls_eq_reachable {g : Iterator} {n : Nat} (hg : g.InRange n)
    {start : Int} {visited0 : List Bool} (hlen : visited0.length = n)
    (hs : index visited0 start = some false)
    (hfresh : ∀ w, Reachable g start w → index visited0 w ≠ some true) (order : Order) :
    ∃ s, traverse g start visited0 order = .ok s ∧ s.calls.Nodup ∧
      (∀ w, w ∈ s.calls ↔ Reachable g start w) ∧ s.calls.head? = some start ∧
      s.visited.length = n ∧
      ∀ w, index s.visited w = some true ↔
        (index visited0 w = some true ∨ Reachable g start w) := by
  obtain ⟨s, he, hq, hI⟩ := traverse_spec hg hlen hs order
  have hall : ∀ w, Reachable g start w → w ∈ s.calls := by
    intro w hw
    induction hw with
    | refl => exact List.mem_of_mem_head? hI.head
    | tail hab hbc ih =>
      rename_i b c
      have hvis := hI.closed b ih (by simp [hq]) (by simp) c hbc
      rcases (hI.vis c).mp hvis with h1 | h1
      · exact absurd h1 (hfresh c (Relation.ReflTransGen.tail hab hbc))
      · exact h1
  have hiff : ∀ w, w ∈ s.calls ↔ Reachable g start w := fun w => ⟨hI.reach w, hall w⟩
  refine ⟨s, he, hI.nodup, hiff, hI.head, hI.len.trans hlen, ?_⟩
  intro w
  rw [hI.vis w, hiff w]

theorem index_false_of_all_false {visited : List Bool} (hfalse : ∀ b ∈ visited, b = false)
    {w : Int} (h0 : 0 ≤ w) (h1 : w < (visited.length : Int)) :
    index visited w = some false := by
  obtain ⟨b, hb⟩ := index_isSome_of_lt h0 h1
  rw [hb, hfalse b (mem_of_index_eq_some hb)]

theorem index_ne_true_of_all_false {visited : List Bool} (hfalse : ∀ b ∈ visited, b = false)
    (w : Int) : index visited w ≠ some true := by
  intro h
  have := hfalse true (mem_of_index_eq_some h)
  cases this

/-- A square `Matrix` has all its neighbors in range. -/
theorem matrix_toIterator_inRange {n : Nat} {g : Matrix} (hsq : g.Square n) :
    g.toIterator.InRange n := by
  intro v hv0 hv1
  obtain ⟨row, hrow⟩ := index_isSome_of_lt (s := g.adj) hv0 (by rw [hsq.1]; exact hv1)
  have hlen : row.length = n := hsq.2 _ (mem_of_index_eq_some hrow)
  refine ⟨rowNeighbors row, by simp [Matrix.toIterator, Matrix.DoNeighbors, hrow], ?_⟩
  rintro ⟨w, x⟩ hp
  rw [mem_rowNeighbors] at hp
  have := index_lt_of_eq_some hp.1
  rw [hlen] at this
  exact this

/-- A `Hash` whose keys are in range has all its neighbors in range, whatever the order of
the map iteration. -/
theorem hash_toIterator_inRange {n : Nat} {g : Hash} (hk : g.KeysOk n) {ord : RangeOrder}
    (hord : ord.Valid) : (g.toIterator ord).InRange n := by
  intro v hv0 hv1
  obtain ⟨mp, hmp⟩ := index_isSome_of_lt (s := g.edges) hv0 (by rw [hk.1]; exact hv1)
  refine ⟨ord v (mapEntries mp), by simp [Hash.toIterator, Hash.DoNeighbors, hmp], ?_⟩
  intro p hp
  have hp' : p ∈ mapEntries mp := (hord v _).mem_iff.mp hp
  exact (hk.2 mp (mem_of_index_eq_some hmp)).2 p.1 (List.mem_map_of_mem Prod.fst hp')

/-- C3: for every graph whose stored neighbors are in `[0, n)` (any `Iterator`, so both
`Hash` and `Matrix`), every `start` in `[0, n)` and an all-false `visited` array of length
`n`, `BFS` and `DFS` return normally, the sequence of arguments of `action` has no duplicates,
and its elements are exactly the vertices reachable from `start` along directed edges,
`start` included. -/
theorem traverse_visits_reachable (g : Iterator) (n : Nat) (hg : g.InRange n) (start : Int)
    (hs : 0 ≤ start ∧ start < (n : Int)) (visited : List Bool) (hlen : visited.length = n)
    (hfalse : ∀ b ∈ visited, b = false) :
    (∃ s, BFS g start visited = .ok s ∧ s.calls.Nodup ∧
      ∀ w, w ∈ s.calls ↔ Reachable g start w) ∧
    (∃ s, DFS g start visited = .ok s ∧ s.calls.Nodup ∧
      ∀ w, w ∈ s.calls ↔ Reachable g start w) := by
  have hst : index visited start = some false :=
    index_false_of_all_false hfalse hs.1 (by rw [hlen]; exact hs.2)
  constructor
  · obtain ⟨s, he, hnd, hiff, -⟩ := traverse_calls_eq_reachable hg hlen hst
      (fun w _ => index_ne_true_of_all_false hfalse w) Order.bfs
    exact ⟨s, he, hnd, hiff⟩
  · obtain ⟨s, he, hnd, hiff, -⟩ := traverse_calls_eq_reachable hg hlen hst
      (fun w _ => index_ne_true_of_all_false hfalse w) Order.dfs
    exact ⟨s, he, hnd, hiff⟩

/-- Witness for C3: the graph of `TestDFS` (8 vertices) in both backends, from vertex 0. -/
theorem traverse_visits_reachable_witness :
    ((∃ s, BFS (matrixOf 8 testDFSOps).toIterator 0 (List.replicate 8 false) = .ok s ∧
        s.calls.Nodup ∧
        ∀ w, w ∈ s.calls ↔ Reachable (matrixOf 8 testDFSOps).toIterator 0 w) ∧
      (∃ s, DFS (matrixOf 8 testDFSOps).toIterator 0 (List.replicate 8 false) = .ok s ∧
        s.calls.Nodup ∧
        ∀ w, w ∈ s.calls ↔ Reachable (matrixOf 8 testDFSOps).toIterator 0 w)) ∧
    ((∃ s, BFS ((hashOf 8 testDFSOps).toIterator storageOrder) 0 (List.replicate 8 false)
          = .ok s ∧ s.calls.Nodup ∧
        ∀ w, w ∈ s.calls ↔ Reachable ((hashOf 8 testDFSOps).toIterator storageOrder) 0 w) ∧
      (∃ s, DFS ((hashOf 8 testDFSOps).toIterator storageOrder) 0 (List.replicate 8 false)
          = .ok s ∧ s.calls.Nodup ∧
        ∀ w, w ∈ s.calls ↔ Reachable ((hashOf 8 testDFSOps).toIterator storageOrder) 0 w)) :=
  ⟨traverse_visits_reachable _ 8 (matrix_toIterator_inRange ⟨by decide, by decide⟩) 0
      (by decide) _ (by decide) (by decide),
   traverse_visits_reachable _ 8
      (hash_toIterator_inRange ⟨by decide, by decide⟩ storageOrder_valid) 0
      (by decide) _ (by decide) (by decide)⟩

/-- C4: for every graph, every `visited` array and every `start` with `visited[start]`
true, `BFS` and `DFS` return normally without any call of `action`, and `visited` is
unchanged. -/
theorem traverse_visited_start (g : Iterator) (start : Int) (visited : List Bool)
    (h : index visited start = some true) :
    BFS g start visited = .ok { queue := [], visited := visited, calls := [] } ∧
    DFS g start visited = .ok { queue := [], visited := visited, calls := [] } := by
  simp [BFS, DFS, traverse, h]

/-- Witness for C4: the graph of `ExampleDFS`, start 2, with `visited[2]` already true. -/
theorem traverse_visited_start_witness :
    index [false, true, true, true, false] 2 = some true ∧
    BFS (matrixOf 5 exampleOps).toIterator 2 [false, true, true, true, false] =
      .ok { queue := [], visited := [false, true, true, true, false], calls := [] } ∧
    DFS (matrixOf 5 exampleOps).toIterator 2 [false, true, true, true, false] =
      .ok { queue := [], visited := [false, true, true, true, false], calls := [] } :=
  ⟨by decide, traverse_visited_start _ 2 _ (by decide)⟩

/-! ### Depth-first order -/

theorem recDFS_prefix {g : Iterator} {st ord fin : List Int} (h : RecDFS g st ord fin) :
    ord <+: fin := by
  induction h with
  | done ord => exact List.prefix_refl _
  | descend _ _ _ ih => exact (List.prefix_append _ _).trans ih
  | ret _ _ ih => exact ih

theorem edge_iff_of_doNeighbors {g : Iterator} {u : Int} {ns : List (Int × Value)}
    (h : g.DoNeighbors u = some ns) (w : Int) : Edge g u w ↔ w ∈ ns.map Prod.fst := by
  constructor
  · rintro ⟨ns', hn', hw⟩
    rw [h] at hn'
    injection hn' with hn'
    rw [hn']
    exact hw
  · intro hw
    exact ⟨ns, h, hw⟩

/-- C6, the failing input: on the `Matrix` with edges 0 -> 1, 0 -> 2, 1 -> 3, `DFS` from 0
calls `action` on 0, 1, 2, 3 in this order, which is not the first-visit order of any
recursive depth-first search from 0 (those are 0, 1, 3, 2 and 0, 2, 1, 3): vertex 2 is
passed to `action` before the search below vertex 1 has reached 3. -/
theorem dfs_calls_not_preorder :
    (DFS (matrixOf 4 forkOps).toIterator 0 (List.replicate 4 false)).map (fun s => s.calls)
      = .ok [0, 1, 2, 3] ∧
    ¬ IsDFSPreorder (matrixOf 4 forkOps).toIterator 0 [0, 1, 2, 3] ∧
    IsDFSPreorder (matrixOf 4 forkOps).toIterator 0 [0, 1, 3, 2] ∧
    IsDFSPreorder (matrixOf 4 forkOps).toIterator 0 [0, 2, 1, 3] := by
  have h0 : (matrixOf 4 forkOps).toIterator.DoNeighbors 0 =
      some [(1, Value.NoLabel), (2, Value.NoLabel)] := by decide
  have h1 : (matrixOf 4 forkOps).toIterator.DoNeighbors 1 = some [(3, Value.NoLabel)] := by
    decide
  have h2 : (matrixOf 4 forkOps).toIterator.DoNeighbors 2 = some [] := by decide
  have h3 : (matrixOf 4 forkOps).toIterator.DoNeighbors 3 = some [] := by decide
  have e0 := edge_iff_of_doNeighbors h0
  have e1 := edge_iff_of_doNeighbors h1
  have e2 := edge_iff_of_doNeighbors h2
  have e3 := edge_iff_of_doNeighbors h3
  refine ⟨by decide, ?_, ?_, ?_⟩
  · intro h
    unfold IsDFSPreorder at h
    cases h with
    | descend hE hw h' =>
      rename_i w
      have hp := recDFS_prefix h'
      have hw1 : w = 1 := by
        have := List.prefix_iff_eq_take.mp hp
        simp at this
        exact this
      subst hw1
      cases h' with
      | descend hE' hw' h'' =>
        rename_i w'
        have hp' := recDFS_prefix h''
        have hw2 : w' = 2 := by
          have := List.prefix_iff_eq_take.mp hp'
          simp at this
          exact this
        subst hw2
        rw [e1] at hE'
        simp at hE'
      | ret hall _ =>
        have := hall 3 ((e1 3).mpr (by simp))
        simp at this
    | ret hall _ =>
      have := hall 1 ((e0 1).mpr (by simp))
      simp at this
  · unfold IsDFSPreorder
    refine RecDFS.descend ((e0 1).mpr (by simp)) (by simp) ?_
    refine RecDFS.descend ((e1 3).mpr (by simp)) (by simp) ?_
    refine RecDFS.ret (fun w hw => by rw [e3] at hw; simp at hw) ?_
    refine RecDFS.ret (fun w hw => by rw [e1] at hw; simp at hw; simp [hw]) ?_
    refine RecDFS.descend ((e0 2).mpr (by simp)) (by simp) ?_
    refine RecDFS.ret (fun w hw => by rw [e2] at hw; simp at hw) ?_
    refine RecDFS.ret
      (fun w hw => by rw [e0] at hw; simp at hw; rcases hw with h | h <;> simp [h]) ?_
    exact RecDFS.done _
  · unfold IsDFSPreorder
    refine RecDFS.descend ((e0 2).mpr (by simp)) (by simp) ?_
    refine RecDFS.ret (fun w hw => by rw [e2] at hw; simp at hw) ?_
    refine RecDFS.descend ((e0 1).mpr (by simp)) (by simp) ?_
    refine RecDFS.descend ((e1 3).mpr (by simp)) (by simp) ?_
    refine RecDFS.ret (fun w hw => by rw [e3] at hw; simp at hw) ?_
    refine RecDFS.ret (fun w hw => by rw [e1] at hw; simp at hw; simp [hw]) ?_
    refine RecDFS.ret
      (fun w hw => by rw [e0] at hw; simp at hw; rcases hw with h | h <;> simp [h]) ?_
    exact RecDFS.done _

/-! ### Components of a symmetric graph -/

theorem reachable_symm {g : Iterator} (hsym : ∀ u w, Edge g u w → Edge g w u) {a b : Int}
    (h : Reachable g a b) : Reachable g b a :=
  Relation.ReflTransGen.symmetric (fun u w huw => hsym u w huw) h

theorem compInv_init (g : Iterator) (n : Nat) :
    CompInv g n 0 (List.replicate n false) [] := by
  have hno : ∀ w, index (List.replicate n false) w ≠ some true := by
    intro w
    apply index_ne_true_of_all_false
    intro b hb
    exact List.eq_of_mem_replicate hb
  refine ⟨by simp, ?_, ?_, ?_, by simp, by simp, by simp⟩
  · intro w
    simp [hno w]
  · intro u h0 h1
    omega
  · intro w x hw
    exact absurd hw (hno w)

theorem compInv_skip {g : Iterator} {n k : Nat} {state : List Bool}
    {groups : List (List Int)} (hI : CompInv g n k state groups)
    (hk : index state (k : Int) = some true) : CompInv g n (k + 1) state groups := by
  refine ⟨hI.len, hI.vis, ?_, hI.closed, hI.nodup, ?_, hI.sorted⟩
  · intro u h0 h1
    by_cases hu : u < (k : Int)
    · exact hI.below u h0 hu
    · have : u = (k : Int) := by push_cast at h1; omega
      rw [this]
      exact hk
  · intro grp hgrp
    obtain ⟨r, h1, h2, h3, h4⟩ := hI.comp grp hgrp
    exact ⟨r, h1, by push_cast; omega, h3, h4⟩

theorem compInv_dfs {g : Iterator} {n k : Nat} (hsym : ∀ u w, Edge g u w → Edge g w u)
    {state : List Bool} {groups : List (List Int)} (hI : CompInv g n k state groups)
    (hk : index state (k : Int) = some false) {s : State}
    (hnd : s.calls.Nodup) (hiff : ∀ w, w ∈ s.calls ↔ Reachable g (k : Int) w)
    (hhead : s.calls.head? = some (k : Int)) (hlen : s.visited.length = n)
    (hvis : ∀ w, index s.visited w = some true ↔
      (index state w = some true ∨ Reachable g (k : Int) w)) :
    CompInv g n (k + 1) s.visited (groups ++ [s.calls]) := by
  have hfresh : ∀ w, Reachable g (k : Int) w → index state w ≠ some true := by
    intro w hw ht
    have := hI.closed w k ht (reachable_symm hsym hw)
    rw [hk] at this
    cases this
  refine ⟨hlen, ?_, ?_, ?_, ?_, ?_, ?_⟩
  · intro w
    rw [hvis w, hI.vis w, ← hiff w]
    simp
  · intro u h0 h1
    rw [hvis u]
    by_cases hu : u < (k : Int)
    · exact Or.inl (hI.below u h0 hu)
    · have : u = (k : Int) := by push_cast at h1; omega
      rw [this]
      exact Or.inr Relation.ReflTransGen.refl
  · intro w x hw hwx
    rw [hvis] at hw ⊢
    rcases hw with h1 | h1
    · exact Or.inl (hI.closed w x h1 hwx)
    · exact Or.inr (Relation.ReflTransGen.trans h1 hwx)
  · rw [List.flatten_append, List.flatten_singleton, List.nodup_append]
    refine ⟨hI.nodup, hnd, ?_⟩
    intro a ha hb
    exact hfresh a ((hiff a).mp hb) ((hI.vis a).mpr ha)
  · intro grp hgrp
    rcases List.mem_append.mp hgrp with h1 | h1
    · obtain ⟨r, r1, r2, r3, r4⟩ := hI.comp grp h1
      exact ⟨r, r1, by push_cast; omega, r3, r4⟩
    · simp only [List.mem_singleton] at h1
      subst h1
      refine ⟨k, hhead, by push_cast; omega, ?_, hiff⟩
      intro x hx
      have hr := (hiff x).mp hx
      have hx0 : 0 ≤ x := (index_lt_of_eq_some ((hvis x).mpr (Or.inr hr))).1
      by_contra hlt
      exact hfresh x hr (hI.below x hx0 (by omega))
  · rw [List.pairwise_append]
    refine ⟨hI.sorted, by simp, ?_⟩
    intro A hA B hB a b ha hb
    simp only [List.mem_singleton] at hB
    subst hB
    obtain ⟨r, r1, r2, -, -⟩ := hI.comp A hA
    rw [r1] at ha
    rw [hhead] at hb
    injection ha with ha
    injection hb with hb
    omega

theorem runDFSLoop_spec {g : Iterator} {n : Nat} (hg : g.InRange n)
    (hsym : ∀ u w, Edge g u w → Edge g w u) :
    ∀ (m k : Nat) (state : List Bool) (groups : List (List Int)), k + m = n →
      CompInv g n k state groups →
      ∃ state' groups', runDFSLoop g (List.range' k m) state groups = .ok (state', groups') ∧
        CompInv g n n state' groups' := by
  intro m
  induction m with
  | zero =>
    intro k state groups hk hI
    have : k = n := by omega
    subst this
    exact ⟨state, groups, rfl, hI⟩
  | succ m ih =>
    intro k state groups hk hI
    rw [List.range'_succ]
    obtain ⟨b, hb⟩ := index_isSome_of_lt (s := state) (i := (k : Int)) (by omega)
      (by rw [hI.len]; omega)
    cases b with
    | true =>
      obtain ⟨st', gr', he, hI'⟩ := ih (k + 1) state groups (by omega) (compInv_skip hI hb)
      exact ⟨st', gr', by simp only [runDFSLoop, hb, he], hI'⟩
    | false =>
      have hfresh : ∀ w, Reachable g (k : Int) w → index state w ≠ some true := by
        intro w hw ht
        have := hI.closed w k ht (reachable_symm hsym hw)
        rw [hb] at this
        cases this
      obtain ⟨s, he, hnd, hiff, hhead, hlen, hvis⟩ :=
        traverse_calls_eq_reachable hg hI.len hb hfresh Order.dfs
      obtain ⟨st', gr', he', hI'⟩ := ih (k + 1) s.visited (groups ++ [s.calls]) (by omega)
        (compInv_dfs hsym hI hb hnd hiff hhead hlen hvis)
      refine ⟨st', gr', ?_, hI'⟩
      simp only [runDFSLoop, hb, DFS, he, he']

/-- The component loop on any graph with in-range neighbors and a symmetric edge relation
returns the connected components, in order of their smallest vertex. -/
theorem runDFS_of_symmetric {g : Iterator} {n : Nat} (hn : g.NumVertices = n)
    (hg : g.InRange n) (hsym : ∀ u w, Edge g u w → Edge g w u) :
    ∃ groups, runDFS g = .ok groups ∧ ComponentGroups g n groups := by
  obtain ⟨st, gr, he, hI⟩ := runDFSLoop_spec hg hsym n 0 (List.replicate n false) []
    (by omega) (compInv_init g n)
  refine ⟨gr, ?_, ?_, hI.nodup, ?_, hI.sorted⟩
  · have hneg : ¬ ((n : Int) < 0) := by omega
    simp only [runDFS, hn, hneg, if_false, Int.toNat_ofNat, List.length_replicate,
      List.range_eq_range', he]
  · intro v
    constructor
    · intro hv
      have := index_lt_of_eq_some ((hI.vis v).mpr hv)
      rw [hI.len] at this
      exact this
    · intro hv
      exact (hI.vis v).mp (hI.below v hv.1 hv.2)
  · intro grp hgrp
    obtain ⟨r, r1, -, r3, r4⟩ := hI.comp grp hgrp
    exact ⟨r, r1, r3, r4⟩

theorem upd_symm {c : EdgeMap} (hc : c.Symm) (v w : Int) (a : Option Value) :
    (upd (upd c v w a) w v a).Symm := by
  intro p q
  unfold upd
  have hA : (q = w ∧ p = v) ↔ (p = v ∧ q = w) := and_comm
  have hB : (q = v ∧ p = w) ↔ (p = w ∧ q = v) := and_comm
  simp only [hA, hB]
  by_cases h1 : p = v ∧ q = w <;> by_cases h2 : p = w ∧ q = v <;> simp [h1, h2, hc p q]

theorem specRun_symm : ∀ (ops : List Op) (c : EdgeMap), OnlyAddBi ops → c.Symm →
    (specRun c ops).Symm := by
  intro ops
  induction ops with
  | nil => intro c _ hc; exact hc
  | cons op ops ih =>
    intro c hbi hc
    have hop := hbi op (List.mem_cons_self _ _)
    cases op with
    | AddBi v w =>
      exact ih _ (fun o ho => hbi o (List.mem_cons_of_mem _ ho)) (upd_symm hc v w _)
    | Add v w => simp [Op.isAddBi] at hop
    | AddLabel v w x => simp [Op.isAddBi] at hop
    | AddBiLabel v w x => simp [Op.isAddBi] at hop
    | Remove v w => simp [Op.isAddBi] at hop
    | RemoveBi v w => simp [Op.isAddBi] at hop

/-- The edges of a `Matrix` that represents the edge map `c`. -/
theorem matrix_edge_iff {n : Nat} {m : Matrix} {c : EdgeMap} (hm : m.Models n c)
    (u w : Int) :
    Edge m.toIterator u w ↔
      (0 ≤ u ∧ u < (n : Int)) ∧ (0 ≤ w ∧ w < (n : Int)) ∧ (c u w).isSome = true := by
  constructor
  · rintro ⟨ns, hns, hw⟩
    simp only [Matrix.toIterator, Matrix.DoNeighbors] at hns
    cases hrow : index m.adj u with
    | none => simp [hrow] at hns
    | some row =>
      simp only [hrow, Option.some.injEq] at hns
      subst hns
      have hu := index_lt_of_eq_some hrow
      rw [hm.square.1] at hu
      have hlen : row.length = n := hm.square.2 _ (mem_of_index_eq_some hrow)
      obtain ⟨⟨w', x⟩, hp, rfl⟩ := List.mem_map.mp hw
      rw [mem_rowNeighbors] at hp
      have hw' := index_lt_of_eq_some hp.1
      rw [hlen] at hw'
      refine ⟨hu, hw', ?_⟩
      have hcell := hm.cell u w' hu.1 hu.2 hw'.1 hw'.2
      simp only [Matrix.cell, hrow, hp.1, hp.2, if_false, Option.some.injEq] at hcell
      rw [← hcell]
      rfl
  · rintro ⟨hu, hw, hc⟩
    obtain ⟨row, y, hrow, hy⟩ := matrix_index_of_square hm.square hu hw
    have hcell := hm.cell u w hu.1 hu.2 hw.1 hw.2
    simp only [Matrix.cell, hrow, hy] at hcell
    have hne : y ≠ Value.noEdge := by
      intro he
      simp only [he, if_true, Option.some.injEq] at hcell
      rw [← hcell] at hc
      cases hc
    refine ⟨rowNeighbors row, by simp [Matrix.toIterator, Matrix.DoNeighbors, hrow], ?_⟩
    exact List.mem_map.mpr ⟨(w, y), (mem_rowNeighbors row w y).mpr ⟨hy, hne⟩, rfl⟩

/-- The edges of a `Hash` that represents the edge map `c`, for any order of the map
iteration. -/
theorem hash_edge_iff {n : Nat} {h : Hash} {c : EdgeMap} (hh : h.Models n c)
    {ord : RangeOrder} (hord : ord.Valid) (u w : Int) :
    Edge (h.toIterator ord) u w ↔
      (0 ≤ u ∧ u < (n : Int)) ∧ (0 ≤ w ∧ w < (n : Int)) ∧ (c u w).isSome = true := by
  have hkeys : ∀ mp : Option GoMap,
      w ∈ (ord u (mapEntries mp)).map Prod.fst ↔ w ∈ (mapEntries mp).map Prod.fst :=
    fun mp => ((hord u (mapEntries mp)).map Prod.fst).mem_iff
  constructor
  · rintro ⟨ns, hns, hw⟩
    simp only [Hash.toIterator, Hash.DoNeighbors] at hns
    cases hmp : index h.edges u with
    | none => simp [hmp] at hns
    | some mp =>
      simp only [hmp, Option.some.injEq] at hns
      subst hns
      have hu := index_lt_of_eq_some hmp
      rw [hh.keys.1] at hu
      rw [hkeys] at hw
      have hw' := (hh.keys.2 mp (mem_of_index_eq_some hmp)).2 w hw
      refine ⟨hu, hw', ?_⟩
      have hcell := hh.cell u w hu.1 hu.2 hw'.1 hw'.2
      simp only [Hash.cell, hmp, Option.some.injEq] at hcell
      rw [← hcell, mapGet_eq_lookup, lookup_isSome_iff_mem_keys]
      exact hw
  · rintro ⟨hu, hw, hc⟩
    obtain ⟨mp, hmp⟩ := index_isSome_of_lt (s := h.edges) hu.1 (by rw [hh.keys.1]; exact hu.2)
    have hcell := hh.cell u w hu.1 hu.2 hw.1 hw.2
    simp only [Hash.cell, hmp, Option.some.injEq] at hcell
    refine ⟨ord u (mapEntries mp), by simp [Hash.toIterator, Hash.DoNeighbors, hmp], ?_⟩
    rw [hkeys, ← lookup_isSome_iff_mem_keys, ← mapGet_eq_lookup, hcell]
    exact hc

/-- C7: for every graph whose edges were all inserted with `AddBi`, in either backend (and
for every order of the map iteration of `Hash`), the loop that runs over `v = 0..n-1` with
one shared, initially all-false `visited` array and calls `DFS(g, v, visited, action)` at
every still unvisited `v` returns normally, and the groups of arguments of `action` are
the connected components: every vertex is in exactly one group, each group is the set of
vertices reachable from its first and smallest vertex, and the groups come in order of
their smallest vertex. -/
theorem runDFS_components (n : Nat) (ops : List Op) (hops : ∀ op ∈ ops, op.Valid n)
    (hbi : OnlyAddBi ops) :
    (∃ m0 m groups, NewMatrix n = some m0 ∧ m0.run ops = .ok m ∧
      runDFS m.toIterator = .ok groups ∧ ComponentGroups m.toIterator n groups) ∧
    (∀ ord : RangeOrder, ord.Valid → ∃ h0 h groups, NewHash n = some h0 ∧
      h0.run ops = .ok h ∧ runDFS (h.toIterator ord) = .ok groups ∧
      ComponentGroups (h.toIterator ord) n groups) := by
  have hsymm : (specRun (fun _ _ => none) ops).Symm :=
    specRun_symm ops _ hbi (fun _ _ => rfl)
  constructor
  · obtain ⟨m0, e0, r0⟩ := matrix_Models_new n
    obtain ⟨m, e, r⟩ := matrix_Models_run ops hops r0
    obtain ⟨groups, hg, hc⟩ := runDFS_of_symmetric (g := m.toIterator) (n := n)
      (by simp [Matrix.toIterator, Matrix.NumVertices, r.square.1])
      (matrix_toIterator_inRange r.square)
      (fun u w huw => by
        rw [matrix_edge_iff r] at huw ⊢
        exact ⟨huw.2.1, huw.1, by rw [← hsymm u w]; exact huw.2.2⟩)
    exact ⟨m0, m, groups, e0, e, hg, hc⟩
  · intro ord hord
    obtain ⟨h0, e0, r0⟩ := hash_Models_new n
    obtain ⟨h, e, r⟩ := hash_Models_run ops hops r0
    obtain ⟨groups, hg, hc⟩ := runDFS_of_symmetric (g := h.toIterator ord) (n := n)
      (by simp [Hash.toIterator, Hash.NumVertices, r.keys.1])
      (hash_toIterator_inRange r.keys hord)
      (fun u w huw => by
        rw [hash_edge_iff r hord] at huw ⊢
        exact ⟨huw.2.1, huw.1, by rw [← hsymm u w]; exact huw.2.2⟩)
    exact ⟨h0, h, groups, e0, e, hg, hc⟩

/-- Witness for C7 (`ExampleDFS`): on 5 vertices with `AddBi(1, 2)`, `AddBi(2, 3)`,
`AddBi(4, 4)` the groups on `Matrix` are `[0]`, `[1, 2, 3]`, `[4]`, printed
`\x7b0\x7d\x7b123\x7d\x7b4\x7d`. -/
theorem runDFS_components_witness :
    (∀ op ∈ exampleOps, op.Valid (5 : Nat)) ∧ OnlyAddBi exampleOps ∧
    runDFS (matrixOf 5 exampleOps).toIterator = .ok [[0], [1, 2, 3], [4]] ∧
    ((∃ m0 m groups, NewMatrix (5 : Nat) = some m0 ∧ m0.run exampleOps = .ok m ∧
      runDFS m.toIterator = .ok groups ∧ ComponentGroups m.toIterator 5 groups) ∧
    (∀ ord : RangeOrder, ord.Valid → ∃ h0 h groups, NewHash (5 : Nat) = some h0 ∧
      h0.run exampleOps = .ok h ∧ runDFS (h.toIterator ord) = .ok groups ∧
      ComponentGroups (h.toIterator ord) 5 groups)) :=
  ⟨by decide, by decide, by decide, runDFS_components 5 exampleOps (by decide) (by decide)⟩

/-! ### Breadth-first order -/

theorem walk_reachable {g : Iterator} {u w : Int} {k : Nat} (h : Walk g u k w) :
    Reachable g u w := by
  induction h with
  | nil => exact Relation.ReflTransGen.refl
  | snoc _ hE ih => exact Relation.ReflTransGen.tail ih hE

theorem reachable_walk {g : Iterator} {u w : Int} (h : Reachable g u w) :
    ∃ k, Walk g u k w := by
  induction h with
  | refl => exact ⟨0, Walk.nil⟩
  | tail _ hE ih =>
    obtain ⟨k, hk⟩ := ih
    exact ⟨k + 1, Walk.snoc hk hE⟩

theorem exists_isDist {g : Iterator} {u w : Int} (h : Reachable g u w) :
    ∃ d, IsDist g u w d := by
  classical
  have hex := reachable_walk h
  exact ⟨Nat.find hex, Nat.find_spec hex, fun k hk => Nat.find_min' hex hk⟩

theorem isDist_unique {g : Iterator} {u w : Int} {d d' : Nat} (h : IsDist g u w d)
    (h' : IsDist g u w d') : d = d' :=
  Nat.le_antisymm (h.2 d' h'.1) (h'.2 d h.1)

theorem dist_edge {g : Iterator} {start : Int} {d : Int → Nat}
    (hd : ∀ w, Reachable g start w → IsDist g start w (d w)) {v w : Int}
    (hv : Reachable g start v) (hE : Edge g v w) : d w ≤ d v + 1 :=
  (hd w (Relation.ReflTransGen.tail hv hE)).2 _ (Walk.snoc (hd v hv).1 hE)

theorem dist_zero {g : Iterator} {start : Int} {d : Int → Nat}
    (hd : ∀ w, Reachable g start w → IsDist g start w (d w)) {x : Int}
    (hx : Reachable g start x) (h0 : d x = 0) : x = start := by
  have hw := (hd x hx).1
  rw [h0] at hw
  cases hw
  rfl

theorem dist_pred {g : Iterator} {start : Int} {d : Int → Nat}
    (hd : ∀ w, Reachable g start w → IsDist g start w (d w)) {x : Int} {k : Nat}
    (hx : Reachable g start x) (hk : d x = k + 1) :
    ∃ y, Reachable g start y ∧ d y = k ∧ Edge g y x := by
  have hw := (hd x hx).1
  rw [hk] at hw
  cases hw with
  | snoc hwalk hE =>
    rename_i y
    have hy := walk_reachable hwalk
    refine ⟨y, hy, ?_, hE⟩
    have h1 : d y ≤ k := (hd y hy).2 k hwalk
    have h2 := dist_edge hd hy hE
    omega

theorem bfsInv_init {g : Iterator} {start : Int} {d : Int → Nat}
    (hd : ∀ w, Reachable g start w → IsDist g start w (d w)) (vis : List Bool) :
    BFSInv g start d (some start) { queue := [start], visited := vis, calls := [start] } := by
  refine ⟨by simp, by simp, ?_, ?_, ?_⟩
  · intro f hf y hy
    simp only [Option.some.injEq] at hf
    simp only [List.mem_singleton] at hy
    rw [hy, hf]
  · intro f hf w hw
    simp only [Option.some.injEq] at hf
    simp only [List.mem_singleton] at hw
    rw [hw, hf]
    omega
  · intro f hf x hx hle
    simp only [Option.some.injEq] at hf
    have h0 : d start = 0 := by
      have := (hd start Relation.ReflTransGen.refl).2 0 Walk.nil
      omega
    rw [← hf, h0] at hle
    simp only [List.mem_singleton]
    exact dist_zero hd hx (by omega)

theorem bfsInv_pop {g : Iterator} {start : Int} {d : Int → Nat} {s : State} {v : Int}
    {q : List Int} (hB : BFSInv g start d s.queue.head? s)
    (hp : pop Order.bfs s.queue = some (v, q)) :
    BFSInv g start d (some v) { s with queue := q } := by
  have hq := pop_bfs hp
  have hhead : s.queue.head? = some v := by rw [hq]; rfl
  have hqs := hB.qsorted
  rw [hq, List.pairwise_cons] at hqs
  refine ⟨hB.sorted, hqs.2, ?_, ?_, ?_⟩
  · intro f hf y hy
    simp only [Option.some.injEq] at hf
    rw [← hf]
    exact hqs.1 y hy
  · intro f hf
    simp only [Option.some.injEq] at hf
    rw [← hf]
    exact hB.bound v hhead
  · intro f hf
    simp only [Option.some.injEq] at hf
    rw [← hf]
    exact hB.complete v hhead

theorem bfsInv_step {g : Iterator} {visited0 : List Bool} {start : Int} {d : Int → Nat}
    (hd : ∀ w, Reachable g start w → IsDist g start w (d w)) {v : Int} {done : List Int}
    {s s' : State} {w : Int} (hT : TravInv g visited0 start (some v) done s)
    (hB : BFSInv g start d (some v) s) (hE : Edge g v w)
    (hv : visitIfNew s w = .ok s') : BFSInv g start d (some v) s' := by
  rcases visitIfNew_ok hv with ⟨-, rfl⟩ | ⟨hw, rfl⟩
  · exact hB
  · have hvr : Reachable g start v := hT.reach v (hT.pend_mem v rfl)
    have hwr : Reachable g start w := Relation.ReflTransGen.tail hvr hE
    have h1 : d w ≤ d v + 1 := dist_edge hd hvr hE
    have h2 : d v < d w := by
      by_contra hle
      have hin := hB.complete v rfl w hwr (by omega)
      have := (hT.vis w).mpr (Or.inr hin)
      rw [hw] at this
      cases this
    refine ⟨?_, ?_, ?_, ?_, ?_⟩
    · rw [List.pairwise_append]
      refine ⟨hB.sorted, by simp, ?_⟩
      intro a ha b hb
      simp only [List.mem_singleton] at hb
      rw [hb]
      have := hB.bound v rfl a ha
      omega
    · rw [List.pairwise_append]
      refine ⟨hB.qsorted, by simp, ?_⟩
      intro a ha b hb
      simp only [List.mem_singleton] at hb
      rw [hb]
      have := hB.bound v rfl a (hT.queue_sub a ha)
      omega
    · intro f hf y hy
      simp only [List.mem_append, List.mem_singleton] at hy
      rcases hy with h3 | h3
      · exact hB.qge f hf y h3
      · simp only [Option.some.injEq] at hf
        rw [h3, ← hf]
        omega
    · intro f hf x hx
      simp only [List.mem_append, List.mem_singleton] at hx
      rcases hx with h3 | h3
      · exact hB.bound f hf x h3
      · simp only [Option.some.injEq] at hf
        rw [h3, ← hf]
        omega
    · intro f hf x hx hle
      exact List.mem_append_left _ (hB.complete f hf x hx hle)

theorem bfsInv_exit {g : Iterator} {visited0 : List Bool} {start : Int} {d : Int → Nat}
    (hd : ∀ w, Reachable g start w → IsDist g start w (d w))
    (hfalse : ∀ w, index visited0 w ≠ some true) {v : Int} {s : State}
    (hT : TravInv g visited0 start none [] s)
    (hB : BFSInv g start d (some v) s) : BFSInv g start d s.queue.head? s := by
  have hqge : ∀ f, s.queue.head? = some f → ∀ y ∈ s.queue, d f ≤ d y := by
    intro f hf y hy
    obtain ⟨rest, hq⟩ := List.head?_eq_some_iff.mp hf
    have hqs := hB.qsorted
    rw [hq, List.pairwise_cons] at hqs
    rw [hq] at hy
    rcases List.mem_cons.mp hy with h1 | h1
    · rw [h1]
    · exact hqs.1 y h1
  have hvf : ∀ f, s.queue.head? = some f → d v ≤ d f ∧ d f ≤ d v + 1 := by
    intro f hf
    have hfq : f ∈ s.queue := List.mem_of_mem_head? hf
    exact ⟨hB.qge v rfl f hfq, hB.bound v rfl f (hT.queue_sub f hfq)⟩
  refine ⟨hB.sorted, hB.qsorted, hqge, ?_, ?_⟩
  · intro f hf w hw
    have := hB.bound v rfl w hw
    have := (hvf f hf).1
    omega
  · intro f hf x hx hle
    by_cases hxv : d x ≤ d v
    · exact hB.complete v rfl x hx hxv
    · have hvf' := hvf f hf
      obtain ⟨y, hy, hdy, hE⟩ := dist_pred hd (k := d v) hx (by omega)
      have hyc : y ∈ s.calls := hB.complete v rfl y hy (by omega)
      have hyq : y ∉ s.queue := by
        intro hin
        have := hqge f hf y hin
        omega
      have hvis := hT.closed y hyc hyq (by simp) x hE
      rcases (hT.vis x).mp hvis with h1 | h1
      · exact absurd h1 (hfalse x)
      · exact h1

/-- On an all-false `visited` array `BFS` calls `action` by non-decreasing values of any
distance function `d`. -/
theorem bfs_sorted {g : Iterator} {n : Nat} (hg : g.InRange n) {start : Int}
    {visited0 : List Bool} (hlen : visited0.length = n)
    (hs : index visited0 start = some false) (hfalse : ∀ w, index visited0 w ≠ some true)
    {d : Int → Nat} (hd : ∀ w, Reachable g start w → IsDist g start w (d w)) :
    ∃ s, BFS g start visited0 = .ok s ∧ TravInv g visited0 start none [] s ∧
      s.calls.Pairwise (fun a b => d a ≤ d b) := by
  obtain ⟨s, he, -, -⟩ := traverse_spec hg hlen hs Order.bfs
  refine ⟨s, he, ?_⟩
  rw [traverse_unvisited g Order.bfs hs] at he
  have := @loop_rule g Order.bfs
    (fun s => TravInv g visited0 start none [] s ∧ BFSInv g start d s.queue.head? s)
    (fun v done s => TravInv g visited0 start (some v) done s ∧ BFSInv g start d (some v) s)
    (fun s v q hP hp => ⟨travInv_pop hP.1 hp, bfsInv_pop hP.2 hp⟩)
    (fun v done s w s' hQ hE hv => ⟨travInv_step hQ.1 hE hv, bfsInv_step hd hQ.1 hQ.2 hE hv⟩)
    (fun v ns s hn hQ => ⟨travInv_exit hn hQ.1,
      bfsInv_exit hd hfalse (travInv_exit hn hQ.1) hQ.2⟩)
    visited0.length _ s ⟨travInv_init g hs, bfsInv_init hd _⟩ he
  exact ⟨this.1.1, this.1.2.sorted⟩

/-- C5: for every graph whose neighbors are in range, every in-range `start` and an
all-false `visited` array, `BFS` returns normally and the sequence `a_0, a_1, ...` of
arguments of `action` starts with `start`, consists of vertices that have a distance from
`start`, and is ordered by non-decreasing distance: for `i < j` the distance of `a_i` is at
most the distance of `a_j`. -/
theorem bfs_order_by_distance (g : Iterator) (n : Nat) (hg : g.InRange n) (start : Int)
    (hs : 0 ≤ start ∧ start < (n : Int)) (visited : List Bool) (hlen : visited.length = n)
    (hfalse : ∀ b ∈ visited, b = false) :
    ∃ s, BFS g start visited = .ok s ∧ s.calls.head? = some start ∧
      (∀ w ∈ s.calls, ∃ d, IsDist g start w d) ∧
      ∀ (i j : Nat) (hi : i < s.calls.length) (hj : j < s.calls.length), i < j →
        ∀ di dj, IsDist g start s.calls[i] di → IsDist g start s.calls[j] dj → di ≤ dj := by
  have hex : ∀ w, ∃ dw, Reachable g start w → IsDist g start w dw := by
    intro w
    by_cases h : Reachable g start w
    · obtain ⟨dw, h'⟩ := exists_isDist h
      exact ⟨dw, fun _ => h'⟩
    · exact ⟨0, fun h' => absurd h' h⟩
  choose d hd using hex
  have hst : index visited start = some false :=
    index_false_of_all_false hfalse hs.1 (by rw [hlen]; exact hs.2)
  obtain ⟨s, he, hT, hsorted⟩ := bfs_sorted hg hlen hst
    (index_ne_true_of_all_false hfalse) hd
  refine ⟨s, he, hT.head, fun w hw => ⟨d w, hd w (hT.reach w hw)⟩, ?_⟩
  intro i j hi hj hij di dj hdi hdj
  have h1 := List.pairwise_iff_getElem.mp hsorted i j hi hj hij
  have h2 := isDist_unique hdi (hd _ (hT.reach _ (List.getElem_mem hi)))
  have h3 := isDist_unique hdj (hd _ (hT.reach _ (List.getElem_mem hj)))
  omega

/-- Witness for C5 (`TestBFS`): on the 10-vertex graph of the test, `BFS` from 0 on
`Matrix` calls `action` on the layers `0`, then `1, 4, 7, 9`, then `2, 5, 8`, then `3, 6`. -/
theorem bfs_order_by_distance_witness :
    (BFS (matrixOf 10 testBFSOps).toIterator 0 (List.replicate 10 false)).map
      (fun s => s.calls) = .ok [0, 1, 4, 7, 9, 2, 5, 8, 3, 6] ∧
    ∃ s, BFS (matrixOf 10 testBFSOps).toIterator 0 (List.replicate 10 false) = .ok s ∧
      s.calls.head? = some 0 ∧
      (∀ w ∈ s.calls, ∃ d, IsDist (matrixOf 10 testBFSOps).toIterator 0 w d) ∧
      ∀ (i j : Nat) (hi : i < s.calls.length) (hj : j < s.calls.length), i < j →
        ∀ di dj, IsDist (matrixOf 10 testBFSOps).toIterator 0 s.calls[i] di →
          IsDist (matrixOf 10 testBFSOps).toIterator 0 s.calls[j] dj → di ≤ dj :=
  ⟨by decide,
   bfs_order_by_distance _ 10 (matrix_toIterator_inRange ⟨by decide, by decide⟩) 0
     (by decide) _ (by decide) (by decide)⟩

/-! ## Removal, counters and the bidirectional mutators -/

theorem hash_cell_some (g : Hash) {i : Int} (j : Int) (h0 : 0 ≤ i)
    (h1 : i < (g.edges.length : Int)) : ∃ c, g.cell i j = some c := by
  obtain ⟨m0, hm0⟩ := index_isSome_of_lt h0 h1
  exact ⟨mapGet m0 j, by simp [Hash.cell, hm0]⟩

theorem matrix_cell_some {n : Nat} {g : Matrix} (hsq : g.Square n) {i j : Int}
    (hi : 0 ≤ i ∧ i < (n : Int)) (hj : 0 ≤ j ∧ j < (n : Int)) :
    ∃ c, g.cell i j = some c := by
  obtain ⟨row, y, hr, hy⟩ := matrix_index_of_square hsq hi hj
  by_cases h : y = Value.noEdge
  · exact ⟨none, by simp [Matrix.cell, hr, hy, h]⟩
  · exact ⟨some y, by simp [Matrix.cell, hr, hy, h]⟩

theorem absent_iff_not_hasEdge {c : Option (Option Value)} (hc : ∃ c', c = some c') :
    c = some none ↔ ¬ (c.map Option.isSome = some true) := by
  obtain ⟨c', rfl⟩ := hc
  cases c' <;> simp

theorem hash_len_of_numVertices {g : Hash} {n : Nat} (hg : g.NumVertices = n) {v : Int}
    (hv : v < (n : Int)) : v < (g.edges.length : Int) := by
  unfold Hash.NumVertices at hg
  rw [hg]
  exact hv

/-- C11: for each backend, every graph state and every in-range `(v, w)`: `Remove(v, w)`
returns normally and afterwards `HasEdge(v, w)` is false and `Label(v, w)` returns nil,
whether or not the edge existed before and whatever label it carried. -/
theorem remove_then_absent (n : Nat) (v w : Int) (hv : 0 ≤ v ∧ v < (n : Int))
    (hw : 0 ≤ w ∧ w < (n : Int)) :
    (∀ g : Hash, g.NumVertices = n → ∃ g', g.Remove v w = .ok g' ∧
      g'.HasEdge v w = some false ∧ g'.Label v w = some Value.nil) ∧
    (∀ g : Matrix, g.Square n → ∃ g', g.Remove v w = .ok g' ∧
      g'.HasEdge v w = some false ∧ g'.Label v w = some Value.nil) := by
  constructor
  · intro g hg
    obtain ⟨g', he, -, hcell, -⟩ :=
      hash_Remove_spec g w hv.1 (hash_len_of_numVertices hg hv.2)
    exact ⟨g', he, by simp [hash_HasEdge_eq_cell, hcell], by simp [hash_Label_eq_cell, hcell]⟩
  · intro g hg
    obtain ⟨g', he, -, hcell, -⟩ := matrix_Remove_spec hg hv hw
    exact ⟨g', he, by simp [matrix_HasEdge_eq_cell, hcell],
      by simp [matrix_Label_eq_cell, hcell]⟩

/-- Witness for C11 (`TestEdgeLabels`): `Remove(2, 3)` on `g5`, where `(2, 3)` carries 1. -/
theorem remove_then_absent_witness :
    ((hashOf 5 setupOps).Label 2 3 = some (Value.int 1) ∧
      ∃ g', (hashOf 5 setupOps).Remove 2 3 = .ok g' ∧
        g'.HasEdge 2 3 = some false ∧ g'.Label 2 3 = some Value.nil) ∧
    ((matrixOf 5 setupOps).Label 2 3 = some (Value.int 1) ∧
      ∃ g', (matrixOf 5 setupOps).Remove 2 3 = .ok g' ∧
        g'.HasEdge 2 3 = some false ∧ g'.Label 2 3 = some Value.nil) :=
  ⟨⟨by decide, (remove_then_absent 5 2 3 (by decide) (by decide)).1 _ (by decide)⟩,
   ⟨by decide,
    (remove_then_absent 5 2 3 (by decide) (by decide)).2 _ ⟨by decide, by decide⟩⟩⟩

/-- C13: for each backend, every graph state and every in-range `(v, w)`: `Add(v, w)` and
`AddLabel(v, w, x)` raise `NumEdges` by exactly 1 if `HasEdge(v, w)` was false before the
call and leave it unchanged if it was true; `Remove(v, w)` lowers `NumEdges` by exactly 1 if
`HasEdge(v, w)` was true before the call and leaves it unchanged if it was false. -/
theorem numEdges_delta (n : Nat) (v w : Int) (hv : 0 ≤ v ∧ v < (n : Int))
    (hw : 0 ≤ w ∧ w < (n : Int)) :
    (∀ g : Hash, g.NumVertices = n →
      (∃ g', g.Add v w = .ok g' ∧
        g'.NumEdges = g.NumEdges + (if g.HasEdge v w = some true then 0 else 1)) ∧
      (∀ x, ∃ g', g.AddLabel v w x = .ok g' ∧
        g'.NumEdges = g.NumEdges + (if g.HasEdge v w = some true then 0 else 1)) ∧
      (∃ g', g.Remove v w = .ok g' ∧
        g'.NumEdges = g.NumEdges - (if g.HasEdge v w = some true then 1 else 0))) ∧
    (∀ g : Matrix, g.Square n →
      (∃ g', g.Add v w = .ok g' ∧
        g'.NumEdges = g.NumEdges + (if g.HasEdge v w = some true then 0 else 1)) ∧
      (∀ x, x ≠ Value.noEdge → ∃ g', g.AddLabel v w x = .ok g' ∧
        g'.NumEdges = g.NumEdges + (if g.HasEdge v w = some true then 0 else 1)) ∧
      (∃ g', g.Remove v w = .ok g' ∧
        g'.NumEdges = g.NumEdges - (if g.HasEdge v w = some true then 1 else 0))) := by
  constructor
  · intro g hg
    have hlt := hash_len_of_numVertices hg hv.2
    have habs := absent_iff_not_hasEdge (hash_cell_some g w hv.1 hlt)
    rw [← hash_HasEdge_eq_cell] at habs
    have hadd : ∀ x, ∃ g', g.AddLabel v w x = .ok g' ∧
        g'.NumEdges = g.NumEdges + (if g.HasEdge v w = some true then 0 else 1) := by
      intro x
      obtain ⟨g', he, -, -, hnum⟩ := hash_AddLabel_spec g w x hv.1 hlt
      refine ⟨g', he, ?_⟩
      simp only [Hash.NumEdges, hnum]
      by_cases hh : g.HasEdge v w = some true
      · simp [hh, mt habs.mp (not_not.mpr hh)]
      · simp [hh, habs.mpr hh]
    refine ⟨?_, hadd, ?_⟩
    · rw [hash_Add_eq_AddLabel]
      exact hadd _
    · obtain ⟨g', he, -, -, hnum⟩ := hash_Remove_spec g w hv.1 hlt
      refine ⟨g', he, ?_⟩
      simp only [Hash.NumEdges, hnum]
      by_cases hh : g.HasEdge v w = some true
      · simp [hh, mt habs.mp (not_not.mpr hh)]
      · simp [hh, habs.mpr hh]
  · intro g hg
    have habs := absent_iff_not_hasEdge (matrix_cell_some hg hv hw)
    rw [← matrix_HasEdge_eq_cell] at habs
    have hadd : ∀ x, x ≠ Value.noEdge → ∃ g', g.AddLabel v w x = .ok g' ∧
        g'.NumEdges = g.NumEdges + (if g.HasEdge v w = some true then 0 else 1) := by
      intro x hx
      obtain ⟨g', he, -, -, hnum⟩ := matrix_AddLabel_spec hg hv hw hx
      refine ⟨g', he, ?_⟩
      simp only [Matrix.NumEdges, hnum]
      by_cases hh : g.HasEdge v w = some true
      · simp [hh, mt habs.mp (not_not.mpr hh)]
      · simp [hh, habs.mpr hh]
    refine ⟨hadd _ (by decide), hadd, ?_⟩
    obtain ⟨g', he, -, -, hnum⟩ := matrix_Remove_spec hg hv hw
    refine ⟨g', he, ?_⟩
    simp only [Matrix.NumEdges, hnum]
    by_cases hh : g.HasEdge v w = some true
    · simp [hh, mt habs.mp (not_not.mpr hh)]
    · simp [hh, habs.mpr hh]

/-- Witness for C13 (`TestNumEdges`): on `g5`, where `(0, 1)` is present and `(2, 1)` is not,
`Add(0, 1)` keeps `NumEdges` at 2 and `Add(2, 1)` raises it to 3. -/
theorem numEdges_delta_witness :
    ((hashOf 5 setupOps).NumEdges = 2 ∧
      (∃ g', (hashOf 5 setupOps).Add 0 1 = .ok g' ∧ g'.NumEdges =
        (hashOf 5 setupOps).NumEdges +
          (if (hashOf 5 setupOps).HasEdge 0 1 = some true then 0 else 1)) ∧
      (∃ g', (hashOf 5 setupOps).Add 2 1 = .ok g' ∧ g'.NumEdges =
        (hashOf 5 setupOps).NumEdges +
          (if (hashOf 5 setupOps).HasEdge 2 1 = some true then 0 else 1))) ∧
    ((matrixOf 5 setupOps).NumEdges = 2 ∧
      (∃ g', (matrixOf 5 setupOps).Add 0 1 = .ok g' ∧ g'.NumEdges =
        (matrixOf 5 setupOps).NumEdges +
          (if (matrixOf 5 setupOps).HasEdge 0 1 = some true then 0 else 1)) ∧
      (∃ g', (matrixOf 5 setupOps).Add 2 1 = .ok g' ∧ g'.NumEdges =
        (matrixOf 5 setupOps).NumEdges +
          (if (matrixOf 5 setupOps).HasEdge 2 1 = some true then 0 else 1))) :=
  ⟨⟨by decide,
    ((numEdges_delta 5 0 1 (by decide) (by decide)).1 _ (by decide)).1,
    ((numEdges_delta 5 2 1 (by decide) (by decide)).1 _ (by decide)).1⟩,
   ⟨by decide,
    ((numEdges_delta 5 0 1 (by decide) (by decide)).2 _ ⟨by decide, by decide⟩).1,
    ((numEdges_delta 5 2 1 (by decide) (by decide)).2 _ ⟨by decide, by decide⟩).1⟩⟩

/-- Effect of `Hash.AddBiLabel` with both indices in range: both directions carry `x`,
every other pair is as before, and the counter goes up by one for each of the two
directions that was absent, a self-loop counting once. -/
theorem hash_AddBiLabel_spec (g : Hash) {v w : Int} (x : Value)
    (hv : 0 ≤ v ∧ v < (g.edges.length : Int)) (hw : 0 ≤ w ∧ w < (g.edges.length : Int)) :
    ∃ g', g.AddBiLabel v w x = .ok g' ∧ g'.edges.length = g.edges.length ∧
      (∀ p q, g'.cell p q =
        if (p = v ∧ q = w) ∨ (p = w ∧ q = v) then some (some x) else g.cell p q) ∧
      g'.numEdges = g.numEdges + (if g.cell v w = some none then 1 else 0) +
        (if v ≠ w ∧ g.cell w v = some none then 1 else 0) := by
  obtain ⟨g1, e1, l1, c1, n1⟩ := hash_AddLabel_spec g v x hw.1 hw.2
  obtain ⟨g2, e2, l2, c2, n2⟩ := hash_AddLabel_spec g1 w x hv.1 (by rw [l1]; exact hv.2)
  refine ⟨g2, by simp only [Hash.AddBiLabel, e1, Result.andThen, e2], l2.trans l1, ?_, ?_⟩
  · intro p q
    rw [c2, c1]
    by_cases h1 : p = v ∧ q = w <;> by_cases h2 : p = w ∧ q = v <;> simp [h1, h2]
  · rw [n2, n1, c1]
    by_cases hvw : v = w
    · subst hvw
      simp
    · have h' : ¬ (v = w ∧ w = v) := fun h => hvw h.1
      simp only [h', if_false]
      by_cases ha : g.cell v w = some none <;> by_cases hb : g.cell w v = some none <;>
        simp [ha, hb, hvw]

/-- Effect of `Hash.RemoveBi` with both indices in range. -/
theorem hash_RemoveBi_spec (g : Hash) {v w : Int}
    (hv : 0 ≤ v ∧ v < (g.edges.length : Int)) (hw : 0 ≤ w ∧ w < (g.edges.length : Int)) :
    ∃ g', g.RemoveBi v w = .ok g' ∧ g'.edges.length = g.edges.length ∧
      (∀ p q, g'.cell p q =
        if (p = v ∧ q = w) ∨ (p = w ∧ q = v) then some none else g.cell p q) ∧
      g'.numEdges = g.numEdges - (if g.cell v w = some none then 0 else 1) -
        (if v ≠ w ∧ ¬ g.cell w v = some none then 1 else 0) := by
  obtain ⟨g1, e1, l1, c1, n1⟩ := hash_Remove_spec g v hw.1 hw.2
  obtain ⟨g2, e2, l2, c2, n2⟩ := hash_Remove_spec g1 w hv.1 (by rw [l1]; exact hv.2)
  refine ⟨g2, by simp only [Hash.RemoveBi, e1, Result.andThen, e2], l2.trans l1, ?_, ?_⟩
  · intro p q
    rw [c2, c1]
    by_cases h1 : p = v ∧ q = w <;> by_cases h2 : p = w ∧ q = v <;> simp [h1, h2]
  · rw [n2, n1, c1]
    by_cases hvw : v = w
    · subst hvw
      simp
    · have h' : ¬ (v = w ∧ w = v) := fun h => hvw h.1
      simp only [h', if_false]
      by_cases ha : g.cell v w = some none <;> by_cases hb : g.cell w v = some none <;>
        simp [ha, hb, hvw]

/-- Effect of `Matrix.AddBiLabel` with both indices in range and a label other than the
private `noEdge`. -/
theorem matrix_AddBiLabel_spec {n : Nat} {g : Matrix} (hsq : g.Square n) {v w : Int}
    (hv : 0 ≤ v ∧ v < (n : Int)) (hw : 0 ≤ w ∧ w < (n : Int)) {x : Value}
    (hx : x ≠ Value.noEdge) :
    ∃ g', g.AddBiLabel v w x = .ok g' ∧ g'.Square n ∧
      (∀ p q, g'.cell p q =
        if (p = v ∧ q = w) ∨ (p = w ∧ q = v) then some (some x) else g.cell p q) ∧
      g'.numEdges = g.numEdges + (if g.cell v w = some none then 1 else 0) +
        (if v ≠ w ∧ g.cell w v = some none then 1 else 0) := by
  obtain ⟨g1, e1, s1, c1, n1⟩ := matrix_AddLabel_spec hsq hv hw hx
  by_cases hvw : v = w
  · subst hvw
    refine ⟨g1, by simp [Matrix.AddBiLabel, e1, Result.andThen], s1, ?_, ?_⟩
    · intro p q
      rw [c1]
      by_cases h1 : p = v ∧ q = v <;> simp [h1]
    · rw [n1]
      simp
  · obtain ⟨g2, e2, s2, c2, n2⟩ := matrix_AddLabel_spec s1 hw hv hx
    refine ⟨g2, by simp [Matrix.AddBiLabel, e1, Result.andThen, hvw, e2], s2, ?_, ?_⟩
    · intro p q
      rw [c2, c1]
      by_cases h1 : p = v ∧ q = w <;> by_cases h2 : p = w ∧ q = v <;> simp [h1, h2]
    · rw [n2, n1, c1]
      have h' : ¬ (w = v ∧ v = w) := fun h => hvw h.2
      simp only [h', if_false]
      by_cases ha : g.cell v w = some none <;> by_cases hb : g.cell w v = some none <;>
        simp [ha, hb, hvw]

/-- Effect of `Matrix.RemoveBi` with both indices in range. -/
theorem matrix_RemoveBi_spec {n : Nat} {g : Matrix} (hsq : g.Square n) {v w : Int}
    (hv : 0 ≤ v ∧ v < (n : Int)) (hw : 0 ≤ w ∧ w < (n : Int)) :
    ∃ g', g.RemoveBi v w = .ok g' ∧ g'.Square n ∧
      (∀ p q, g'.cell p q =
        if (p = v ∧ q = w) ∨ (p = w ∧ q = v) then some none else g.cell p q) ∧
      g'.numEdges = g.numEdges - (if g.cell v w = some none then 0 else 1) -
        (if v ≠ w ∧ ¬ g.cell w v = some none then 1 else 0) := by
  obtain ⟨g1, e1, s1, c1, n1⟩ := matrix_Remove_spec hsq hv hw
  by_cases hvw : v = w
  · subst hvw
    refine ⟨g1, by simp [Matrix.RemoveBi, e1, Result.andThen], s1, ?_, ?_⟩
    · intro p q
      rw [c1]
      by_cases h1 : p = v ∧ q = v <;> simp [h1]
    · rw [n1]
      simp
  · obtain ⟨g2, e2, s2, c2, n2⟩ := matrix_Remove_spec s1 hw hv
    refine ⟨g2, by simp [Matrix.RemoveBi, e1, Result.andThen, hvw, e2], s2, ?_, ?_⟩
    · intro p q
      rw [c2, c1]
      by_cases h1 : p = v ∧ q = w <;> by_cases h2 : p = w ∧ q = v <;> simp [h1, h2]
    · rw [n2, n1, c1]
      have h' : ¬ (w = v ∧ v = w) := fun h => hvw h.2
      simp only [h', if_false]
      by_cases ha : g.cell v w = some none <;> by_cases hb : g.cell w v = some none <;>
        simp [ha, hb, hvw]

theorem hash_AddBi_eq_AddBiLabel (g : Hash) (v w : Int) :
    g.AddBi v w = g.AddBiLabel v w Value.NoLabel := by
  unfold Hash.AddBi Hash.AddBiLabel
  rw [hash_Add_eq_AddLabel]
  cases g.AddLabel w v Value.NoLabel with
  | ok s => simp [Result.andThen, hash_Add_eq_AddLabel]
  | panic s => rfl

/-- C14: for each backend and every graph state, `AddBi(v, w)` with in-range `v`, `w`
returns normally and makes `HasEdge(v, w)` and `HasEdge(w, v)` true with `Label` `NoLabel`
in both directions (`AddBiLabel(v, w, x)`: label `x` in both directions); this holds for
`v != w` and for `v == w` alike. `AddBi(v, v)` and `AddBiLabel(v, v, x)` on a graph where
the self-loop `(v, v)` is absent raise `NumEdges` by exactly 1. -/
theorem addBi_effect (n : Nat) (v w : Int) (hv : 0 ≤ v ∧ v < (n : Int))
    (hw : 0 ≤ w ∧ w < (n : Int)) :
    (∀ g : Hash, g.NumVertices = n →
      (∃ g', g.AddBi v w = .ok g' ∧
        g'.HasEdge v w = some true ∧ g'.HasEdge w v = some true ∧
        g'.Label v w = some Value.NoLabel ∧ g'.Label w v = some Value.NoLabel ∧
        (v = w → g.HasEdge v w = some false → g'.NumEdges = g.NumEdges + 1)) ∧
      (∀ x, ∃ g', g.AddBiLabel v w x = .ok g' ∧
        g'.HasEdge v w = some true ∧ g'.HasEdge w v = some true ∧
        g'.Label v w = some x ∧ g'.Label w v = some x ∧
        (v = w → g.HasEdge v w = some false → g'.NumEdges = g.NumEdges + 1))) ∧
    (∀ g : Matrix, g.Square n →
      (∃ g', g.AddBi v w = .ok g' ∧
        g'.HasEdge v w = some true ∧ g'.HasEdge w v = some true ∧
        g'.Label v w = some Value.NoLabel ∧ g'.Label w v = some Value.NoLabel ∧
        (v = w → g.HasEdge v w = some false → g'.NumEdges = g.NumEdges + 1)) ∧
      (∀ x, x ≠ Value.noEdge → ∃ g', g.AddBiLabel v w x = .ok g' ∧
        g'.HasEdge v w = some true ∧ g'.HasEdge w v = some true ∧
        g'.Label v w = some x ∧ g'.Label w v = some x ∧
        (v = w → g.HasEdge v w = some false → g'.NumEdges = g.NumEdges + 1))) := by
  constructor
  · intro g hg
    have hlv := hash_len_of_numVertices hg hv.2
    have hlw := hash_len_of_numVertices hg hw.2
    have habs := absent_iff_not_hasEdge (hash_cell_some g w hv.1 hlv)
    rw [← hash_HasEdge_eq_cell] at habs
    have hbi : ∀ x, ∃ g', g.AddBiLabel v w x = .ok g' ∧
        g'.HasEdge v w = some true ∧ g'.HasEdge w v = some true ∧
        g'.Label v w = some x ∧ g'.Label w v = some x ∧
        (v = w → g.HasEdge v w = some false → g'.NumEdges = g.NumEdges + 1) := by
      intro x
      obtain ⟨g', he, -, hcell, hnum⟩ :=
        hash_AddBiLabel_spec g x ⟨hv.1, hlv⟩ ⟨hw.1, hlw⟩
      refine ⟨g', he, by simp [hash_HasEdge_eq_cell, hcell],
        by simp [hash_HasEdge_eq_cell, hcell], by simp [hash_Label_eq_cell, hcell],
        by simp [hash_Label_eq_cell, hcell], ?_⟩
      intro hvw hfalse
      have hc : g.cell v w = some none := habs.mpr (by rw [hfalse]; simp)
      subst hvw
      simp [Hash.NumEdges, hnum, hc]
    refine ⟨?_, hbi⟩
    rw [hash_AddBi_eq_AddBiLabel]
    exact hbi _
  · intro g hg
    have habs := absent_iff_not_hasEdge (matrix_cell_some hg hv hw)
    rw [← matrix_HasEdge_eq_cell] at habs
    have hbi : ∀ x, x ≠ Value.noEdge → ∃ g', g.AddBiLabel v w x = .ok g' ∧
        g'.HasEdge v w = some true ∧ g'.HasEdge w v = some true ∧
        g'.Label v w = some x ∧ g'.Label w v = some x ∧
        (v = w → g.HasEdge v w = some false → g'.NumEdges = g.NumEdges + 1) := by
      intro x hx
      obtain ⟨g', he, -, hcell, hnum⟩ := matrix_AddBiLabel_spec hg hv hw hx
      refine ⟨g', he, by simp [matrix_HasEdge_eq_cell, hcell],
        by simp [matrix_HasEdge_eq_cell, hcell], by simp [matrix_Label_eq_cell, hcell],
        by simp [matrix_Label_eq_cell, hcell], ?_⟩
      intro hvw hfalse
      have hc : g.cell v w = some none := habs.mpr (by rw [hfalse]; simp)
      subst hvw
      simp [Matrix.NumEdges, hnum, hc]
    exact ⟨hbi _ (by decide), hbi⟩

/-- Witness for C14 (`TestAddBiNewLabel`, `ExampleDFS`): `AddBi(2, 3)` on `g5`, and
`AddBi(4, 4)` on `g5`, where the self-loop `(4, 4)` is absent. -/
theorem addBi_effect_witness :
    ((∃ g', (hashOf 5 setupOps).AddBi 2 3 = .ok g' ∧
        g'.HasEdge 2 3 = some true ∧ g'.HasEdge 3 2 = some true ∧
        g'.Label 2 3 = some Value.NoLabel ∧ g'.Label 3 2 = some Value.NoLabel ∧
        ((2 : Int) = 3 → (hashOf 5 setupOps).HasEdge 2 3 = some false →
          g'.NumEdges = (hashOf 5 setupOps).NumEdges + 1)) ∧
      (∃ g', (hashOf 5 setupOps).AddBi 4 4 = .ok g' ∧
        g'.NumEdges = (hashOf 5 setupOps).NumEdges + 1)) ∧
    ((∃ g', (matrixOf 5 setupOps).AddBi 2 3 = .ok g' ∧
        g'.HasEdge 2 3 = some true ∧ g'.HasEdge 3 2 = some true ∧
        g'.Label 2 3 = some Value.NoLabel ∧ g'.Label 3 2 = some Value.NoLabel ∧
        ((2 : Int) = 3 → (matrixOf 5 setupOps).HasEdge 2 3 = some false →
          g'.NumEdges = (matrixOf 5 setupOps).NumEdges + 1)) ∧
      (∃ g', (matrixOf 5 setupOps).AddBi 4 4 = .ok g' ∧
        g'.NumEdges = (matrixOf 5 setupOps).NumEdges + 1)) :=
  ⟨⟨((addBi_effect 5 2 3 (by decide) (by decide)).1 _ (by decide)).1,
    (((addBi_effect 5 4 4 (by decide) (by decide)).1 _ (by decide)).1).imp
      (fun _ h => ⟨h.1, h.2.2.2.2.2 rfl (by decide)⟩)⟩,
   ⟨((addBi_effect 5 2 3 (by decide) (by decide)).2 _ ⟨by decide, by decide⟩).1,
    (((addBi_effect 5 4 4 (by decide) (by decide)).2 _ ⟨by decide, by decide⟩).1).imp
      (fun _ h => ⟨h.1, h.2.2.2.2.2 rfl (by decide)⟩)⟩⟩

/-- C15: for each backend, every graph state and every in-range `v`, `w`: `RemoveBi(v, w)`
returns normally, afterwards `HasEdge(v, w)` and `HasEdge(w, v)` are both false, and
`NumEdges` has gone down by the number of distinct ordered pairs among `(v, w)` and `(w, v)`
that were present before the call: one for `(v, w)` if present, one more for `(w, v)` if
`v != w` and it was present. -/
theorem removeBi_effect (n : Nat) (v w : Int) (hv : 0 ≤ v ∧ v < (n : Int))
    (hw : 0 ≤ w ∧ w < (n : Int)) :
    (∀ g : Hash, g.NumVertices = n → ∃ g', g.RemoveBi v w = .ok g' ∧
      g'.HasEdge v w = some false ∧ g'.HasEdge w v = some false ∧
      g'.NumEdges = g.NumEdges - (if g.HasEdge v w = some true then 1 else 0) -
        (if v ≠ w ∧ g.HasEdge w v = some true then 1 else 0)) ∧
    (∀ g : Matrix, g.Square n → ∃ g', g.RemoveBi v w = .ok g' ∧
      g'.HasEdge v w = some false ∧ g'.HasEdge w v = some false ∧
      g'.NumEdges = g.NumEdges - (if g.HasEdge v w = some true then 1 else 0) -
        (if v ≠ w ∧ g.HasEdge w v = some true then 1 else 0)) := by
  constructor
  · intro g hg
    have hlv := hash_len_of_numVertices hg hv.2
    have hlw := hash_len_of_numVertices hg hw.2
    have h1 := absent_iff_not_hasEdge (hash_cell_some g w hv.1 hlv)
    have h2 := absent_iff_not_hasEdge (hash_cell_some g v hw.1 hlw)
    rw [← hash_HasEdge_eq_cell] at h1 h2
    obtain ⟨g', he, -, hcell, hnum⟩ := hash_RemoveBi_spec g ⟨hv.1, hlv⟩ ⟨hw.1, hlw⟩
    refine ⟨g', he, by simp [hash_HasEdge_eq_cell, hcell],
      by simp [hash_HasEdge_eq_cell, hcell], ?_⟩
    simp only [Hash.NumEdges, hnum, h1, h2, not_not]
    by_cases ha : g.HasEdge v w = some true <;> simp [ha]
  · intro g hg
    have h1 := absent_iff_not_hasEdge (matrix_cell_some hg hv hw)
    have h2 := absent_iff_not_hasEdge (matrix_cell_some hg hw hv)
    rw [← matrix_HasEdge_eq_cell] at h1 h2
    obtain ⟨g', he, -, hcell, hnum⟩ := matrix_RemoveBi_spec hg hv hw
    refine ⟨g', he, by simp [matrix_HasEdge_eq_cell, hcell],
      by simp [matrix_HasEdge_eq_cell, hcell], ?_⟩
    simp only [Matrix.NumEdges, hnum, h1, h2, not_not]
    by_cases ha : g.HasEdge v w = some true <;> simp [ha]

/-- Witness for C15 (`TestNumEdges`): after the calls of the test up to `AddBi(2, 3)`,
`NumEdges` is 2 and `RemoveBi(2, 3)` brings it to 0. -/
theorem removeBi_effect_witness :
    ((hashOf 5 testNumEdgesOps).NumEdges = 2 ∧
      ∃ g', (hashOf 5 testNumEdgesOps).RemoveBi 2 3 = .ok g' ∧
        g'.HasEdge 2 3 = some false ∧ g'.HasEdge 3 2 = some false ∧
        g'.NumEdges = (hashOf 5 testNumEdgesOps).NumEdges -
            (if (hashOf 5 testNumEdgesOps).HasEdge 2 3 = some true then 1 else 0) -
          (if (2 : Int) ≠ 3 ∧ (hashOf 5 testNumEdgesOps).HasEdge 3 2 = some true
            then 1 else 0)) ∧
    ((matrixOf 5 testNumEdgesOps).NumEdges = 2 ∧
      ∃ g', (matrixOf 5 testNumEdgesOps).RemoveBi 2 3 = .ok g' ∧
        g'.HasEdge 2 3 = some false ∧ g'.HasEdge 3 2 = some false ∧
        g'.NumEdges = (matrixOf 5 testNumEdgesOps).NumEdges -
            (if (matrixOf 5 testNumEdgesOps).HasEdge 2 3 = some true then 1 else 0) -
          (if (2 : Int) ≠ 3 ∧ (matrixOf 5 testNumEdgesOps).HasEdge 3 2 = some true
            then 1 else 0)) :=
  ⟨⟨by decide, (removeBi_effect 5 2 3 (by decide) (by decide)).1 _ (by decide)⟩,
   ⟨by decide,
    (removeBi_effect 5 2 3 (by decide) (by decide)).2 _ ⟨by decide, by decide⟩⟩⟩

/-! ## Redundant mutations -/

theorem mapSet_idem (m : GoMap) (k : Int) (x : Value) :
    mapSet (mapSet m k x) k x = mapSet m k x := by
  induction m with
  | nil => simp [mapSet]
  | cons e m ih =>
    obtain ⟨k0, y⟩ := e
    by_cases h : k0 = k
    · simp [mapSet, h]
    · simp [mapSet, h, ih]

theorem setIndex_setIndex {α : Type} (s : List α) (i : Int) (a b : α) :
    setIndex (setIndex s i a) i b = setIndex s i b := by
  simp [setIndex, List.set_set]

theorem hash_AddLabel_idem (g : Hash) {i : Int} (j : Int) (x : Value) (h0 : 0 ≤ i)
    (h1 : i < (g.edges.length : Int)) {g1 : Hash} (h : g.AddLabel i j x = .ok g1) :
    g1.AddLabel i j x = .ok g1 := by
  obtain ⟨m0, hm0⟩ := index_isSome_of_lt h0 h1
  rw [hash_AddLabel_eq hm0] at h
  injection h with h
  subst h
  have hidx : index (setIndex g.edges i (some (mapSet (mapEntries m0) j x))) i =
      some (some (mapSet (mapEntries m0) j x)) := index_setIndex_same _ h0 h1
  rw [hash_AddLabel_eq hidx]
  simp [mapEntries, mapGet, lookup_mapSet, mapSet_idem, setIndex_setIndex]

theorem hash_Remove_idem (g : Hash) {i : Int} (j : Int) (h0 : 0 ≤ i)
    (h1 : i < (g.edges.length : Int)) {g1 : Hash} (h : g.Remove i j = .ok g1) :
    g1.Remove i j = .ok g1 := by
  obtain ⟨m0, hm0⟩ := index_isSome_of_lt h0 h1
  have h' := h
  rw [hash_Remove_eq hm0] at h'
  injection h' with h'
  by_cases hg : mapGet m0 j = none
  · rw [if_pos hg] at h'
    rw [← h']
    rw [← h'] at h
    exact h
  · rw [if_neg hg] at h'
    subst h'
    have hidx : index (setIndex g.edges i (some (mapDelete (mapEntries m0) j))) i =
        some (some (mapDelete (mapEntries m0) j)) := index_setIndex_same _ h0 h1
    rw [hash_Remove_eq hidx]
    simp [mapGet, lookup_mapDelete]

theorem hash_Remove_absent (g : Hash) {i : Int} (j : Int)
    (h : g.HasEdge i j = some false) : g.Remove i j = .ok g := by
  rw [hash_HasEdge_eq_cell] at h
  unfold Hash.cell at h
  cases hm0 : index g.edges i with
  | none => simp [hm0] at h
  | some m0 =>
    rw [hash_Remove_eq hm0]
    simp only [hm0, Option.map_some', Option.some.injEq] at h
    have hnone : mapGet m0 j = none := by
      cases hg : mapGet m0 j with
      | none => rfl
      | some y => rw [hg] at h; cases h
    simp [hnone]

theorem matrix_AddLabel_idem {n : Nat} {g : Matrix} (hsq : g.Square n) {i j : Int}
    (hi : 0 ≤ i ∧ i < (n : Int)) (hj : 0 ≤ j ∧ j < (n : Int)) {x : Value}
    (hx : x ≠ Value.noEdge) {g1 : Matrix} (h : g.AddLabel i j x = .ok g1) :
    g1.AddLabel i j x = .ok g1 := by
  obtain ⟨row, y, hr, hy⟩ := matrix_index_of_square hsq hi hj
  obtain ⟨hi0, hi1⟩ := index_lt_of_eq_some hr
  obtain ⟨hj0, hj1⟩ := index_lt_of_eq_some hy
  rw [matrix_AddLabel_eq hr hy] at h
  injection h with h
  subst h
  have hidx : index (setIndex g.adj i (setIndex row j x)) i = some (setIndex row j x) :=
    index_setIndex_same _ hi0 hi1
  have hidy : index (setIndex row j x) j = some x := index_setIndex_same _ hj0 hj1
  rw [matrix_AddLabel_eq hidx hidy]
  simp [hx, setIndex_setIndex]

theorem matrix_Remove_idem {n : Nat} {g : Matrix} (hsq : g.Square n) {i j : Int}
    (hi : 0 ≤ i ∧ i < (n : Int)) (hj : 0 ≤ j ∧ j < (n : Int)) {g1 : Matrix}
    (h : g.Remove i j = .ok g1) : g1.Remove i j = .ok g1 := by
  obtain ⟨row, y, hr, hy⟩ := matrix_index_of_square hsq hi hj
  obtain ⟨hi0, hi1⟩ := index_lt_of_eq_some hr
  obtain ⟨hj0, hj1⟩ := index_lt_of_eq_some hy
  have h' := h
  rw [matrix_Remove_eq hr hy] at h'
  injection h' with h'
  by_cases hne : y = Value.noEdge
  · rw [if_pos hne] at h'
    rw [← h']
    rw [← h'] at h
    exact h
  · rw [if_neg hne] at h'
    subst h'
    have hidx : index (setIndex g.adj i (setIndex row j Value.noEdge)) i =
        some (setIndex row j Value.noEdge) := index_setIndex_same _ hi0 hi1
    have hidy : index (setIndex row j Value.noEdge) j = some Value.noEdge :=
      index_setIndex_same _ hj0 hj1
    rw [matrix_Remove_eq hidx hidy]
    simp

theorem matrix_Remove_absent (g : Matrix) {i j : Int}
    (h : g.HasEdge i j = some false) : g.Remove i j = .ok g := by
  unfold Matrix.HasEdge at h
  cases hr : index g.adj i with
  | none => simp [hr] at h
  | some row =>
    cases hy : index row j with
    | none => simp [hr, hy] at h
    | some y =>
      simp only [hr, hy, Option.some.injEq, decide_eq_false_iff_not, not_not] at h
      rw [matrix_Remove_eq hr hy]
      simp [h]

theorem hash_sameQueries_refl (g : Hash) : g.SameQueries g :=
  ⟨rfl, rfl, fun _ _ => ⟨rfl, rfl, rfl⟩⟩

theorem matrix_sameQueries_refl (g : Matrix) : g.SameQueries g :=
  ⟨rfl, rfl, fun _ _ => ⟨rfl, rfl, rfl⟩⟩

/-- C12: redundant mutations are idempotent in both backends. For every graph state,
in-range `(v, w)` and label `x`, the second of two `Add(v, w)` in a row, of two
`AddLabel(v, w, x)` in a row, or of two `Remove(v, w)` in a row returns normally and leaves
the graph as the first call left it, so that `NumVertices`, `NumEdges`, and `HasEdge`,
`Label`, `Degree` at all indices are as after one call. `Remove(v, w)` on a graph where the
edge is absent returns normally and changes nothing. -/
theorem redundant_mutation_idempotent (n : Nat) (v w : Int) (hv : 0 ≤ v ∧ v < (n : Int))
    (hw : 0 ≤ w ∧ w < (n : Int)) :
    (∀ g : Hash, g.NumVertices = n →
      (∃ g1 g2, g.Add v w = .ok g1 ∧ g1.Add v w = .ok g2 ∧ g2 = g1 ∧ g2.SameQueries g1) ∧
      (∀ x, ∃ g1 g2, g.AddLabel v w x = .ok g1 ∧ g1.AddLabel v w x = .ok g2 ∧ g2 = g1 ∧
        g2.SameQueries g1) ∧
      (∃ g1 g2, g.Remove v w = .ok g1 ∧ g1.Remove v w = .ok g2 ∧ g2 = g1 ∧
        g2.SameQueries g1) ∧
      (g.HasEdge v w = some false → g.Remove v w = .ok g)) ∧
    (∀ g : Matrix, g.Square n →
      (∃ g1 g2, g.Add v w = .ok g1 ∧ g1.Add v w = .ok g2 ∧ g2 = g1 ∧ g2.SameQueries g1) ∧
      (∀ x, x ≠ Value.noEdge → ∃ g1 g2, g.AddLabel v w x = .ok g1 ∧
        g1.AddLabel v w x = .ok g2 ∧ g2 = g1 ∧ g2.SameQueries g1) ∧
      (∃ g1 g2, g.Remove v w = .ok g1 ∧ g1.Remove v w = .ok g2 ∧ g2 = g1 ∧
        g2.SameQueries g1) ∧
      (g.HasEdge v w = some false → g.Remove v w = .ok g)) := by
  constructor
  · intro g hg
    have hlt := hash_len_of_numVertices hg hv.2
    have hadd : ∀ x, ∃ g1 g2, g.AddLabel v w x = .ok g1 ∧ g1.AddLabel v w x = .ok g2 ∧
        g2 = g1 ∧ g2.SameQueries g1 := by
      intro x
      obtain ⟨g1, he, -⟩ := hash_AddLabel_spec g w x hv.1 hlt
      exact ⟨g1, g1, he, hash_AddLabel_idem g w x hv.1 hlt he, rfl, hash_sameQueries_refl g1⟩
    refine ⟨?_, hadd, ?_, hash_Remove_absent g w⟩
    · simp only [hash_Add_eq_AddLabel]
      exact hadd _
    · obtain ⟨g1, he, -⟩ := hash_Remove_spec g w hv.1 hlt
      exact ⟨g1, g1, he, hash_Remove_idem g w hv.1 hlt he, rfl, hash_sameQueries_refl g1⟩
  · intro g hg
    have hadd : ∀ x, x ≠ Value.noEdge → ∃ g1 g2, g.AddLabel v w x = .ok g1 ∧
        g1.AddLabel v w x = .ok g2 ∧ g2 = g1 ∧ g2.SameQueries g1 := by
      intro x hx
      obtain ⟨g1, he, -⟩ := matrix_AddLabel_spec hg hv hw hx
      exact ⟨g1, g1, he, matrix_AddLabel_idem hg hv hw hx he, rfl,
        matrix_sameQueries_refl g1⟩
    refine ⟨hadd _ (by decide), hadd, ?_, matrix_Remove_absent g⟩
    obtain ⟨g1, he, -⟩ := matrix_Remove_spec hg hv hw
    exact ⟨g1, g1, he, matrix_Remove_idem hg hv hw he, rfl, matrix_sameQueries_refl g1⟩

/-- Witness for C12 (`TestEdgeLabels`): `Remove(2, 3)` twice on `g5`, and `Remove(1, 0)` on
`g5`, where `(1, 0)` is absent. -/
theorem redundant_mutation_idempotent_witness :
    ((∃ g1 g2, (hashOf 5 setupOps).Remove 2 3 = .ok g1 ∧ g1.Remove 2 3 = .ok g2 ∧ g2 = g1 ∧
        g2.SameQueries g1) ∧
      (hashOf 5 setupOps).Remove 1 0 = .ok (hashOf 5 setupOps)) ∧
    ((∃ g1 g2, (matrixOf 5 setupOps).Remove 2 3 = .ok g1 ∧ g1.Remove 2 3 = .ok g2 ∧
        g2 = g1 ∧ g2.SameQueries g1) ∧
      (matrixOf 5 setupOps).Remove 1 0 = .ok (matrixOf 5 setupOps)) :=
  ⟨⟨((redundant_mutation_idempotent 5 2 3 (by decide) (by decide)).1 _ (by decide)).2.2.1,
    ((redundant_mutation_idempotent 5 1 0 (by decide) (by decide)).1 _ (by decide)).2.2.2
      (by decide)⟩,
   ⟨((redundant_mutation_idempotent 5 2 3 (by decide) (by decide)).2 _
      ⟨by decide, by decide⟩).2.2.1,
    ((redundant_mutation_idempotent 5 1 0 (by decide) (by decide)).2 _
      ⟨by decide, by decide⟩).2.2.2 (by decide)⟩⟩

/-! ## Fresh graphs -/

theorem rowNeighbors_replicate (n : Nat) :
    rowNeighbors (List.replicate n Value.noEdge) = [] := by
  rw [List.eq_nil_iff_forall_not_mem]
  rintro ⟨w, x⟩ hp
  rw [mem_rowNeighbors] at hp
  exact hp.2 (List.eq_of_mem_replicate (mem_of_index_eq_some hp.1))

/-- C16: for every `n >= 0`, `NewHash(n)` and `NewMatrix(n)` return a graph with
`NumVertices() == n` and `NumEdges() == 0` in which, for all `v`, `w` in `[0, n)`,
`HasEdge(v, w)` is false, `Label(v, w)` is nil, `Degree(v)` is 0 and `DoNeighbors(v)` calls
`action` zero times. -/
theorem new_graph_empty (n : Nat) (ord : RangeOrder) (hord : ord.Valid) :
    (∃ g, NewHash n = some g ∧ g.NumVertices = n ∧ g.NumEdges = 0 ∧
      ∀ v w : Int, 0 ≤ v → v < (n : Int) → 0 ≤ w → w < (n : Int) →
        g.HasEdge v w = some false ∧ g.Label v w = some Value.nil ∧
        g.Degree v = some 0 ∧ g.DoNeighbors ord v = some []) ∧
    (∃ g, NewMatrix n = some g ∧ g.NumVertices = n ∧ g.NumEdges = 0 ∧
      ∀ v w : Int, 0 ≤ v → v < (n : Int) → 0 ≤ w → w < (n : Int) →
        g.HasEdge v w = some false ∧ g.Label v w = some Value.nil ∧
        g.Degree v = some 0 ∧ g.DoNeighbors v = some []) := by
  constructor
  · refine ⟨{ edges := List.replicate n none, numEdges := 0 }, by simp [NewHash],
      by simp [Hash.NumVertices], rfl, ?_⟩
    intro v w hv0 hv1 hw0 hw1
    have hlt : v.toNat < n := by omega
    have hidx : index (List.replicate n (none : Option GoMap)) v = some none := by
      simp [index, hv0, List.getElem?_replicate, hlt]
    have hnil : ord v [] = [] := List.Perm.eq_nil (hord v [])
    refine ⟨by simp [Hash.HasEdge, hidx, mapEntries],
      by simp [Hash.Label, hidx, mapGet], by simp [Hash.Degree, hidx, mapLen, mapEntries],
      by simp [Hash.DoNeighbors, hidx, mapEntries, hnil]⟩
  · refine ⟨{ adj := List.replicate n (List.replicate n Value.noEdge), numEdges := 0 },
      by simp [NewMatrix], by simp [Matrix.NumVertices], rfl, ?_⟩
    intro v w hv0 hv1 hw0 hw1
    have hlt : v.toNat < n := by omega
    have hlt' : w.toNat < n := by omega
    have hidx : index (List.replicate n (List.replicate n Value.noEdge)) v =
        some (List.replicate n Value.noEdge) := by
      simp [index, hv0, List.getElem?_replicate, hlt]
    have hidy : index (List.replicate n Value.noEdge) w = some Value.noEdge := by
      simp [index, hw0, List.getElem?_replicate, hlt']
    refine ⟨by simp [Matrix.HasEdge, hidx, hidy], by simp [Matrix.Label, hidx, hidy], ?_,
      by simp [Matrix.DoNeighbors, hidx, rowNeighbors_replicate]⟩
    simp only [Matrix.Degree, hidx, ← length_rowNeighbors, rowNeighbors_replicate]
    rfl

/-- Witness for C16 (`TestNumVertices`): graphs of 5 vertices, enumerated in storage
order. -/
theorem new_graph_empty_witness :
    storageOrder.Valid ∧
    (∃ g, NewHash (5 : Nat) = some g ∧ g.NumVertices = (5 : Nat) ∧ g.NumEdges = 0 ∧
      ∀ v w : Int, 0 ≤ v → v < ((5 : Nat) : Int) → 0 ≤ w → w < ((5 : Nat) : Int) →
        g.HasEdge v w = some false ∧ g.Label v w = some Value.nil ∧
        g.Degree v = some 0 ∧ g.DoNeighbors storageOrder v = some []) ∧
    (∃ g, NewMatrix (5 : Nat) = some g ∧ g.NumVertices = (5 : Nat) ∧ g.NumEdges = 0 ∧
      ∀ v w : Int, 0 ≤ v → v < ((5 : Nat) : Int) → 0 ≤ w → w < ((5 : Nat) : Int) →
        g.HasEdge v w = some false ∧ g.Label v w = some Value.nil ∧
        g.Degree v = some 0 ∧ g.DoNeighbors v = some []) :=
  ⟨storageOrder_valid, new_graph_empty 5 storageOrder storageOrder_valid⟩

/-! ## Enumeration order and degree -/

/-- The vertices on which `Matrix.DoNeighbors(v)` calls `action`, in order: the list
`0..n-1` filtered by `HasEdge(v, .)`. -/
theorem matrix_rowNeighbors_keys {n : Nat} {g : Matrix} (hsq : g.Square n) {v : Int}
    {row : List Value} (hr : index g.adj v = some row) :
    (rowNeighbors row).map Prod.fst =
      ((List.range n).filter (fun w : Nat => decide (g.HasEdge v (w : Int) = some true))).map
        (fun w : Nat => (w : Int)) := by
  have hlen : row.length = n := hsq.2 _ (mem_of_index_eq_some hr)
  have hcongr : row.enum.filter (fun p => decide (p.2 ≠ Value.noEdge)) =
      row.enum.filter
        ((fun w : Nat => decide (g.HasEdge v (w : Int) = some true)) ∘ Prod.fst) := by
    apply List.filter_congr
    rintro ⟨k, x⟩ hp
    rw [List.mk_mem_enum_iff_getElem?] at hp
    have hidx : index row (k : Int) = some x := by rw [index_natCast]; exact hp
    simp [Matrix.HasEdge, hr, hidx]
  unfold rowNeighbors
  rw [hcongr, ← hlen, ← List.enum_map_fst row, List.filter_map, List.map_map, List.map_map]
  rfl

theorem countRow_eq_length (has : Int → Int → Option Bool) (v : Int) (n : Nat) :
    countRow has v n =
      ((List.range n).filter (fun w : Nat => decide (has v (w : Int) = some true))).length := by
  unfold countRow
  rw [← List.toFinset_card_of_nodup ((List.nodup_range n).filter _)]
  congr 1
  ext w
  simp

theorem countRow_congr {has has' : Int → Int → Option Bool} {v : Int} {n : Nat}
    (h : ∀ w : Int, 0 ≤ w → w < (n : Int) → has v w = has' v w) :
    countRow has v n = countRow has' v n := by
  unfold countRow
  congr 1
  apply Finset.filter_congr
  intro w hw
  simp only [Finset.mem_range] at hw
  rw [h w (by omega) (by omega)]

theorem matrix_degree_eq_countRow {n : Nat} {g : Matrix} (hsq : g.Square n) {v : Int}
    (hv : 0 ≤ v ∧ v < (n : Int)) : g.Degree v = some (countRow g.HasEdge v n : Int) := by
  obtain ⟨row, hr⟩ := index_isSome_of_lt (s := g.adj) hv.1 (by rw [hsq.1]; exact hv.2)
  have h1 := congrArg List.length (matrix_rowNeighbors_keys hsq hr)
  simp only [List.length_map] at h1
  simp only [Matrix.Degree, hr, ← length_rowNeighbors, h1, countRow_eq_length]

/-- C17: for each backend, after any sequence of in-range mutations on a fresh graph of `n`
vertices and for every `v` in `[0, n)`, `Degree(v)` equals the number of `w` in `[0, n)`
with `HasEdge(v, w)` true (a self-loop counts once). -/
theorem degree_eq_outdegree (n : Nat) (ops : List Op) (hops : ∀ op ∈ ops, op.Valid n) :
    (∃ h0 h, NewHash n = some h0 ∧ h0.run ops = .ok h ∧
      ∀ v : Int, 0 ≤ v → v < (n : Int) →
        h.Degree v = some (countRow h.HasEdge v n : Int)) ∧
    (∃ m0 m, NewMatrix n = some m0 ∧ m0.run ops = .ok m ∧
      ∀ v : Int, 0 ≤ v → v < (n : Int) →
        m.Degree v = some (countRow m.HasEdge v n : Int)) := by
  obtain ⟨h0, eh0, rh0⟩ := hash_Models_new n
  obtain ⟨h, eh, rh⟩ := hash_Models_run ops hops rh0
  obtain ⟨m0, em0, rm0⟩ := matrix_Models_new n
  obtain ⟨m, em, rm⟩ := matrix_Models_run ops hops rm0
  refine ⟨⟨h0, h, eh0, eh, ?_⟩, ⟨m0, m, em0, em, ?_⟩⟩
  · intro v hv0 hv1
    obtain ⟨lh, lm, -, -, -, d1, d2⟩ :=
      Models.doNeighbors_perm rh rm storageOrder_valid ⟨hv0, hv1⟩
    rw [d1, ← d2, matrix_degree_eq_countRow rm.square ⟨hv0, hv1⟩]
    congr 2
    apply countRow_congr
    intro w hw0 hw1
    rw [rh.hash_hasEdge ⟨hv0, hv1⟩ ⟨hw0, hw1⟩,
      rm.matrix_hasEdge ⟨hv0, hv1⟩ ⟨hw0, hw1⟩]
  · intro v hv0 hv1
    exact matrix_degree_eq_countRow rm.square ⟨hv0, hv1⟩

/-- Witness for C17 (`TestDegree`, `TestDoNeighbors`): on `g5` after `Add(0, 0)`,
`Add(0, 1)`, `Add(2, 0)`, `Add(0, 3)` the degree of vertex 0 is 3 in both backends. -/
theorem degree_eq_outdegree_witness :
    (∀ op ∈ testDoNeighborsOps, op.Valid (5 : Nat)) ∧
    (hashOf 5 testDoNeighborsOps).Degree 0 = some 3 ∧
    (matrixOf 5 testDoNeighborsOps).Degree 0 = some 3 ∧
    ((∃ h0 h, NewHash (5 : Nat) = some h0 ∧ h0.run testDoNeighborsOps = .ok h ∧
      ∀ v : Int, 0 ≤ v → v < ((5 : Nat) : Int) →
        h.Degree v = some (countRow h.HasEdge v 5 : Int)) ∧
    (∃ m0 m, NewMatrix (5 : Nat) = some m0 ∧ m0.run testDoNeighborsOps = .ok m ∧
      ∀ v : Int, 0 ≤ v → v < ((5 : Nat) : Int) →
        m.Degree v = some (countRow m.HasEdge v 5 : Int))) :=
  ⟨by decide, by decide, by decide, degree_eq_outdegree 5 testDoNeighborsOps (by decide)⟩

/-- C18: for every `Matrix` graph and every in-range `v`, `DoNeighbors(v, action)` returns
normally and the vertices of its calls `action(w, x)`, in order, are the list `0..n-1`
filtered by `HasEdge(v, .)`: exactly the `w` of `[0, n)` with `HasEdge(v, w)` true, once
each, in strictly ascending order; in every call `x` is `Label(v, w)`. -/
theorem matrix_doNeighbors_ascending (n : Nat) (g : Matrix) (hsq : g.Square n) (v : Int)
    (hv : 0 ≤ v ∧ v < (n : Int)) :
    ∃ calls, g.DoNeighbors v = some calls ∧
      calls.map Prod.fst =
        ((List.range n).filter
          (fun w : Nat => decide (g.HasEdge v (w : Int) = some true))).map
          (fun w : Nat => (w : Int)) ∧
      (calls.map Prod.fst).Pairwise (fun a b => a < b) ∧
      ∀ p ∈ calls, g.Label v p.1 = some p.2 := by
  obtain ⟨row, hr⟩ := index_isSome_of_lt (s := g.adj) hv.1 (by rw [hsq.1]; exact hv.2)
  have hkeys := matrix_rowNeighbors_keys hsq hr
  refine ⟨rowNeighbors row, by simp [Matrix.DoNeighbors, hr], hkeys, ?_, ?_⟩
  · rw [hkeys]
    apply List.Pairwise.map (fun w : Nat => (w : Int)) (R := fun a b : Nat => a < b)
    · intro a b hab
      exact Int.ofNat_lt.mpr hab
    · exact List.Pairwise.filter _ (List.pairwise_lt_range n)
  · rintro ⟨w, x⟩ hp
    rw [mem_rowNeighbors] at hp
    simp [Matrix.Label, hr, hp.1, hp.2]

/-- Witness for C18 (`TestDoNeighbors`): on `g5` after `Add(0, 0)`, `Add(0, 1)`,
`Add(2, 0)`, `Add(0, 3)`, `DoNeighbors(0)` on `Matrix` calls `action` on 0, 1, 3 in this
order. -/
theorem matrix_doNeighbors_ascending_witness :
    (matrixOf 5 testDoNeighborsOps).DoNeighbors 0 =
      some [(0, Value.NoLabel), (1, Value.NoLabel), (3, Value.NoLabel)] ∧
    ∃ calls, (matrixOf 5 testDoNeighborsOps).DoNeighbors 0 = some calls ∧
      calls.map Prod.fst =
        ((List.range 5).filter (fun w : Nat =>
          decide ((matrixOf 5 testDoNeighborsOps).HasEdge 0 (w : Int) = some true))).map
          (fun w : Nat => (w : Int)) ∧
      (calls.map Prod.fst).Pairwise (fun a b => a < b) ∧
      ∀ p ∈ calls, (matrixOf 5 testDoNeighborsOps).Label 0 p.1 = some p.2 :=
  ⟨by decide, matrix_doNeighbors_ascending 5 _ ⟨by decide, by decide⟩ 0 (by decide)⟩

/-- C19: for every `Hash` graph, every in-range `v` and every order of the map iteration,
`DoNeighbors(v, action)` returns normally and calls `action(w, x)` exactly once for each `w`
with `HasEdge(v, w)` true, with `x` equal to `Label(v, w)`, and for no other `w`; the number
of calls equals `Degree(v)`. -/
theorem hash_doNeighbors_exact (g : Hash) (hk : g.DistinctKeys) (v : Int)
    (hv : 0 ≤ v ∧ v < g.NumVertices) (ord : RangeOrder) (hord : ord.Valid) :
    ∃ calls, g.DoNeighbors ord v = some calls ∧
      (calls.map Prod.fst).Nodup ∧
      (∀ w, w ∈ calls.map Prod.fst ↔ g.HasEdge v w = some true) ∧
      (∀ p ∈ calls, g.Label v p.1 = some p.2) ∧
      g.Degree v = some (calls.length : Int) := by
  obtain ⟨mp, hmp⟩ := index_isSome_of_lt (s := g.edges) hv.1 hv.2
  have hnd := hk mp (mem_of_index_eq_some hmp)
  have hperm := hord v (mapEntries mp)
  refine ⟨ord v (mapEntries mp), by simp [Hash.DoNeighbors, hmp], ?_, ?_, ?_, ?_⟩
  · exact (hperm.map Prod.fst).nodup_iff.mpr hnd
  · intro w
    rw [(hperm.map Prod.fst).mem_iff, ← lookup_isSome_iff_mem_keys]
    simp [Hash.HasEdge, hmp, any_key_eq_isSome]
  · rintro ⟨w, x⟩ hp
    have hl := (mem_entries_iff_lookup hnd w x).mp (hperm.mem_iff.mp hp)
    simp [Hash.Label, hmp, mapGet_eq_lookup, hl]
  · simp [Hash.Degree, hmp, mapLen, hperm.length_eq]

/-- Witness for C19 (`TestDoNeighbors`): on `g5` after `Add(0, 0)`, `Add(0, 1)`,
`Add(2, 0)`, `Add(0, 3)`, `DoNeighbors(0)` makes 3 calls, on the neighbors 1, 0 and 3. -/
theorem hash_doNeighbors_exact_witness :
    (hashOf 5 testDoNeighborsOps).DoNeighbors storageOrder 0 =
      some [(1, Value.NoLabel), (0, Value.NoLabel), (3, Value.NoLabel)] ∧
    ∃ calls, (hashOf 5 testDoNeighborsOps).DoNeighbors storageOrder 0 = some calls ∧
      (calls.map Prod.fst).Nodup ∧
      (∀ w, w ∈ calls.map Prod.fst ↔
        (hashOf 5 testDoNeighborsOps).HasEdge 0 w = some true) ∧
      (∀ p ∈ calls, (hashOf 5 testDoNeighborsOps).Label 0 p.1 = some p.2) ∧
      (hashOf 5 testDoNeighborsOps).Degree 0 = some (calls.length : Int) :=
  ⟨by decide,
   hash_doNeighbors_exact _ (by decide) 0 (by decide) storageOrder storageOrder_valid⟩

/-! ## Termination and the number of pushes -/

/-- A run of the loop that ends within a budget ends the same way within a larger one. -/
theorem loop_fuel_succ (g : Iterator) (order : Order) :
    ∀ (fuel : Nat) (s s' : State), loop g order fuel s = .ok s' →
      loop g order (fuel + 1) s = .ok s' := by
  intro fuel
  induction fuel with
  | zero =>
    intro s s' h
    unfold loop at h ⊢
    cases hp : pop order s.queue with
    | none => simpa [hp] using h
    | some vq => simp [hp] at h
  | succ fuel ih =>
    intro s s' h
    unfold loop at h ⊢
    cases hp : pop order s.queue with
    | none => simpa [hp] using h
    | some vq =>
      obtain ⟨v, q⟩ := vq
      simp only [hp] at h ⊢
      cases hn : g.DoNeighbors v with
      | none => simp [hn] at h
      | some ns =>
        simp only [hn] at h ⊢
        cases hd : doCalls ns { s with queue := q } with
        | error e => simp [hd] at h
        | ok s1 =>
          simp only [hd] at h ⊢
          exact ih s1 s' h

theorem loop_fuel_mono (g : Iterator) (order : Order) {fuel fuel' : Nat} {s s' : State}
    (h : loop g order fuel s = .ok s') (hle : fuel ≤ fuel') :
    loop g order fuel' s = .ok s' := by
  induction hle with
  | refl => exact h
  | step _ ih => exact loop_fuel_succ g order _ s s' ih

/-- Every call of `visit` turns one false entry of `visited` into true and records one
vertex: the number of recorded vertices plus the number of false entries is constant. -/
theorem loop_calls_count {g : Iterator} {order : Order} (c : Nat) :
    ∀ (fuel : Nat) (s s' : State), s.calls.length + s.visited.count false = c →
      loop g order fuel s = .ok s' → s'.calls.length + s'.visited.count false = c := by
  intro fuel s s' hc h
  have := @loop_rule g order (fun s => s.calls.length + s.visited.count false = c)
    (fun _ _ s => s.calls.length + s.visited.count false = c)
    (fun s v q hP _ => hP)
    (fun v done s w s' hQ _ hv => by
      rcases visitIfNew_ok hv with ⟨-, rfl⟩ | ⟨hw, rfl⟩
      · exact hQ
      · have := count_false_setIndex hw
        simp only [List.length_append, List.length_singleton] at hQ ⊢
        omega)
    (fun v ns s _ hQ => hQ)
    fuel s s' hc h
  exact this.1

/-- C20: for every graph whose stored neighbors are in `[0, n)`, every in-range `start`,
every `visited` array of length `n` and both orders, `traverse` terminates normally with an
empty queue. Each push is made by `visit`, which also records the vertex in `calls`: no
vertex is pushed twice, and the number of pushes is at most the number of entries of
`visited` that were false on entry. That number is also a sufficient budget of iterations
for the loop: each iteration uses one unit of the budget of `loop`, and with this budget
the loop ends normally in the same state. -/
theorem traverse_terminates (g : Iterator) (n : Nat) (hg : g.InRange n) (start : Int)
    (hs : 0 ≤ start ∧ start < (n : Int)) (visited : List Bool) (hlen : visited.length = n)
    (order : Order) :
    ∃ s, traverse g start visited order = .ok s ∧ s.queue = [] ∧ s.calls.Nodup ∧
      s.calls.length ≤ visited.count false ∧
      (index visited start = some false →
        loop g order (visited.count false)
          { queue := [start], visited := setIndex visited start true, calls := [start] }
          = .ok s) := by
  obtain ⟨b, hb⟩ := index_isSome_of_lt (s := visited) hs.1 (by rw [hlen]; exact hs.2)
  cases b with
  | true =>
    refine ⟨{ queue := [], visited := visited, calls := [] }, by simp [traverse, hb], rfl,
      by simp, by simp, ?_⟩
    intro h
    rw [hb] at h
    cases h
  | false =>
    obtain ⟨s, he, hq, hI⟩ := traverse_spec hg hlen hb order
    have he' := he
    rw [traverse_unvisited g order hb] at he'
    have hcount := count_false_setIndex hb
    have hc := @loop_calls_count g order (visited.count false)
      visited.length _ s (by simp only [List.length_singleton]; omega) he'
    refine ⟨s, he, hq, hI.nodup, by omega, ?_⟩
    intro _
    have hne1 := loop_ne_outOfFuel g order (visited.count false)
      { queue := [start], visited := setIndex visited start true, calls := [start] }
      (by simp only [State.measure, List.length_singleton]; omega)
    have hne2 := loop_ne_panic hg order (visited.count false)
      { queue := [start], visited := setIndex visited start true, calls := [start] }
      (by simp [length_setIndex, hlen])
      (by
        intro u hu
        simp only [List.mem_singleton] at hu
        rw [hu]
        exact hs)
    cases hl : loop g order (visited.count false)
        { queue := [start], visited := setIndex visited start true, calls := [start] } with
    | error e =>
      cases e with
      | panic => exact absurd hl hne2
      | outOfFuel => exact absurd hl hne1
    | ok s2 =>
      have := loop_fuel_mono g order hl (List.count_le_length false visited)
      rw [he'] at this
      rw [this]

/-- Witness for C20: the graph of `TestDFS` on `Matrix`, depth-first from vertex 0 with
`visited[1]` already true: 7 entries are false on entry. -/
theorem traverse_terminates_witness :
    (DFS (matrixOf 8 testDFSOps).toIterator 0
        [false, true, false, false, false, false, false, false]).map (fun s => s.calls)
      = .ok [0, 3, 4, 5] ∧
    ∃ s, traverse (matrixOf 8 testDFSOps).toIterator 0
        [false, true, false, false, false, false, false, false] Order.dfs = .ok s ∧
      s.queue = [] ∧ s.calls.Nodup ∧
      s.calls.length ≤ [false, true, false, false, false, false, false, false].count false ∧
      (index [false, true, false, false, false, false, false, false] 0 = some false →
        loop (matrixOf 8 testDFSOps).toIterator Order.dfs
          ([false, true, false, false, false, false, false, false].count false)
          { queue := [0],
            visited := setIndex [false, true, false, false, false, false, false, false] 0 true,
            calls := [0] } = .ok s) :=
  ⟨by decide,
   traverse_terminates _ 8 (matrix_toIterator_inRange ⟨by decide, by decide⟩) 0 (by decide)
     _ (by decide) Order.dfs⟩

/-! ## Frame of the directed mutators -/

theorem hash_onlyTouches_of_cell {g g' : Hash} {v w : Int}
    (hlen : g'.edges.length = g.edges.length) {c : Option (Option Value)}
    (hcell : ∀ p q, g'.cell p q = if p = v ∧ q = w then c else g.cell p q) :
    g.OnlyTouches g' v w := by
  refine ⟨by simp [Hash.NumVertices, hlen], ?_⟩
  intro v' w' hne
  have hne' : ¬ (v' = v ∧ w' = w) := fun h => hne (by rw [h.1, h.2])
  simp [hash_HasEdge_eq_cell, hash_Label_eq_cell, hcell, hne']

theorem matrix_onlyTouches_of_cell {n : Nat} {g g' : Matrix} {v w : Int}
    (hsq : g.Square n) (hsq' : g'.Square n) {c : Option (Option Value)}
    (hcell : ∀ p q, g'.cell p q = if p = v ∧ q = w then c else g.cell p q) :
    g.OnlyTouches g' v w := by
  refine ⟨by simp [Matrix.NumVertices, hsq.1, hsq'.1], ?_⟩
  intro v' w' hne
  have hne' : ¬ (v' = v ∧ w' = w) := fun h => hne (by rw [h.1, h.2])
  simp [matrix_HasEdge_eq_cell, matrix_Label_eq_cell, hcell, hne']

/-- C24: directed mutations touch only their own edge. For each backend, every graph state
and in-range `(v, w)`, `Add(v, w)`, `AddLabel(v, w, x)` and `Remove(v, w)` return normally,
leave `NumVertices()` unchanged and leave `HasEdge(v', w')` and `Label(v', w')` unchanged
for every ordered pair `(v', w')` other than `(v, w)`, the reverse pair `(w, v)` with
`v != w` included. -/
theorem directed_mutation_frame (n : Nat) (v w : Int) (hv : 0 ≤ v ∧ v < (n : Int))
    (hw : 0 ≤ w ∧ w < (n : Int)) :
    (∀ g : Hash, g.NumVertices = n →
      (∃ g', g.Add v w = .ok g' ∧ g.OnlyTouches g' v w) ∧
      (∀ x, ∃ g', g.AddLabel v w x = .ok g' ∧ g.OnlyTouches g' v w) ∧
      (∃ g', g.Remove v w = .ok g' ∧ g.OnlyTouches g' v w)) ∧
    (∀ g : Matrix, g.Square n →
      (∃ g', g.Add v w = .ok g' ∧ g.OnlyTouches g' v w) ∧
      (∀ x, x ≠ Value.noEdge → ∃ g', g.AddLabel v w x = .ok g' ∧ g.OnlyTouches g' v w) ∧
      (∃ g', g.Remove v w = .ok g' ∧ g.OnlyTouches g' v w)) := by
  constructor
  · intro g hg
    have hlt := hash_len_of_numVertices hg hv.2
    have hadd : ∀ x, ∃ g', g.AddLabel v w x = .ok g' ∧ g.OnlyTouches g' v w := by
      intro x
      obtain ⟨g', he, hlen, hcell, -⟩ := hash_AddLabel_spec g w x hv.1 hlt
      exact ⟨g', he, hash_onlyTouches_of_cell hlen hcell⟩
    refine ⟨?_, hadd, ?_⟩
    · rw [hash_Add_eq_AddLabel]
      exact hadd _
    · obtain ⟨g', he, hlen, hcell, -⟩ := hash_Remove_spec g w hv.1 hlt
      exact ⟨g', he, hash_onlyTouches_of_cell hlen hcell⟩
  · intro g hg
    have hadd : ∀ x, x ≠ Value.noEdge →
        ∃ g', g.AddLabel v w x = .ok g' ∧ g.OnlyTouches g' v w := by
      intro x hx
      obtain ⟨g', he, hsq', hcell, -⟩ := matrix_AddLabel_spec hg hv hw hx
      exact ⟨g', he, matrix_onlyTouches_of_cell hg hsq' hcell⟩
    refine ⟨hadd _ (by decide), hadd, ?_⟩
    obtain ⟨g', he, hsq', hcell, -⟩ := matrix_Remove_spec hg hv hw
    exact ⟨g', he, matrix_onlyTouches_of_cell hg hsq' hcell⟩

/-- Witness for C24 (`TestHasEdge`): after `Add(2, 1)` on `g5`, `HasEdge(2, 1)` is true and
`HasEdge(1, 2)` is still false. -/
theorem directed_mutation_frame_witness :
    ((hashOf 5 testHasEdgeOps).HasEdge 2 1 = some true ∧
      (hashOf 5 testHasEdgeOps).HasEdge 1 2 = some false ∧
      ∃ g', (hashOf 5 setupOps).Add 2 1 = .ok g' ∧ (hashOf 5 setupOps).OnlyTouches g' 2 1) ∧
    ((matrixOf 5 testHasEdgeOps).HasEdge 2 1 = some true ∧
      (matrixOf 5 testHasEdgeOps).HasEdge 1 2 = some false ∧
      ∃ g', (matrixOf 5 setupOps).Add 2 1 = .ok g' ∧
        (matrixOf 5 setupOps).OnlyTouches g' 2 1) :=
  ⟨⟨by decide, by decide,
    ((directed_mutation_frame 5 2 1 (by decide) (by decide)).1 _ (by decide)).1⟩,
   ⟨by decide, by decide,
    ((directed_mutation_frame 5 2 1 (by decide) (by decide)).2 _ ⟨by decide, by decide⟩).1⟩⟩

/-! ## Out-of-range indices -/

theorem matrix_oob {n : Nat} {g : Matrix} (hsq : g.Square n) {v w : Int}
    (h : ¬ ((0 ≤ v ∧ v < (n : Int)) ∧ (0 ≤ w ∧ w < (n : Int)))) :
    index g.adj v = none ∨ ∃ row, index g.adj v = some row ∧ index row w = none := by
  by_cases hv : 0 ≤ v ∧ v < (n : Int)
  · obtain ⟨row, hr⟩ := index_isSome_of_lt (s := g.adj) hv.1 (by rw [hsq.1]; exact hv.2)
    have hlen : row.length = n := hsq.2 _ (mem_of_index_eq_some hr)
    refine Or.inr ⟨row, hr, ?_⟩
    rw [index_eq_none_iff, hlen]
    exact fun hw => h ⟨hv, hw⟩
  · refine Or.inl ?_
    rw [index_eq_none_iff, hsq.1]
    exact hv

theorem hash_oob {n : Nat} {g : Hash} (hg : g.NumVertices = n) {v : Int}
    (h : ¬ (0 ≤ v ∧ v < (n : Int))) : index g.edges v = none := by
  unfold Hash.NumVertices at hg
  rw [index_eq_none_iff, hg]
  exact h

/-- C21, counterexample: on `NewHash(5)`, `Add(0, 7)` completes normally and stores the
edge, `HasEdge(0, 7)`, `Label(0, 7)` and `Remove(0, 7)` complete normally, and `AddBi(7, 0)`
panics only after `Add(0, 7)` has modified the graph. -/
theorem hash_out_of_range_completes :
    ¬ (0 ≤ (7 : Int) ∧ (7 : Int) < 5) ∧
    (hashOf 5 []).Add 0 7 = .ok (hashOf 5 [.Add 0 7]) ∧
    (hashOf 5 [.Add 0 7]).HasEdge 0 7 = some true ∧
    (hashOf 5 [.Add 0 7]).NumEdges = 1 ∧
    (hashOf 5 []).HasEdge 0 7 = some false ∧
    (hashOf 5 []).Label 0 7 = some Value.nil ∧
    (hashOf 5 []).Remove 0 7 = .ok (hashOf 5 []) ∧
    (hashOf 5 []).AddBi 7 0 = .panic (hashOf 5 [.Add 0 7]) ∧
    hashOf 5 [.Add 0 7] ≠ hashOf 5 [] := by
  decide

/-- C21 as amended. On a `Matrix` of `n` vertices each of `Add`, `AddLabel`, `AddBi`,
`AddBiLabel`, `Remove`, `RemoveBi`, `HasEdge`, `Label` with `v` or `w` outside `[0, n)`
panics and leaves the graph unmodified. On a `Hash` of `n` vertices the panic comes only
from indexing the slice of maps: `Add`, `AddLabel`, `Remove`, `HasEdge` and `Label` panic,
without modifying the graph, when their first index is outside `[0, n)`, and complete
normally when it is inside, whatever the second index; `AddBi`, `AddBiLabel` and `RemoveBi`
panic when `v` or `w` is outside `[0, n)`: with the graph unmodified when `w` is outside,
and after the directed operation on `(w, v)` when only `v` is outside. -/
theorem out_of_range_behaviour (n : Nat) (v w : Int) (x : Value) :
    (∀ g : Matrix, g.Square n → ¬ ((0 ≤ v ∧ v < (n : Int)) ∧ (0 ≤ w ∧ w < (n : Int))) →
      g.Add v w = .panic g ∧ g.AddLabel v w x = .panic g ∧ g.AddBi v w = .panic g ∧
      g.AddBiLabel v w x = .panic g ∧ g.Remove v w = .panic g ∧ g.RemoveBi v w = .panic g ∧
      g.HasEdge v w = none ∧ g.Label v w = none) ∧
    (∀ g : Hash, g.NumVertices = n →
      (¬ (0 ≤ v ∧ v < (n : Int)) →
        g.Add v w = .panic g ∧ g.AddLabel v w x = .panic g ∧ g.Remove v w = .panic g ∧
        g.HasEdge v w = none ∧ g.Label v w = none) ∧
      ((0 ≤ v ∧ v < (n : Int)) →
        (∃ g', g.Add v w = .ok g') ∧ (∃ g', g.AddLabel v w x = .ok g') ∧
        (∃ g', g.Remove v w = .ok g') ∧ (∃ b, g.HasEdge v w = some b) ∧
        (∃ y, g.Label v w = some y)) ∧
      (¬ (0 ≤ w ∧ w < (n : Int)) →
        g.AddBi v w = .panic g ∧ g.AddBiLabel v w x = .panic g ∧
        g.RemoveBi v w = .panic g) ∧
      (¬ (0 ≤ v ∧ v < (n : Int)) → (0 ≤ w ∧ w < (n : Int)) →
        (∃ g1, g.Add w v = .ok g1 ∧ g.AddBi v w = .panic g1) ∧
        (∃ g1, g.AddLabel w v x = .ok g1 ∧ g.AddBiLabel v w x = .panic g1) ∧
        (∃ g1, g.Remove w v = .ok g1 ∧ g.RemoveBi v w = .panic g1))) := by
  constructor
  · intro g hsq hout
    have hadd : ∀ y, g.AddLabel v w y = .panic g := by
      intro y
      rcases matrix_oob hsq hout with h | ⟨row, hr, hy⟩
      · simp [Matrix.AddLabel, h]
      · simp [Matrix.AddLabel, hr, hy]
    have hrem : g.Remove v w = .panic g := by
      rcases matrix_oob hsq hout with h | ⟨row, hr, hy⟩
      · simp [Matrix.Remove, h]
      · simp [Matrix.Remove, hr, hy]
    refine ⟨hadd _, hadd _, ?_, ?_, hrem, ?_, ?_, ?_⟩
    · simp [Matrix.AddBi, Matrix.AddBiLabel, hadd, Result.andThen]
    · simp [Matrix.AddBiLabel, hadd, Result.andThen]
    · simp [Matrix.RemoveBi, hrem, Result.andThen]
    · rcases matrix_oob hsq hout with h | ⟨row, hr, hy⟩
      · simp [Matrix.HasEdge, h]
      · simp [Matrix.HasEdge, hr, hy]
    · rcases matrix_oob hsq hout with h | ⟨row, hr, hy⟩
      · simp [Matrix.Label, h]
      · simp [Matrix.Label, hr, hy]
  · intro g hg
    have hpanic : ∀ (g : Hash) (i j : Int), index g.edges i = none →
        (∀ y, g.AddLabel i j y = .panic g) ∧ g.Remove i j = .panic g := by
      intro g i j h
      exact ⟨fun y => by simp [Hash.AddLabel, h], by simp [Hash.Remove, h]⟩
    refine ⟨?_, ?_, ?_, ?_⟩
    · intro hv
      have h := hash_oob hg hv
      refine ⟨?_, (hpanic g v w h).1 x, (hpanic g v w h).2, by simp [Hash.HasEdge, h],
        by simp [Hash.Label, h]⟩
      rw [hash_Add_eq_AddLabel]
      exact (hpanic g v w h).1 _
    · intro hv
      have hlt := hash_len_of_numVertices hg hv.2
      obtain ⟨m0, hm0⟩ := index_isSome_of_lt (s := g.edges) hv.1 hlt
      refine ⟨⟨_, by rw [hash_Add_eq_AddLabel]; exact hash_AddLabel_eq hm0 w _⟩,
        ⟨_, hash_AddLabel_eq hm0 w x⟩, ⟨_, hash_Remove_eq hm0 w⟩,
        ⟨_, by simp only [Hash.HasEdge, hm0]; rfl⟩, ?_⟩
      cases hl : mapGet m0 w with
      | none => exact ⟨Value.nil, by simp [Hash.Label, hm0, hl]⟩
      | some y => exact ⟨y, by simp [Hash.Label, hm0, hl]⟩
    · intro hw
      have h := hash_oob hg hw
      refine ⟨?_, ?_, ?_⟩
      · simp [Hash.AddBi, hash_Add_eq_AddLabel, (hpanic g w v h).1, Result.andThen]
      · simp [Hash.AddBiLabel, (hpanic g w v h).1, Result.andThen]
      · simp [Hash.RemoveBi, (hpanic g w v h).2, Result.andThen]
    · intro hv hw
      have hlt := hash_len_of_numVertices hg hw.2
      have hstep : ∀ g1 : Hash, g1.edges.length = g.edges.length →
          index g1.edges v = none := by
        intro g1 hlen
        have := hash_oob hg hv
        rw [index_eq_none_iff] at this ⊢
        rw [hlen]
        exact this
      refine ⟨?_, ?_, ?_⟩
      · obtain ⟨g1, he, hlen, -⟩ := hash_AddLabel_spec g v Value.NoLabel hw.1 hlt
        refine ⟨g1, by rw [hash_Add_eq_AddLabel]; exact he, ?_⟩
        simp [Hash.AddBi, hash_Add_eq_AddLabel, he, Result.andThen,
          (hpanic g1 v w (hstep g1 hlen)).1]
      · obtain ⟨g1, he, hlen, -⟩ := hash_AddLabel_spec g v x hw.1 hlt
        refine ⟨g1, he, ?_⟩
        simp [Hash.AddBiLabel, he, Result.andThen, (hpanic g1 v w (hstep g1 hlen)).1]
      · obtain ⟨g1, he, hlen, -⟩ := hash_Remove_spec g v hw.1 hlt
        refine ⟨g1, he, ?_⟩
        simp [Hash.RemoveBi, he, Result.andThen, (hpanic g1 v w (hstep g1 hlen)).2]

/-- Witness for C21 as amended: index 7 on graphs of 5 vertices. -/
theorem out_of_range_behaviour_witness :
    ((matrixOf 5 setupOps).Add 0 7 = .panic (matrixOf 5 setupOps) ∧
      (matrixOf 5 setupOps).HasEdge 7 0 = none) ∧
    ((hashOf 5 setupOps).Add 7 0 = .panic (hashOf 5 setupOps) ∧
      (∃ g', (hashOf 5 setupOps).Add 0 7 = .ok g') ∧
      (hashOf 5 setupOps).AddBi 0 7 = .panic (hashOf 5 setupOps) ∧
      (∃ g1, (hashOf 5 setupOps).Add 0 7 = .ok g1 ∧
        (hashOf 5 setupOps).AddBi 7 0 = .panic g1)) :=
  ⟨⟨((out_of_range_behaviour 5 0 7 Value.nil).1 _ ⟨by decide, by decide⟩ (by decide)).1,
    ((out_of_range_behaviour 5 7 0 Value.nil).1 _ ⟨by decide, by decide⟩
      (by decide)).2.2.2.2.2.2.1⟩,
   ⟨(((out_of_range_behaviour 5 7 0 Value.nil).2 _ (by decide)).1 (by decide)).1,
    (((out_of_range_behaviour 5 0 7 Value.nil).2 _ (by decide)).2.1 (by decide)).1,
    (((out_of_range_behaviour 5 0 7 Value.nil).2 _ (by decide)).2.2.1 (by decide)).1,
    (((out_of_range_behaviour 5 7 0 Value.nil).2 _ (by decide)).2.2.2 (by decide)
      (by decide)).1⟩⟩

/-! ## Traversal ignores labels -/

theorem doCalls_congr : ∀ (ns1 ns2 : List (Int × Value)) (s : State),
    ns1.map Prod.fst = ns2.map Prod.fst → doCalls ns1 s = doCalls ns2 s := by
  intro ns1
  induction ns1 with
  | nil =>
    intro ns2 s h
    cases ns2 with
    | nil => rfl
    | cons q ns2 => simp at h
  | cons p ns1 ih =>
    intro ns2 s h
    cases ns2 with
    | nil => simp at h
    | cons q ns2 =>
      obtain ⟨w, x⟩ := p
      obtain ⟨w', x'⟩ := q
      simp only [List.map_cons, List.cons.injEq] at h
      obtain ⟨hw, ht⟩ := h
      subst hw
      simp only [doCalls]
      cases visitIfNew s w with
      | error e => rfl
      | ok s' => exact ih ns2 s' ht

theorem loop_congr {g1 g2 : Iterator}
    (h : ∀ v, (g1.DoNeighbors v).map (List.map Prod.fst) =
      (g2.DoNeighbors v).map (List.map Prod.fst)) (order : Order) :
    ∀ (fuel : Nat) (s : State), loop g1 order fuel s = loop g2 order fuel s := by
  intro fuel
  induction fuel with
  | zero =>
    intro s
    unfold loop
    cases pop order s.queue with
    | none => rfl
    | some vq => rfl
  | succ fuel ih =>
    intro s
    unfold loop
    cases hp : pop order s.queue with
    | none => rfl
    | some vq =>
      obtain ⟨v, q⟩ := vq
      have hv := h v
      cases h1 : g1.DoNeighbors v with
      | none =>
        cases h2 : g2.DoNeighbors v with
        | none => simp only [h1, h2]
        | some ns2 => simp [h1, h2] at hv
      | some ns1 =>
        cases h2 : g2.DoNeighbors v with
        | none => simp [h1, h2] at hv
        | some ns2 =>
          simp only [h1, h2, Option.map_some', Option.some.injEq] at hv
          simp only [h1, h2, doCalls_congr ns1 ns2 _ hv]
          cases hd : doCalls ns2 { s with queue := q } with
          | error e => rfl
          | ok s' => exact ih s'

theorem traverse_congr {g1 g2 : Iterator}
    (h : ∀ v, (g1.DoNeighbors v).map (List.map Prod.fst) =
      (g2.DoNeighbors v).map (List.map Prod.fst))
    (start : Int) (visited : List Bool) (order : Order) :
    traverse g1 start visited order = traverse g2 start visited order := by
  unfold traverse
  cases index visited start with
  | none => rfl
  | some b =>
    cases b with
    | true => rfl
    | false =>
      simp only
      cases visit start { queue := [], visited := visited, calls := [] } with
      | error e => rfl
      | ok s => exact loop_congr h order _ s

theorem matrix_doNeighbors_keys_congr {n : Nat} {g1 g2 : Matrix} (h1 : g1.Square n)
    (h2 : g2.Square n)
    (hedges : ∀ v w : Int, 0 ≤ v → v < (n : Int) → 0 ≤ w → w < (n : Int) →
      g1.HasEdge v w = g2.HasEdge v w) (v : Int) :
    (g1.toIterator.DoNeighbors v).map (List.map Prod.fst) =
      (g2.toIterator.DoNeighbors v).map (List.map Prod.fst) := by
  by_cases hv : 0 ≤ v ∧ v < (n : Int)
  · obtain ⟨r1, hr1⟩ := index_isSome_of_lt (s := g1.adj) hv.1 (by rw [h1.1]; exact hv.2)
    obtain ⟨r2, hr2⟩ := index_isSome_of_lt (s := g2.adj) hv.1 (by rw [h2.1]; exact hv.2)
    simp only [Matrix.toIterator, Matrix.DoNeighbors, hr1, hr2, Option.map_some']
    rw [matrix_rowNeighbors_keys h1 hr1, matrix_rowNeighbors_keys h2 hr2]
    congr 2
    apply List.filter_congr
    intro w hw
    rw [List.mem_range] at hw
    rw [hedges v w hv.1 hv.2 (by omega) (by exact_mod_cast hw)]
  · have e1 : index g1.adj v = none := by rw [index_eq_none_iff, h1.1]; exact hv
    have e2 : index g2.adj v = none := by rw [index_eq_none_iff, h2.1]; exact hv
    simp [Matrix.toIterator, Matrix.DoNeighbors, e1, e2]

/-- C22: two `Matrix` graphs of `n` vertices on which `HasEdge` agrees at every pair of
vertices, whatever the labels, give the same result of `BFS` and the same result of `DFS` for
every `start` and every initial `visited`: the same sequence of calls of `action` and the same
final `visited`. For `start` in `[0, n)` and `visited` of length `n` both traversals return
normally. -/
theorem traverse_label_agnostic (n : Nat) (g1 g2 : Matrix) (h1 : g1.Square n)
    (h2 : g2.Square n)
    (hedges : ∀ v w : Int, 0 ≤ v → v < (n : Int) → 0 ≤ w → w < (n : Int) →
      g1.HasEdge v w = g2.HasEdge v w)
    (start : Int) (visited : List Bool) :
    (BFS g1.toIterator start visited = BFS g2.toIterator start visited ∧
      DFS g1.toIterator start visited = DFS g2.toIterator start visited) ∧
    (0 ≤ start ∧ start < (n : Int) → visited.length = n →
      (∃ s, BFS g1.toIterator start visited = .ok s ∧
        BFS g2.toIterator start visited = .ok s) ∧
      (∃ s, DFS g1.toIterator start visited = .ok s ∧
        DFS g2.toIterator start visited = .ok s)) := by
  have hk := matrix_doNeighbors_keys_congr h1 h2 hedges
  have hb : BFS g1.toIterator start visited = BFS g2.toIterator start visited :=
    traverse_congr hk start visited Order.bfs
  have hd : DFS g1.toIterator start visited = DFS g2.toIterator start visited :=
    traverse_congr hk start visited Order.dfs
  refine ⟨⟨hb, hd⟩, fun hs hlen => ⟨?_, ?_⟩⟩
  · obtain ⟨s, he⟩ := traverse_ok (matrix_toIterator_inRange h1) hs hlen Order.bfs
    exact ⟨s, he, by rw [← hb]; exact he⟩
  · obtain ⟨s, he⟩ := traverse_ok (matrix_toIterator_inRange h1) hs hlen Order.dfs
    exact ⟨s, he, by rw [← hd]; exact he⟩

/-- Witness for C22: the same four edges with different labels; `DFS` from 0 calls `action`
on 0, 1, 3, 2 on both graphs. -/
theorem traverse_label_agnostic_witness :
    (matrixOf 4 labelOpsA).Label 0 1 ≠ (matrixOf 4 labelOpsB).Label 0 1 ∧
    DFS (matrixOf 4 labelOpsA).toIterator 0 (List.replicate 4 false) =
      .ok { queue := [], visited := [true, true, true, true], calls := [0, 1, 3, 2] } ∧
    (BFS (matrixOf 4 labelOpsA).toIterator 0 (List.replicate 4 false) =
        BFS (matrixOf 4 labelOpsB).toIterator 0 (List.replicate 4 false) ∧
      DFS (matrixOf 4 labelOpsA).toIterator 0 (List.replicate 4 false) =
        DFS (matrixOf 4 labelOpsB).toIterator 0 (List.replicate 4 false)) :=
  ⟨by decide, by decide,
    (traverse_label_agnostic 4 (matrixOf 4 labelOpsA) (matrixOf 4 labelOpsB)
      ⟨by decide, by decide⟩ ⟨by decide, by decide⟩
      (by
        intro v w hv0 hv1 hw0 hw1
        have hv1' : v < 4 := hv1
        have hw1' : w < 4 := hw1
        interval_cases v <;> interval_cases w <;> decide)
      0 (List.replicate 4 false)).1⟩

/-! ## The effect of a traversal on `visited` -/

theorem frame_step {visited : List Bool} {s s' : State} {w : Int} (hF : Frame visited s)
    (hv : visitIfNew s w = .ok s') : Frame visited s' := by
  rcases visitIfNew_ok hv with ⟨-, rfl⟩ | ⟨hw, rfl⟩
  · exact hF
  · obtain ⟨h0, h1⟩ := index_lt_of_eq_some hw
    have hwn : w ∉ s.calls := by
      intro hin
      have := hF.marks w
      rw [if_pos hin, hw] at this
      cases this
    have hw0 : index visited w = some false := by
      have := hF.marks w
      rw [if_neg hwn, hw] at this
      exact this.symm
    refine ⟨?_, ?_, by simp [length_setIndex, hF.len], ?_⟩
    · intro u hu
      simp only [List.mem_append, List.mem_singleton] at hu
      rcases hu with h2 | h2
      · exact hF.fresh u h2
      · rw [h2]
        exact hw0
    · rw [List.nodup_append]
      refine ⟨hF.nodup, by simp, ?_⟩
      intro a ha hb
      simp only [List.mem_singleton] at hb
      exact hwn (hb ▸ ha)
    · intro u
      simp only [index_setIndex true h0 h1, List.mem_append, List.mem_singleton]
      by_cases huw : u = w
      · simp [huw]
      · simp only [huw, if_false, or_false]
        exact hF.marks u

theorem frame_init {visited : List Bool} {start : Int}
    (h : index visited start = some false) :
    Frame visited
      { queue := [start], visited := setIndex visited start true, calls := [start] } := by
  obtain ⟨h0, h1⟩ := index_lt_of_eq_some h
  refine ⟨?_, by simp, by simp [length_setIndex], ?_⟩
  · intro w hw
    simp only [List.mem_singleton] at hw
    rw [hw]
    exact h
  · intro w
    simp only [index_setIndex true h0 h1, List.mem_singleton]

theorem traverse_frame_of_ok {g : Iterator} {start : Int} {visited : List Bool}
    {order : Order} {s : State} (h : traverse g start visited order = .ok s) :
    Frame visited s := by
  cases hb : index visited start with
  | none => simp [traverse, hb] at h
  | some b =>
    cases b with
    | true =>
      simp only [traverse, hb, Except.ok.injEq] at h
      subst h
      exact ⟨by simp, by simp, rfl, by simp⟩
    | false =>
      rw [traverse_unvisited g order hb] at h
      exact (@loop_rule g order (Frame visited) (fun _ _ s => Frame visited s)
        (fun s v q hP _ => ⟨hP.fresh, hP.nodup, hP.len, hP.marks⟩)
        (fun v done s w s' hQ _ hv => frame_step hQ hv)
        (fun v ns s _ hQ => hQ)
        visited.length _ s (frame_init hb) h).1

/-- C23: for every graph (any `Iterator`), every `start`, every initial `visited` and both
orders, when `traverse` returns, `action` has been called only on vertices whose entry of
`visited` was false on entry, at most once per vertex, and the final `visited` is the initial
array with the entries of exactly these vertices set to true (so entries that were true stay
true and no other entry changes). On a graph of `n` vertices whose neighbors are in range,
with `start` in `[0, n)` and `visited` of length `n`, `traverse` does return. -/
theorem traverse_frame (g : Iterator) (start : Int) (visited : List Bool) (order : Order) :
    (∀ s, traverse g start visited order = .ok s → Frame visited s) ∧
    (∀ n : Nat, g.InRange n → visited.length = n → 0 ≤ start ∧ start < (n : Int) →
      ∃ s, traverse g start visited order = .ok s ∧ Frame visited s) := by
  refine ⟨fun s h => traverse_frame_of_ok h, fun n hg hlen hs => ?_⟩
  obtain ⟨s, he⟩ := traverse_ok hg hs hlen order
  exact ⟨s, he, traverse_frame_of_ok he⟩

/-- Witness for C23: the graph of `TestDFS` with vertex 3 already marked; `BFS` from 0 calls
`action` on 0, 1, 4 and sets exactly these entries. -/
theorem traverse_frame_witness :
    BFS (matrixOf 8 testDFSOps).toIterator 0
        [false, false, false, true, false, false, false, false] =
      .ok { queue := [], visited := [true, true, false, true, true, false, false, false],
            calls := [0, 1, 4] } ∧
    Frame [false, false, false, true, false, false, false, false]
      { queue := [], visited := [true, true, false, true, true, false, false, false],
        calls := [0, 1, 4] } ∧
    ∃ s, traverse (hashOf 8 testDFSOps |>.toIterator storageOrder) 0
        [false, false, false, true, false, false, false, false] Order.dfs = .ok s ∧
      Frame [false, false, false, true, false, false, false, false] s :=
  ⟨by decide,
   (traverse_frame (matrixOf 8 testDFSOps).toIterator 0
      [false, false, false, true, false, false, false, false] Order.bfs).1 _ (by decide),
   (traverse_frame (hashOf 8 testDFSOps |>.toIterator storageOrder) 0
      [false, false, false, true, false, false, false, false] Order.dfs).2 8
      (hash_toIterator_inRange ⟨by decide, by decide⟩ storageOrder_valid) rfl
      (by decide)⟩

/-! ## Every vertex after `start` is discovered from an earlier one -/

theorem nodup_getElem_opt_inj {α : Type} {l : List α} (h : l.Nodup) {i j : Nat} {a : α}
    (hi : l[i]? = some a) (hj : l[j]? = some a) : i = j := by
  obtain ⟨hi1, hi2⟩ := List.getElem?_eq_some.mp hi
  obtain ⟨hj1, hj2⟩ := List.getElem?_eq_some.mp hj
  exact (h.getElem_inj_iff).mp (hi2.trans hj2.symm)

theorem parentBefore_of_travInv {g : Iterator} {visited0 : List Bool} {start : Int}
    {pend : Option Int} {done : List Int} {s : State}
    (hI : TravInv g visited0 start pend done s) : ParentBefore (Edge g) start s.calls := by
  refine ⟨hI.head, ?_⟩
  intro i w hi hw
  obtain ⟨hlt, hget⟩ := List.getElem?_eq_some.mp hw
  have hmem : w ∈ s.calls := hget ▸ List.getElem_mem hlt
  have h0 : s.calls[0]? = some start := by
    rw [← List.head?_eq_getElem?]
    exact hI.head
  have hne : w ≠ start := by
    intro e
    rw [e] at hw
    have := nodup_getElem_opt_inj hI.nodup hw h0
    omega
  obtain ⟨l1, l2, u, hc, hu, hE⟩ := hI.parent w hmem hne
  have hpos : s.calls[l1.length]? = some w := by
    rw [hc, List.getElem?_append_right (le_refl _)]
    simp
  have hil : i = l1.length := nodup_getElem_opt_inj hI.nodup hw hpos
  obtain ⟨j, hj, hju⟩ := List.getElem_of_mem hu
  refine ⟨j, u, by omega, ?_, hE⟩
  rw [hc, List.getElem?_append_left hj, List.getElem?_eq_some]
  exact ⟨hj, hju⟩

theorem travInv_of_ok {g : Iterator} {start : Int} {visited0 : List Bool} {order : Order}
    {s : State} (hs : index visited0 start = some false)
    (he : traverse g start visited0 order = .ok s) : TravInv g visited0 start none [] s := by
  rw [traverse_unvisited g order hs] at he
  exact (@loop_rule g order (TravInv g visited0 start none [])
    (fun v done s => TravInv g visited0 start (some v) done s)
    (fun s v q hP hp => travInv_pop hP hp)
    (fun v done s w s' hQ hE hv => travInv_step hQ hE hv)
    (fun v ns s hn hQ => travInv_exit hn hQ)
    visited0.length _ s (travInv_init g hs) he).1

theorem matrix_edge_iff_hasEdge (g : Matrix) (u w : Int) :
    Edge g.toIterator u w ↔ g.HasEdge u w = some true := by
  unfold Edge
  simp only [Matrix.toIterator, Matrix.DoNeighbors, Matrix.HasEdge]
  cases hr : index g.adj u with
  | none => simp
  | some row =>
    simp only [Option.some.injEq, exists_eq_left', List.mem_map, Prod.exists,
      exists_and_right, exists_eq_right, mem_rowNeighbors]
    cases hx : index row w with
    | none => simp
    | some x => simp

theorem hash_edge_iff_hasEdge (g : Hash) {ord : RangeOrder} (hord : ord.Valid) (u w : Int) :
    Edge (g.toIterator ord) u w ↔ g.HasEdge u w = some true := by
  unfold Edge
  simp only [Hash.toIterator, Hash.DoNeighbors, Hash.HasEdge]
  cases hr : index g.edges u with
  | none => simp
  | some mp =>
    have hkeys : w ∈ (ord u (mapEntries mp)).map Prod.fst ↔
        w ∈ (mapEntries mp).map Prod.fst :=
      ((hord u (mapEntries mp)).map Prod.fst).mem_iff
    simp only [Option.some.injEq, exists_eq_left', hkeys]
    simp [List.any_eq_true]

/-- C26: for both orders, every graph and every initial `visited` with `start` in range
and `visited[start] == false`, when `traverse` returns, the sequence of arguments of
`action` starts with `start` and every later element `w` comes after some `u` of the
sequence with an edge from `u` to `w`: `DoNeighbors(u)` enumerates `w` (any `Iterator`),
which on a `Matrix` and on a `Hash` is `HasEdge(u, w) == true`. On a graph of `n`
vertices whose neighbors are in range, with `visited` of length `n`, `traverse` does
return. -/
theorem traverse_parent_before (order : Order) (start : Int) (visited : List Bool)
    (hs : index visited start = some false) :
    (∀ (g : Iterator) (s : State), traverse g start visited order = .ok s →
      ParentBefore (Edge g) start s.calls) ∧
    (∀ (g : Matrix) (s : State), traverse g.toIterator start visited order = .ok s →
      ParentBefore (fun u w => g.HasEdge u w = some true) start s.calls) ∧
    (∀ (g : Hash) (ord : RangeOrder), ord.Valid →
      ∀ s : State, traverse (g.toIterator ord) start visited order = .ok s →
        ParentBefore (fun u w => g.HasEdge u w = some true) start s.calls) ∧
    (∀ (g : Iterator) (n : Nat), g.InRange n → visited.length = n →
      ∃ s, traverse g start visited order = .ok s) := by
  refine ⟨?_, ?_, ?_, ?_⟩
  · intro g s he
    exact parentBefore_of_travInv (travInv_of_ok hs he)
  · intro g s he
    obtain ⟨h1, h2⟩ := parentBefore_of_travInv (travInv_of_ok hs he)
    refine ⟨h1, fun i w hi hw => ?_⟩
    obtain ⟨j, u, hj, hu, hE⟩ := h2 i w hi hw
    exact ⟨j, u, hj, hu, (matrix_edge_iff_hasEdge g u w).mp hE⟩
  · intro g ord hord s he
    obtain ⟨h1, h2⟩ := parentBefore_of_travInv (travInv_of_ok hs he)
    refine ⟨h1, fun i w hi hw => ?_⟩
    obtain ⟨j, u, hj, hu, hE⟩ := h2 i w hi hw
    exact ⟨j, u, hj, hu, (hash_edge_iff_hasEdge g hord u w).mp hE⟩
  · intro g n hg hlen
    have hr := index_lt_of_eq_some hs
    rw [hlen] at hr
    exact traverse_ok hg hr hlen order

/-- Witness for C26 (`TestDFS`): `DFS` from 0 calls `action` on 0, 1, 3, 4, 5, which starts
with 0 and in which every later vertex follows a vertex it is adjacent to. -/
theorem traverse_parent_before_witness :
    index (List.replicate 8 false) 0 = some false ∧
    DFS (matrixOf 8 testDFSOps).toIterator 0 (List.replicate 8 false) =
      .ok { queue := [], visited := [true, true, false, true, true, true, false, false],
            calls := [0, 1, 3, 4, 5] } ∧
    ParentBefore (fun u w => (matrixOf 8 testDFSOps).HasEdge u w = some true) 0
      [0, 1, 3, 4, 5] :=
  ⟨by decide, by decide,
   (traverse_parent_before Order.dfs 0 (List.replicate 8 false) (by decide)).2.1
     (matrixOf 8 testDFSOps)
     { queue := [], visited := [true, true, false, true, true, true, false, false],
       calls := [0, 1, 3, 4, 5] } (by decide)⟩

/-! ## Traversal stays in bounds -/

theorem traverse_both_ok {g : Iterator} {n : Nat} (hg : g.InRange n) :
    ∀ (start : Int) (visited : List Bool), 0 ≤ start ∧ start < (n : Int) →
      visited.length = n →
      (∃ s, BFS g start visited = .ok s) ∧ (∃ s, DFS g start visited = .ok s) :=
  fun _ _ hs hlen => ⟨traverse_ok hg hs hlen Order.bfs, traverse_ok hg hs hlen Order.dfs⟩

/-- C25: for every `n` and every sequence `ops` of mutations with indices in `[0, n)`, the
graph built from `NewMatrix(n)`, and likewise from `NewHash(n)` for every order of map
iteration, has all its neighbors in range: `DoNeighbors(v)` for `v` in `[0, n)` returns
normally and enumerates only vertices of `[0, n)`. Hence for every `start` in `[0, n)` and
every `visited` of length `n`, `BFS` and `DFS` return normally: no access to `visited`, to
the graph or to the queue is out of range. The loop pops only from a non-empty queue:
`pop` fails exactly on the empty queue, where the loop ends. -/
theorem traverse_in_bounds (n : Nat) (ops : List Op) (hops : ∀ op ∈ ops, op.Valid n) :
    (∃ g0 g, NewMatrix n = some g0 ∧ g0.run ops = .ok g ∧ g.toIterator.InRange n ∧
      ∀ (start : Int) (visited : List Bool), 0 ≤ start ∧ start < (n : Int) →
        visited.length = n →
        (∃ s, BFS g.toIterator start visited = .ok s) ∧
        (∃ s, DFS g.toIterator start visited = .ok s)) ∧
    (∃ g0 g, NewHash n = some g0 ∧ g0.run ops = .ok g ∧
      ∀ ord : RangeOrder, ord.Valid → (g.toIterator ord).InRange n ∧
        ∀ (start : Int) (visited : List Bool), 0 ≤ start ∧ start < (n : Int) →
          visited.length = n →
          (∃ s, BFS (g.toIterator ord) start visited = .ok s) ∧
          (∃ s, DFS (g.toIterator ord) start visited = .ok s)) ∧
    (∀ (order : Order) (queue : List Int), pop order queue = none ↔ queue = []) := by
  obtain ⟨h0, eh0, rh0⟩ := hash_Models_new n
  obtain ⟨h, eh, rh⟩ := hash_Models_run ops hops rh0
  obtain ⟨m0, em0, rm0⟩ := matrix_Models_new n
  obtain ⟨m, em, rm⟩ := matrix_Models_run ops hops rm0
  refine ⟨⟨m0, m, em0, em, matrix_toIterator_inRange rm.square,
    traverse_both_ok (matrix_toIterator_inRange rm.square)⟩,
    ⟨h0, h, eh0, eh, fun ord hord => ⟨hash_toIterator_inRange rh.keys hord,
      traverse_both_ok (hash_toIterator_inRange rh.keys hord)⟩⟩,
    fun order queue => pop_eq_none⟩

/-- Witness for C25: the calls of `TestNumEdges` on 5 vertices. -/
theorem traverse_in_bounds_witness :
    (∀ op ∈ testNumEdgesOps, op.Valid (5 : Nat)) ∧
    (∃ g0 g, NewMatrix (5 : Nat) = some g0 ∧ g0.run testNumEdgesOps = .ok g ∧
      g.toIterator.InRange 5 ∧
      ∀ (start : Int) (visited : List Bool), 0 ≤ start ∧ start < ((5 : Nat) : Int) →
        visited.length = 5 →
        (∃ s, BFS g.toIterator start visited = .ok s) ∧
        (∃ s, DFS g.toIterator start visited = .ok s)) ∧
    BFS (matrixOf 5 testNumEdgesOps).toIterator 2 (List.replicate 5 false) =
      .ok { queue := [], visited := [false, false, true, true, false], calls := [2, 3] } :=
  ⟨by decide, (traverse_in_bounds 5 testNumEdgesOps (by decide)).1, by decide⟩

end GoGraph
